import Mathlib

/-!
# Verification of the dual-canvas visual-anagram editor core

Shallow embedding of `src/visual_anagram_editor/permutation_model.py` and
`src/visual_anagram_editor/controller.py`.

Modelling conventions:
* RGBA pixels are quadruples of `Nat` channel values (numpy `uint8` values
  are in `[0,256)`; no arithmetic here ever wraps, so plain `Nat` is exact).
* numpy `(H, W, 4)` image arrays are modelled as a row-major flat pixel list
  together with the row width `W`; indexing `img[y, x]` becomes position
  `y * W + x` in the flat list.
* Python exceptions are modelled with `Except String`; a raising operation
  that mutates nothing before the raise is modelled as leaving the state
  unchanged.
* Python `int` coordinates (which may be negative, e.g. brush-disk offsets
  near the canvas edge) are modelled as `Int`.
-/

/-- Decidable equality of `Except` results, for evaluating concrete runs. -/
instance {e a : Type} [DecidableEq e] [DecidableEq a] : DecidableEq (Except e a) := fun u v =>
  match u, v with
  | .ok x, .ok y =>
    if h : x = y then isTrue (by rw [h])
    else isFalse (fun hc => h (Except.ok.inj hc))
  | .error x, .error y =>
    if h : x = y then isTrue (by rw [h])
    else isFalse (fun hc => h (Except.error.inj hc))
  | .ok _, .error _ => isFalse (fun hc => Except.noConfusion hc)
  | .error _, .ok _ => isFalse (fun hc => Except.noConfusion hc)

/-- One RGBA pixel: four independent 8-bit channels, as exact naturals. -/
structure Pixel where
  r : Nat
  g : Nat
  b : Nat
  a : Nat
deriving DecidableEq, Repr

/-- The all-zero (fully transparent black) pixel, the content of a freshly
allocated `np.zeros` buffer and the `getD` fallback value. -/
def pxZero : Pixel := ⟨0, 0, 0, 0⟩

/-- A numpy RGBA image array of shape `(H, W, 4)`: row width plus row-major
flat pixel data (`data.length = H * W`). -/
structure Img where
  W : Nat
  data : List Pixel
deriving DecidableEq, Repr

/-- numpy fancy-index scatter assignment `dst[idxs] = vals` on a 1-D array:
positions are written left to right (with distinct indices the order is
irrelevant). Used by `inv_perm[perm_raw] = arange(N)` and by
`flatB[perm] = flatA`. -/
def npScatter {α : Type} (dst : List α) : List Nat → List α → List α
  | [], _ => dst
  | _, [] => dst
  | i :: is, v :: vs => npScatter (dst.set i v) is vs

/-- numpy 1-D integer indexing `l[i]` for a possibly negative Python int
index: indices in `[0, len)` read directly, indices in `[-len, 0)` wrap to
`len + i`, anything else raises `IndexError`. -/
def npGetI (l : List Nat) (i : Int) : Except String Nat :=
  if 0 ≤ i ∧ i < (l.length : Int) then .ok (l.getD i.toNat 0)
  else if -(l.length : Int) ≤ i ∧ i < 0 then .ok (l.getD (i + l.length).toNat 0)
  else .error "IndexError: index out of bounds"

/-- `np.min` on a 1-D integer array: raises `ValueError` on a zero-size
array, otherwise returns the least element. -/
def npMin : List Int → Except String Int
  | [] => .error "ValueError: zero-size array to reduction operation minimum"
  | x :: xs => .ok (xs.foldl min x)

/-- `np.max` on a 1-D integer array: raises `ValueError` on a zero-size
array, otherwise returns the greatest element. -/
def npMax : List Int → Except String Int
  | [] => .error "ValueError: zero-size array to reduction operation maximum"
  | x :: xs => .ok (xs.foldl max x)

/-- Largest `k ≤ m` with `k * k ≤ n` (and `0` when there is none). -/
def floorSqrtFrom (n : Nat) : Nat → Nat
  | 0 => 0
  | k + 1 => if (k + 1) * (k + 1) ≤ n then k + 1 else floorSqrtFrom n k

/-- `int(np.sqrt(N))`: the integer square root, written with structural
recursion (every realizable `N` is far below where `float64` square roots
could misround, so the exact floor square root is the faithful model). -/
def floorSqrt (n : Nat) : Nat := floorSqrtFrom n n

theorem floorSqrtFrom_sq_le (n : Nat) : ∀ m, floorSqrtFrom n m * floorSqrtFrom n m ≤ n
  | 0 => Nat.zero_le n
  | m + 1 => by
    rw [floorSqrtFrom]
    by_cases h : (m + 1) * (m + 1) ≤ n
    · rw [if_pos h]
      exact h
    · rw [if_neg h]
      exact floorSqrtFrom_sq_le n m

theorem floorSqrtFrom_ge (n : Nat) :
    ∀ m k, k ≤ m → k * k ≤ n → k ≤ floorSqrtFrom n m
  | 0, k, hk, _ => by simpa [floorSqrtFrom] using hk
  | m + 1, k, hk, hsq => by
    rw [floorSqrtFrom]
    by_cases h : (m + 1) * (m + 1) ≤ n
    · rw [if_pos h]
      exact hk
    · rw [if_neg h]
      have hkm : k ≤ m := by
        rcases Nat.lt_or_ge k (m + 1) with h1 | h1
        · omega
        · have : (m + 1) * (m + 1) ≤ k * k := Nat.mul_le_mul h1 h1
          omega
      exact floorSqrtFrom_ge n m k hkm hsq

/-- `floorSqrt` detects perfect squares exactly. -/
theorem floorSqrt_sq_iff (n : Nat) : floorSqrt n * floorSqrt n = n ↔ ∃ k, k * k = n := by
  constructor
  · intro h
    exact ⟨floorSqrt n, h⟩
  · rintro ⟨k, hk⟩
    have hkn : k ≤ n := by
      rcases Nat.eq_zero_or_pos k with h0 | h0
      · rw [h0] at hk
        omega
      · calc k = k * 1 := (Nat.mul_one k).symm
          _ ≤ k * k := Nat.mul_le_mul_left k h0
          _ = n := hk
    have hge : k ≤ floorSqrt n := floorSqrtFrom_ge n n k hkn (le_of_eq hk)
    have hle : floorSqrt n * floorSqrt n ≤ n := floorSqrtFrom_sq_le n n
    have : floorSqrt n ≤ k := by
      rcases Nat.lt_or_ge k (floorSqrt n) with h1 | h1
      · have h2 : (k + 1) * (k + 1) ≤ floorSqrt n * floorSqrt n := Nat.mul_le_mul h1 h1
        nlinarith
      · exact h1
    have hek : floorSqrt n = k := le_antisymm this hge
    rw [hek]
    exact hk

/-- A loaded `.npy` array as seen by `np.load`: its number of dimensions and
its element values in storage order. -/
structure NpyArray where
  ndim : Nat
  data : List Int
deriving DecidableEq, Repr

/-- `permutation_model.PermutationModel`: square canvas dimensions and the
forward and inverse index permutations (validated `int64` arrays, whose
values are nonnegative, hence `Nat`). -/
structure PermutationModel where
  H : Nat
  W : Nat
  perm : List Nat
  inv_perm : List Nat
deriving DecidableEq, Repr

namespace PermutationModel

/-- `PermutationModel.from_npy`: validates the raw array (1-dimensional;
`np.unique(...).size == N`; `min == 0` and `max == N - 1`, where `np.min` /
`np.max` themselves raise on an empty array; `side * side == N` with
`side = int(np.sqrt(N))`, modelled by the exact floor square root
`floorSqrt N`) and builds `inv_perm` by the scatter
`inv_perm[perm_raw] = arange(N)`. All failures raise `ValueError`. -/
def from_npy (arr : NpyArray) : Except String PermutationModel :=
  if arr.ndim ≠ 1 then .error "Permutation must be a 1D array"
  else if arr.data.dedup.length ≠ arr.data.length then .error "Permutation is not bijective"
  else
    match npMin arr.data with
    | .error e => .error e
    | .ok mn =>
      match npMax arr.data with
      | .error e => .error e
      | .ok mx =>
        if mn ≠ 0 ∨ mx ≠ (arr.data.length : Int) - 1 then
          .error "Permutation indices must be 0..N-1"
        else if floorSqrt arr.data.length * floorSqrt arr.data.length ≠ arr.data.length then
          .error "Permutation size must form a square image"
        else
          .ok { H := floorSqrt arr.data.length
                W := floorSqrt arr.data.length
                perm := arr.data.map Int.toNat
                inv_perm := npScatter (List.replicate arr.data.length 0)
                  (arr.data.map Int.toNat) (List.range arr.data.length) }

/-- `map_coords_A_to_B`: linearize `(y, x)` to `y * W + x`, look up `perm`
with numpy integer-index semantics, and split the result with `divmod`. -/
def map_coords_A_to_B (pm : PermutationModel) (y x : Int) : Except String (Int × Int) :=
  let idxA : Int := y * pm.W + x
  match npGetI pm.perm idxA with
  | .error e => .error e
  | .ok idxB => .ok ((idxB / pm.W : Nat), (idxB % pm.W : Nat))

/-- `map_coords_B_to_A`: symmetric to `map_coords_A_to_B`, via `inv_perm`. -/
def map_coords_B_to_A (pm : PermutationModel) (y x : Int) : Except String (Int × Int) :=
  let idxB : Int := y * pm.W + x
  match npGetI pm.inv_perm idxB with
  | .error e => .error e
  | .ok idxA => .ok ((idxA / pm.W : Nat), (idxA % pm.W : Nat))

end PermutationModel

/-- `controller.PixelChange`: one recorded pixel delta. The coordinates are
in bounds whenever a change is recorded, hence `Nat`. -/
structure PixelChange where
  yA : Nat
  xA : Nat
  oldA : Pixel
  newA : Pixel
  yB : Nat
  xB : Nat
  oldB : Pixel
  newB : Pixel
deriving DecidableEq, Repr

/-- `controller.Stroke`: the ordered pixel deltas of one gesture. -/
structure Stroke where
  changes : List PixelChange
deriving DecidableEq, Repr

/-- `controller.Tool`. -/
inductive Tool where
  | BRUSH
  | ERASER
  | EYEDROPPER
deriving DecidableEq, Repr

/-- `controller.VisualAnagramController` state. The derived outline-overlay
fields (`flagged_pixels_A`, `flagged_mask_A`, `flagged_mask_B`), written
only by `_compute_piece_outline_flags` and read by nothing verified here,
are omitted. -/
structure Controller where
  permutation : Option PermutationModel
  imgA : Option Img
  imgB : Option Img
  current_tool : Tool
  brush_color : Pixel
  brush_opacity_percent : Nat
  brush_radius : Nat
  eraser_color : Pixel
  undo_stack : List Stroke
  redo_stack : List Stroke
  current_stroke : Option Stroke
  max_undo : Nat
  stroke_touched_A : Option (List (Nat × Nat))
deriving DecidableEq, Repr

namespace Controller

/-- `VisualAnagramController.__init__`. -/
def init : Controller :=
  { permutation := none
    imgA := none
    imgB := none
    current_tool := Tool.BRUSH
    brush_color := ⟨0, 0, 0, 255⟩
    brush_opacity_percent := 100
    brush_radius := 4
    eraser_color := ⟨0, 0, 0, 0⟩
    undo_stack := []
    redo_stack := []
    current_stroke := none
    max_undo := 50
    stroke_touched_A := none }

/-- `load_permutation`: on a valid file installs the permutation, fresh
all-zero buffers, and cleared history; a `ValueError` raised by `from_npy`
propagates before any assignment, leaving the state unchanged. -/
def load_permutation (s : Controller) (arr : NpyArray) : Controller :=
  match PermutationModel.from_npy arr with
  | .error _ => s
  | .ok pm =>
    { s with
      permutation := some pm
      imgA := some ⟨pm.W, List.replicate (pm.H * pm.W) pxZero⟩
      imgB := some ⟨pm.W, List.replicate (pm.H * pm.W) pxZero⟩
      undo_stack := []
      redo_stack := []
      current_stroke := none }

/-- `set_tool`. -/
def set_tool (s : Controller) (t : Tool) : Controller :=
  { s with current_tool := t }

/-- `set_brush_color`: stores a copy with the alpha channel forced opaque. -/
def set_brush_color (s : Controller) (rgba : Pixel) : Controller :=
  { s with brush_color := { rgba with a := 255 } }

/-- `set_brush_radius`: clamps below at 1. -/
def set_brush_radius (s : Controller) (radius : Int) : Controller :=
  { s with brush_radius := (max 1 radius).toNat }

/-- `set_brush_opacity_percent`: clamps into `[0, 100]`. -/
def set_brush_opacity_percent (s : Controller) (opacity : Int) : Controller :=
  { s with brush_opacity_percent := (max 0 (min 100 opacity)).toNat }

/-- Round-half-to-even of the rational `k / 100`, for `k : Nat`. This is
exactly what `np.round(...) .astype(np.uint8)` computes on line 143 of the
source: the products and sum `(100 - opacity) * old + opacity * brush` are
at most `25500 < 2^24` and hence exact in `float32`; the quotient is within
half an ulp (`< 2^-16`) of the exact rational, whose distance to the
nearest tie boundary is either `0` (the tie is itself exactly
representable) or at least `1/100`; so `np.round` (IEEE round-half-even)
of the `float32` quotient equals round-half-even of the exact rational. -/
def roundHalfEven100 (k : Nat) : Nat :=
  let q := k / 100
  let r := k % 100
  if r < 50 then q
  else if 50 < r then q + 1
  else if q % 2 = 0 then q else q + 1

/-- `_blend_with_brush`: blend RGB with the brush color at
`brush_opacity_percent`, preserving the base pixel's alpha. -/
def blend_with_brush (s : Controller) (base_pixel : Pixel) : Pixel :=
  let opacity := s.brush_opacity_percent
  if opacity = 0 then base_pixel
  else if 100 ≤ opacity then { s.brush_color with a := base_pixel.a }
  else
    { r := roundHalfEven100 ((100 - opacity) * base_pixel.r + opacity * s.brush_color.r)
      g := roundHalfEven100 ((100 - opacity) * base_pixel.g + opacity * s.brush_color.g)
      b := roundHalfEven100 ((100 - opacity) * base_pixel.b + opacity * s.brush_color.b)
      a := base_pixel.a }

/-- Whether the per-stroke dedup set is present and contains a key
(the Python conjunct `self._stroke_touched_A is not None and key in
self._stroke_touched_A`). -/
def touchedHas (t : Option (List (Nat × Nat))) (key : Nat × Nat) : Bool :=
  match t with
  | some l => decide (key ∈ l)
  | none => false

/-- `_set_pixel_A_and_B`: clip out-of-bounds coordinates; map to the paired
B coordinate (the bound checks `0 ≤ yA < H`, `0 ≤ xA < W` put the linear
index in `[0, H*W)`, where the numpy lookup of `map_coords_A_to_B` is the
plain in-range read, see `map_coords_A_to_B_inbounds`); skip coordinates
already touched in the open stroke; otherwise compute the new color (blend
for the brush, verbatim for the eraser), record a `PixelChange` if either
side's value changes, mark the A coordinate touched, and write the same
value to `imgA[yA, xA]` and `imgB[yB, xB]`. -/
def set_pixel_A_and_B (s : Controller) (yA xA : Int) (color : Pixel) (blend : Bool) :
    Controller :=
  match s.permutation, s.imgA, s.imgB with
  | some pm, some imA, some imB =>
    if ¬(0 ≤ yA ∧ yA < (pm.H : Int) ∧ 0 ≤ xA ∧ xA < (pm.W : Int)) then s
    else
      let idxA : Nat := yA.toNat * pm.W + xA.toNat
      let idxB : Nat := pm.perm.getD idxA 0
      let yB : Nat := idxB / pm.W
      let xB : Nat := idxB % pm.W
      if ¬(yB < pm.H ∧ xB < pm.W) then s
      else
        let key : Nat × Nat := (yA.toNat, xA.toNat)
        if s.current_stroke.isSome ∧ touchedHas s.stroke_touched_A key then s
        else
          let oldA := imA.data.getD (yA.toNat * imA.W + xA.toNat) pxZero
          let oldB := imB.data.getD (yB * imB.W + xB) pxZero
          let new_color := if blend then s.blend_with_brush oldA else color
          let s1 :=
            match s.current_stroke, s.stroke_touched_A with
            | some st, touched =>
              let ch : PixelChange :=
                ⟨yA.toNat, xA.toNat, oldA, new_color, yB, xB, oldB, new_color⟩
              let changes' : List PixelChange :=
                if oldA ≠ new_color ∨ oldB ≠ new_color then st.changes ++ [ch]
                else st.changes
              { s with
                current_stroke := some ⟨changes'⟩
                stroke_touched_A :=
                  match touched with
                  | some t => some (key :: t)
                  | none => none }
            | none, _ => s
          { s1 with
            imgA := some ⟨imA.W, imA.data.set (yA.toNat * imA.W + xA.toNat) new_color⟩
            imgB := some ⟨imB.W, imB.data.set (yB * imB.W + xB) new_color⟩ }
  | _, _, _ => s

/-- `_set_pixel_B_and_A`: symmetric to `_set_pixel_A_and_B`, starting from a
B coordinate, mapping through `inv_perm`, blending against the B-side base
pixel, and still deduplicating on the A coordinate. -/
def set_pixel_B_and_A (s : Controller) (yB xB : Int) (color : Pixel) (blend : Bool) :
    Controller :=
  match s.permutation, s.imgA, s.imgB with
  | some pm, some imA, some imB =>
    if ¬(0 ≤ yB ∧ yB < (pm.H : Int) ∧ 0 ≤ xB ∧ xB < (pm.W : Int)) then s
    else
      let idxB : Nat := yB.toNat * pm.W + xB.toNat
      let idxA : Nat := pm.inv_perm.getD idxB 0
      let yA : Nat := idxA / pm.W
      let xA : Nat := idxA % pm.W
      if ¬(yA < pm.H ∧ xA < pm.W) then s
      else
        let key : Nat × Nat := (yA, xA)
        if s.current_stroke.isSome ∧ touchedHas s.stroke_touched_A key then s
        else
          let oldA := imA.data.getD (yA * imA.W + xA) pxZero
          let oldB := imB.data.getD (yB.toNat * imB.W + xB.toNat) pxZero
          let new_color := if blend then s.blend_with_brush oldB else color
          let s1 :=
            match s.current_stroke, s.stroke_touched_A with
            | some st, touched =>
              let ch : PixelChange :=
                ⟨yA, xA, oldA, new_color, yB.toNat, xB.toNat, oldB, new_color⟩
              let changes' : List PixelChange :=
                if oldA ≠ new_color ∨ oldB ≠ new_color then st.changes ++ [ch]
                else st.changes
              { s with
                current_stroke := some ⟨changes'⟩
                stroke_touched_A :=
                  match touched with
                  | some t => some (key :: t)
                  | none => none }
            | none, _ => s
          { s1 with
            imgB := some ⟨imB.W, imB.data.set (yB.toNat * imB.W + xB.toNat) new_color⟩
            imgA := some ⟨imA.W, imA.data.set (yA * imA.W + xA) new_color⟩ }
  | _, _, _ => s

/-- The Python loop `for dy in range(-r, r+1)` as a list of `Int`. -/
def intRange (lo hi : Int) : List Int :=
  (List.range (hi - lo).toNat).map (fun k => lo + (k : Int))

/-- `apply_brush_A`: silently returns when nothing is loaded; for brush or
eraser, iterates the square `[-r, r]²` of offsets, filters the disk
`dy² + dx² ≤ r²`, and stamps each offset pixel through
`_set_pixel_A_and_B`; for the eyedropper, picks the A-side pixel (alpha
forced opaque) as the new brush color. -/
def apply_brush_A (s : Controller) (y x : Int) : Controller :=
  match s.permutation, s.imgA, s.imgB with
  | some pm, some imA, some _ =>
    if s.current_tool = Tool.BRUSH ∨ s.current_tool = Tool.ERASER then
      let is_brush := s.current_tool = Tool.BRUSH
      let color := if is_brush then s.brush_color else s.eraser_color
      let r : Int := s.brush_radius
      (intRange (-r) (r + 1)).foldl (fun acc dy =>
        (intRange (-r) (r + 1)).foldl (fun acc2 dx =>
          if dy * dy + dx * dx ≤ r * r then
            set_pixel_A_and_B acc2 (y + dy) (x + dx) color is_brush
          else acc2) acc) s
    else
      if 0 ≤ y ∧ y < (pm.H : Int) ∧ 0 ≤ x ∧ x < (pm.W : Int) then
        let picked := { imA.data.getD (y.toNat * imA.W + x.toNat) pxZero with a := 255 }
        set_brush_color s picked
      else s
  | _, _, _ => s

/-- `apply_brush_B`: symmetric to `apply_brush_A`, stamping through
`_set_pixel_B_and_A` and eyedropping from the B buffer. -/
def apply_brush_B (s : Controller) (y x : Int) : Controller :=
  match s.permutation, s.imgA, s.imgB with
  | some pm, some _, some imB =>
    if s.current_tool = Tool.BRUSH ∨ s.current_tool = Tool.ERASER then
      let is_brush := s.current_tool = Tool.BRUSH
      let color := if is_brush then s.brush_color else s.eraser_color
      let r : Int := s.brush_radius
      (intRange (-r) (r + 1)).foldl (fun acc dy =>
        (intRange (-r) (r + 1)).foldl (fun acc2 dx =>
          if dy * dy + dx * dx ≤ r * r then
            set_pixel_B_and_A acc2 (y + dy) (x + dx) color is_brush
          else acc2) acc) s
    else
      if 0 ≤ y ∧ y < (pm.H : Int) ∧ 0 ≤ x ∧ x < (pm.W : Int) then
        let picked := { imB.data.getD (y.toNat * imB.W + x.toNat) pxZero with a := 255 }
        set_brush_color s picked
      else s
  | _, _, _ => s

/-- `begin_stroke`: opens an empty stroke, clears the redo stack, and
initializes the empty per-stroke dedup set. -/
def begin_stroke (s : Controller) : Controller :=
  { s with
    current_stroke := some ⟨[]⟩
    redo_stack := []
    stroke_touched_A := some [] }

/-- `end_stroke`: pushes a non-empty open stroke onto the undo stack,
evicting the oldest entry (`pop(0)`) if the depth limit is exceeded, then
clears the open stroke and dedup set. -/
def end_stroke (s : Controller) : Controller :=
  let undo' :=
    match s.current_stroke with
    | some st =>
      if st.changes ≠ [] then
        let u := s.undo_stack ++ [st]
        if s.max_undo < u.length then u.drop 1 else u
      else s.undo_stack
    | none => s.undo_stack
  { s with
    undo_stack := undo'
    current_stroke := none
    stroke_touched_A := none }

/-- `can_undo`. -/
def can_undo (s : Controller) : Bool := s.undo_stack.length > 0

/-- `can_redo`. -/
def can_redo (s : Controller) : Bool := s.redo_stack.length > 0

/-- `undo`: pops the newest stroke, replays its changes in reverse
restoring `oldA` / `oldB`, and pushes it onto the redo stack. The buffer
writes require loaded buffers; with the stacks empty whenever the buffers
are unloaded (an invariant of every reachable state) the unloaded branch is
unreachable and is modelled as the identity. -/
def undo (s : Controller) : Controller :=
  match s.undo_stack.getLast? with
  | none => s
  | some stroke =>
    match s.imgA, s.imgB with
    | some imA, some imB =>
      let dataA := stroke.changes.reverse.foldl
        (fun acc c => acc.set (c.yA * imA.W + c.xA) c.oldA) imA.data
      let dataB := stroke.changes.reverse.foldl
        (fun acc c => acc.set (c.yB * imB.W + c.xB) c.oldB) imB.data
      { s with
        undo_stack := s.undo_stack.dropLast
        imgA := some ⟨imA.W, dataA⟩
        imgB := some ⟨imB.W, dataB⟩
        redo_stack := s.redo_stack ++ [stroke] }
    | _, _ => s

/-- `redo`: pops the newest redone stroke, replays its changes forward
applying `newA` / `newB`, and pushes it back onto the undo stack. -/
def redo (s : Controller) : Controller :=
  match s.redo_stack.getLast? with
  | none => s
  | some stroke =>
    match s.imgA, s.imgB with
    | some imA, some imB =>
      let dataA := stroke.changes.foldl
        (fun acc c => acc.set (c.yA * imA.W + c.xA) c.newA) imA.data
      let dataB := stroke.changes.foldl
        (fun acc c => acc.set (c.yB * imB.W + c.xB) c.newB) imB.data
      { s with
        redo_stack := s.redo_stack.dropLast
        imgA := some ⟨imA.W, dataA⟩
        imgB := some ⟨imB.W, dataB⟩
        undo_stack := s.undo_stack ++ [stroke] }
    | _, _ => s

/-- `_propagate_A_to_B` (`flatB[perm] = flatA` on an `empty_like` target)
followed by the assignment of the new B buffer. Requires a loaded
permutation and A buffer (otherwise the code raises before mutating). -/
def propagate_A_to_B (s : Controller) : Controller :=
  match s.permutation, s.imgA with
  | some pm, some imA =>
    let flatB := npScatter (List.replicate (pm.H * pm.W) pxZero) pm.perm imA.data
    { s with imgB := some ⟨pm.W, flatB⟩ }
  | _, _ => s

/-- `_propagate_B_to_A` (`flatA[inv_perm] = flatB`). -/
def propagate_B_to_A (s : Controller) : Controller :=
  match s.permutation, s.imgB with
  | some pm, some imB =>
    let flatA := npScatter (List.replicate (pm.H * pm.W) pxZero) pm.inv_perm imB.data
    { s with imgA := some ⟨pm.W, flatA⟩ }
  | _, _ => s

/-- `load_image_into_A`: `_load_image` raises `ValueError` when no
permutation is loaded (state unchanged); otherwise PIL decoding and
LANCZOS resizing produce some `H × W` RGBA array — modelled as an arbitrary
pixel-valued function sampled on the `H * W` linear indices — which
replaces A, is propagated to B, and clears the history. -/
def load_image_into_A (s : Controller) (img : Nat → Pixel) : Controller :=
  match s.permutation with
  | none => s
  | some pm =>
    let arr : Img := ⟨pm.W, (List.range (pm.H * pm.W)).map img⟩
    let s1 := propagate_A_to_B { s with imgA := some arr }
    { s1 with undo_stack := [], redo_stack := [], current_stroke := none }

/-- `load_image_into_B`: symmetric to `load_image_into_A`. -/
def load_image_into_B (s : Controller) (img : Nat → Pixel) : Controller :=
  match s.permutation with
  | none => s
  | some pm =>
    let arr : Img := ⟨pm.W, (List.range (pm.H * pm.W)).map img⟩
    let s1 := propagate_B_to_A { s with imgB := some arr }
    { s1 with undo_stack := [], redo_stack := [], current_stroke := none }

end Controller

/-- The controller's public operations, for reachability statements. -/
inductive Op where
  | loadPerm (arr : NpyArray)
  | loadImageA (img : Nat → Pixel)
  | loadImageB (img : Nat → Pixel)
  | setTool (t : Tool)
  | setBrushColor (p : Pixel)
  | setBrushRadius (n : Int)
  | setBrushOpacity (n : Int)
  | applyA (y x : Int)
  | applyB (y x : Int)
  | beginStroke
  | endStroke
  | undoOp
  | redoOp

/-- One controller call. -/
def Op.step (s : Controller) : Op → Controller
  | .loadPerm arr => s.load_permutation arr
  | .loadImageA img => s.load_image_into_A img
  | .loadImageB img => s.load_image_into_B img
  | .setTool t => s.set_tool t
  | .setBrushColor p => s.set_brush_color p
  | .setBrushRadius n => s.set_brush_radius n
  | .setBrushOpacity n => s.set_brush_opacity_percent n
  | .applyA y x => s.apply_brush_A y x
  | .applyB y x => s.apply_brush_B y x
  | .beginStroke => s.begin_stroke
  | .endStroke => s.end_stroke
  | .undoOp => s.undo
  | .redoOp => s.redo

/-- Run a call sequence from a state. -/
def Op.run (s : Controller) (ops : List Op) : Controller :=
  ops.foldl Op.step s

/-- The calls available while a gesture is open (the pointer is down): the
two apply entry points and the tool / brush setters. -/
inductive GOp where
  | gApplyA (y x : Int)
  | gApplyB (y x : Int)
  | gSetTool (t : Tool)
  | gSetBrushColor (p : Pixel)
  | gSetBrushRadius (n : Int)
  | gSetBrushOpacity (n : Int)

/-- One mid-gesture controller call. -/
def GOp.step (s : Controller) : GOp → Controller
  | .gApplyA y x => s.apply_brush_A y x
  | .gApplyB y x => s.apply_brush_B y x
  | .gSetTool t => s.set_tool t
  | .gSetBrushColor p => s.set_brush_color p
  | .gSetBrushRadius n => s.set_brush_radius n
  | .gSetBrushOpacity n => s.set_brush_opacity_percent n

/-- Run a mid-gesture call sequence. -/
def GOp.run (s : Controller) (ops : List GOp) : Controller :=
  ops.foldl GOp.step s

/-! ## Basic list lemmas -/

theorem getD_set_eq {α : Type} : ∀ (l : List α) (i : Nat) (v d : α), i < l.length →
    (l.set i v).getD i d = v
  | [], _, _, _, h => absurd h (by simp)
  | _ :: _, 0, _, _, _ => rfl
  | _ :: xs, i + 1, v, d, h =>
    by simpa using getD_set_eq xs i v d (by simpa using h)

theorem getD_set_ne {α : Type} : ∀ (l : List α) (i j : Nat) (v d : α), i ≠ j →
    (l.set i v).getD j d = l.getD j d
  | [], _, _, _, _, _ => rfl
  | _ :: _, 0, 0, _, _, h => absurd rfl h
  | _ :: _, 0, _ + 1, _, _, _ => by simp
  | _ :: _, _ + 1, 0, _, _, _ => by simp
  | _ :: xs, i + 1, j + 1, v, d, h => by
    simpa using getD_set_ne xs i j v d (fun hc => h (by simpa using hc))

theorem npScatter_length {α : Type} :
    ∀ (idxs : List Nat) (vals : List α) (dst : List α),
      (npScatter dst idxs vals).length = dst.length
  | [], vals, dst => by cases vals <;> rfl
  | _ :: _, [], _ => rfl
  | i :: is, v :: vs, dst => by
    rw [npScatter, npScatter_length is vs]
    exact List.length_set dst i v

theorem npScatter_getD_notmem {α : Type} :
    ∀ (idxs : List Nat) (vals : List α) (dst : List α) (j : Nat) (d : α),
      (∀ k ∈ idxs, k ≠ j) → (npScatter dst idxs vals).getD j d = dst.getD j d
  | [], vals, dst, j, d, _ => by cases vals <;> rfl
  | _ :: _, [], _, _, _, _ => rfl
  | i :: is, v :: vs, dst, j, d, h => by
    rw [npScatter, npScatter_getD_notmem is vs _ j d (fun k hk => h k (List.mem_cons_of_mem i hk))]
    exact getD_set_ne dst i j v d (h i (List.mem_cons_self i is))

theorem npScatter_getD {α : Type} :
    ∀ (idxs : List Nat) (vals : List α) (dst : List α) (n : Nat) (d : α),
      idxs.Nodup → n < idxs.length → n < vals.length → idxs.getD n 0 < dst.length →
      (npScatter dst idxs vals).getD (idxs.getD n 0) d = vals.getD n d
  | [], _, _, _, _, _, hn, _, _ => absurd hn (by simp)
  | _ :: _, [], _, _, _, _, _, hv, _ => absurd hv (by simp)
  | i :: is, v :: vs, dst, 0, d, hnd, _, _, hb => by
    rw [List.getD_cons_zero] at hb ⊢
    rw [npScatter, npScatter_getD_notmem is vs _ i d
      (fun k hk => fun he => (List.nodup_cons.mp hnd).1 (he ▸ hk))]
    exact getD_set_eq dst i v d hb
  | i :: is, v :: vs, dst, n + 1, d, hnd, hn, hv, hb => by
    rw [List.getD_cons_succ] at hb ⊢
    rw [List.getD_cons_succ, npScatter]
    exact npScatter_getD is vs _ n d (List.nodup_cons.mp hnd).2
      (by simpa using hn) (by simpa using hv) (by simpa using hb)

/-- Writing a list of (index, value) pairs left to right. -/
def setPairs {α : Type} (A : List α) (L : List (Nat × α)) : List α :=
  L.foldl (fun acc p => acc.set p.1 p.2) A

theorem setPairs_length {α : Type} (L : List (Nat × α)) (A : List α) :
    (setPairs A L).length = A.length := by
  induction L generalizing A with
  | nil => rfl
  | cons p ps ih => rw [setPairs, List.foldl_cons, ← setPairs, ih, List.length_set]

theorem setPairs_getD_notmem {α : Type} :
    ∀ (L : List (Nat × α)) (A : List α) (j : Nat) (d : α),
      (∀ p ∈ L, p.1 ≠ j) → (setPairs A L).getD j d = A.getD j d
  | [], _, _, _, _ => rfl
  | p :: ps, A, j, d, h => by
    rw [setPairs, List.foldl_cons, ← setPairs,
      setPairs_getD_notmem ps _ j d (fun q hq => h q (List.mem_cons_of_mem p hq))]
    exact getD_set_ne A p.1 j p.2 d (h p (List.mem_cons_self p ps))

theorem setPairs_getD_mem {α : Type} :
    ∀ (L : List (Nat × α)) (A : List α) (i : Nat) (v : α) (d : α),
      (L.map Prod.fst).Nodup → (i, v) ∈ L → i < A.length →
      (setPairs A L).getD i d = v
  | [], _, _, _, _, _, hm, _ => absurd hm (by simp)
  | (p1, p2) :: ps, A, i, v, d, hnd, hm, hb => by
    have hmap : (((p1, p2) :: ps).map Prod.fst) = p1 :: ps.map Prod.fst := rfl
    rw [hmap] at hnd
    have hnd1 := (List.nodup_cons.mp hnd).1
    have hnd2 := (List.nodup_cons.mp hnd).2
    rw [setPairs, List.foldl_cons, ← setPairs]
    rcases List.mem_cons.mp hm with he | hm'
    · have hi : p1 = i := (congrArg Prod.fst he).symm
      have hv : p2 = v := (congrArg Prod.snd he).symm
      have hni : ∀ q ∈ ps, q.1 ≠ i := by
        intro q hq he2
        have hq1 : q.1 ∈ ps.map Prod.fst := List.mem_map_of_mem Prod.fst hq
        rw [he2, ← hi] at hq1
        exact hnd1 hq1
      rw [setPairs_getD_notmem ps _ i d hni, hi, hv]
      exact getD_set_eq A i v d hb
    · exact setPairs_getD_mem ps _ i v d hnd2 hm' (by rw [List.length_set]; exact hb)

/-! ## Minimum / maximum facts for the validation reductions -/

theorem foldl_min_facts (xs : List Int) :
    ∀ x : Int, xs.foldl min x ≤ x ∧ ∀ v ∈ xs, xs.foldl min x ≤ v := by
  induction xs with
  | nil => intro x; exact ⟨le_refl x, by simp⟩
  | cons y ys ih =>
    intro x
    rw [List.foldl_cons]
    refine ⟨le_trans (ih (min x y)).1 (min_le_left x y), ?_⟩
    intro v hv
    rcases List.mem_cons.mp hv with he | hm
    · rw [he]
      exact le_trans (ih (min x y)).1 (min_le_right x y)
    · exact (ih (min x y)).2 v hm

theorem foldl_min_attained (xs : List Int) :
    ∀ x : Int, xs.foldl min x = x ∨ xs.foldl min x ∈ xs := by
  induction xs with
  | nil => intro x; exact Or.inl rfl
  | cons y ys ih =>
    intro x
    rw [List.foldl_cons]
    rcases ih (min x y) with h | h
    · rcases min_choice x y with h2 | h2
      · exact Or.inl (h.trans h2)
      · exact Or.inr (by rw [h, h2]; exact List.mem_cons_self y ys)
    · exact Or.inr (List.mem_cons_of_mem y h)

theorem foldl_max_facts (xs : List Int) :
    ∀ x : Int, x ≤ xs.foldl max x ∧ ∀ v ∈ xs, v ≤ xs.foldl max x := by
  induction xs with
  | nil => intro x; exact ⟨le_refl x, by simp⟩
  | cons y ys ih =>
    intro x
    rw [List.foldl_cons]
    refine ⟨le_trans (le_max_left x y) (ih (max x y)).1, ?_⟩
    intro v hv
    rcases List.mem_cons.mp hv with he | hm
    · rw [he]
      exact le_trans (le_max_right x y) (ih (max x y)).1
    · exact (ih (max x y)).2 v hm

theorem npMin_ok {l : List Int} {m : Int} (h : npMin l = .ok m) :
    m ∈ l ∧ ∀ v ∈ l, m ≤ v := by
  cases l with
  | nil => simp [npMin] at h
  | cons x xs =>
    have hm : xs.foldl min x = m := by simpa [npMin] using h
    constructor
    · rcases foldl_min_attained xs x with h1 | h1
      · rw [hm] at h1
        rw [h1]
        exact List.mem_cons_self x xs
      · rw [hm] at h1
        exact List.mem_cons_of_mem x h1
    · intro v hv
      rcases List.mem_cons.mp hv with he | hmem
      · exact hm ▸ he ▸ (foldl_min_facts xs x).1
      · exact hm ▸ (foldl_min_facts xs x).2 v hmem

theorem npMax_ok {l : List Int} {m : Int} (h : npMax l = .ok m) :
    ∀ v ∈ l, v ≤ m := by
  cases l with
  | nil => simp [npMax] at h
  | cons x xs =>
    have hm : xs.foldl max x = m := by simpa [npMax] using h
    intro v hv
    rcases List.mem_cons.mp hv with he | hmem
    · exact hm ▸ he ▸ (foldl_max_facts xs x).1
    · exact hm ▸ (foldl_max_facts xs x).2 v hmem

/-! ## What a successful `from_npy` guarantees -/

/-- The invariants the spec states for a loaded `PermutationModel`:
square positive dimensions, both arrays of length `N = H * W`, `perm`
duplicate-free with in-range values, and `inv_perm[perm[i]] = i`. -/
def ValidPerm (pm : PermutationModel) : Prop :=
  pm.H = pm.W ∧ 0 < pm.W ∧ pm.perm.length = pm.H * pm.W ∧
  pm.inv_perm.length = pm.H * pm.W ∧ pm.perm.Nodup ∧
  (∀ i, i < pm.H * pm.W → pm.perm.getD i 0 < pm.H * pm.W) ∧
  (∀ i, i < pm.H * pm.W → pm.inv_perm.getD (pm.perm.getD i 0) 0 = i)

instance (pm : PermutationModel) : Decidable (ValidPerm pm) := by
  unfold ValidPerm
  exact inferInstance

theorem from_npy_shape {arr : NpyArray} {pm : PermutationModel}
    (h : PermutationModel.from_npy arr = .ok pm) :
    arr.ndim = 1 ∧ arr.data ≠ [] ∧ arr.data.Nodup ∧
    (∀ v ∈ arr.data, 0 ≤ v ∧ v < (arr.data.length : Int)) ∧
    pm.H = floorSqrt arr.data.length ∧ pm.W = pm.H ∧
    pm.H * pm.W = arr.data.length ∧
    pm.perm = arr.data.map Int.toNat ∧
    pm.inv_perm =
      npScatter (List.replicate arr.data.length 0) pm.perm (List.range arr.data.length) := by
  rw [PermutationModel.from_npy] at h
  by_cases h1 : arr.ndim ≠ 1
  · rw [if_pos h1] at h
    exact absurd h (by simp)
  rw [if_neg h1] at h
  by_cases h2 : arr.data.dedup.length ≠ arr.data.length
  · rw [if_pos h2] at h
    exact absurd h (by simp)
  rw [if_neg h2] at h
  cases hmn : npMin arr.data with
  | error e =>
    rw [hmn] at h
    exact absurd h (by simp)
  | ok mn =>
    rw [hmn] at h
    cases hmx : npMax arr.data with
    | error e =>
      rw [hmx] at h
      exact absurd h (by simp)
    | ok mx =>
      rw [hmx] at h
      dsimp only at h
      by_cases h3 : mn ≠ 0 ∨ mx ≠ (arr.data.length : Int) - 1
      · rw [if_pos h3] at h
        exact absurd h (by simp)
      rw [if_neg h3] at h
      by_cases h4 : floorSqrt arr.data.length * floorSqrt arr.data.length ≠ arr.data.length
      · rw [if_pos h4] at h
        exact absurd h (by simp)
      rw [if_neg h4] at h
      have hpm := (Except.ok.injEq _ _).mp h
      subst hpm
      push_neg at h1 h2 h3 h4
      have hnodup : arr.data.Nodup := by
        have he : arr.data.dedup = arr.data :=
          List.Sublist.eq_of_length (arr.data.dedup_sublist) h2
        rw [← he]
        exact arr.data.nodup_dedup
      have hmn0 := npMin_ok hmn
      have hmxN := npMax_ok hmx
      have hne : arr.data ≠ [] := by
        intro hnil
        rw [hnil] at hmn
        simp [npMin] at hmn
      refine ⟨h1, hne, hnodup, ?_, rfl, rfl, h4, rfl, rfl⟩
      intro v hv
      refine ⟨h3.1 ▸ hmn0.2 v hv, ?_⟩
      have := hmxN v hv
      rw [h3.2] at this
      omega

theorem from_npy_valid {arr : NpyArray} {pm : PermutationModel}
    (h : PermutationModel.from_npy arr = .ok pm) : ValidPerm pm := by
  obtain ⟨_, hne, hnodup, hrange, hH, hWH, hN, hperm, hinv⟩ := from_npy_shape h
  have hlen : pm.perm.length = pm.H * pm.W := by
    rw [hperm, List.length_map, hN]
  have hpermnodup : pm.perm.Nodup := by
    rw [hperm]
    refine List.Nodup.map_on ?_ hnodup
    intro x hx y hy hxy
    have hx0 := (hrange x hx).1
    have hy0 := (hrange y hy).1
    omega
  have hbound : ∀ i, i < pm.H * pm.W → pm.perm.getD i 0 < pm.H * pm.W := by
    intro i hi
    have hi' : i < pm.perm.length := by rw [hlen]; exact hi
    set e := pm.perm.getD i 0 with he
    have hmem : e ∈ pm.perm := by
      rw [he, List.getD_eq_getElem _ _ hi']
      exact List.getElem_mem hi'
    rw [hperm] at hmem
    obtain ⟨v, hv, hvt⟩ := List.mem_map.mp hmem
    have hr := hrange v hv
    omega
  have hWpos : 0 < pm.W := by
    have hN0 : 0 < pm.H * pm.W := by
      rw [hN]
      exact List.length_pos.mpr hne
    rcases Nat.eq_zero_or_pos pm.W with h0 | h0
    · rw [h0, Nat.mul_zero] at hN0
      exact absurd hN0 (lt_irrefl 0)
    · exact h0
  refine ⟨hWH.symm, hWpos, hlen, ?_, hpermnodup, hbound, ?_⟩
  · rw [hinv, npScatter_length, List.length_replicate, hN]
  · intro i hi
    rw [hinv]
    have hstep : (npScatter (List.replicate arr.data.length 0) pm.perm
        (List.range arr.data.length)).getD (pm.perm.getD i 0) 0 =
        (List.range arr.data.length).getD i 0 := by
      refine npScatter_getD pm.perm _ _ i 0 hpermnodup ?_ ?_ ?_
      · rw [hlen]; exact hi
      · rw [List.length_range, ← hN]; exact hi
      · rw [List.length_replicate, ← hN]
        exact hbound i hi
    rw [hstep, List.getD_eq_getElem, List.getElem_range]
    rw [List.length_range, ← hN]
    exact hi

/-! ## Consequences of `ValidPerm` -/

theorem ValidPerm.hHW {pm : PermutationModel} (h : ValidPerm pm) : pm.H = pm.W := h.1

theorem ValidPerm.wpos {pm : PermutationModel} (h : ValidPerm pm) : 0 < pm.W := h.2.1

theorem ValidPerm.plen {pm : PermutationModel} (h : ValidPerm pm) :
    pm.perm.length = pm.H * pm.W := h.2.2.1

theorem ValidPerm.ilen {pm : PermutationModel} (h : ValidPerm pm) :
    pm.inv_perm.length = pm.H * pm.W := h.2.2.2.1

theorem ValidPerm.nodup {pm : PermutationModel} (h : ValidPerm pm) : pm.perm.Nodup :=
  h.2.2.2.2.1

theorem ValidPerm.bound {pm : PermutationModel} (h : ValidPerm pm) :
    ∀ i, i < pm.H * pm.W → pm.perm.getD i 0 < pm.H * pm.W := h.2.2.2.2.2.1

theorem ValidPerm.linv {pm : PermutationModel} (h : ValidPerm pm) :
    ∀ i, i < pm.H * pm.W → pm.inv_perm.getD (pm.perm.getD i 0) 0 = i := h.2.2.2.2.2.2

/-- `perm` read through `getD` is injective on `[0, N)`. -/
theorem ValidPerm.getD_inj {pm : PermutationModel} (h : ValidPerm pm) {i j : Nat}
    (hi : i < pm.H * pm.W) (hj : j < pm.H * pm.W)
    (he : pm.perm.getD i 0 = pm.perm.getD j 0) : i = j := by
  have h1 := h.linv i hi
  have h2 := h.linv j hj
  rw [he] at h1
  rw [← h1, h2]

/-- A duplicate-free sequence of `N` in-range values covers every index. -/
theorem ValidPerm.surj {pm : PermutationModel} (h : ValidPerm pm) :
    ∀ j, j < pm.H * pm.W → ∃ i, i < pm.H * pm.W ∧ pm.perm.getD i 0 = j := by
  have hsub : pm.perm ⊆ List.range (pm.H * pm.W) := by
    intro v hv
    obtain ⟨i, hi, he⟩ := List.mem_iff_getElem.mp hv
    rw [List.mem_range]
    have hgd : pm.perm.getD i 0 = v := by
      rw [List.getD_eq_getElem _ _ hi, he]
    rw [← hgd]
    exact h.bound i (by rw [← h.plen]; exact hi)
  have hsp := List.Nodup.subperm h.nodup hsub
  have hperm := List.Subperm.perm_of_length_le hsp
    (by rw [List.length_range, h.plen])
  intro j hj
  have hjm : j ∈ pm.perm := hperm.mem_iff.mpr (List.mem_range.mpr hj)
  obtain ⟨i, hi, he⟩ := List.mem_iff_getElem.mp hjm
  refine ⟨i, by rw [← h.plen]; exact hi, ?_⟩
  rw [List.getD_eq_getElem _ _ hi, he]

/-- `inv_perm` reads are in range and `perm[inv_perm[j]] = j`. -/
theorem ValidPerm.rinv {pm : PermutationModel} (h : ValidPerm pm) :
    ∀ j, j < pm.H * pm.W →
      pm.inv_perm.getD j 0 < pm.H * pm.W ∧
      pm.perm.getD (pm.inv_perm.getD j 0) 0 = j := by
  intro j hj
  obtain ⟨i, hi, he⟩ := h.surj j hj
  have h1 : pm.inv_perm.getD j 0 = i := by
    rw [← he]
    exact h.linv i hi
  rw [h1, he]
  exact ⟨hi, rfl⟩

/-! ## Linear-index arithmetic -/

theorem linIdx_lt {H W n m : Nat} (hn : n < H) (hm : m < W) : n * W + m < H * W :=
  calc n * W + m < n * W + W := by omega
  _ = (n + 1) * W := by ring
  _ ≤ H * W := Nat.mul_le_mul_right W hn

theorem linIdx_div {W n m : Nat} (hW : 0 < W) (hm : m < W) : (n * W + m) / W = n := by
  rw [Nat.add_comm, Nat.mul_comm, Nat.add_mul_div_left _ _ hW, Nat.div_eq_of_lt hm]
  omega

theorem linIdx_mod {W n m : Nat} (hm : m < W) : (n * W + m) % W = m := by
  rw [Nat.add_comm, Nat.mul_comm, Nat.add_mul_mod_self_left, Nat.mod_eq_of_lt hm]

theorem linIdx_split {W i : Nat} : (i / W) * W + i % W = i := by
  rw [Nat.mul_comm]
  exact Nat.div_add_mod i W

/-- In-range numpy indexing is the plain list read. -/
theorem npGetI_inbounds (l : List Nat) (i : Int) (h0 : 0 ≤ i) (h1 : i < (l.length : Int)) :
    npGetI l i = .ok (l.getD i.toNat 0) := by
  rw [npGetI, if_pos ⟨h0, h1⟩]

/-- Evaluation of `map_coords_A_to_B` at in-bounds coordinates: the bound
checks place the linear index inside `perm`, so the numpy lookup succeeds
and returns the mapped `divmod` pair. -/
theorem map_coords_A_to_B_inbounds {pm : PermutationModel} (h : ValidPerm pm)
    {yn xn : Nat} (hy : yn < pm.H) (hx : xn < pm.W) :
    pm.map_coords_A_to_B yn xn =
      .ok (((pm.perm.getD (yn * pm.W + xn) 0) / pm.W : Nat),
           ((pm.perm.getD (yn * pm.W + xn) 0) % pm.W : Nat)) := by
  rw [PermutationModel.map_coords_A_to_B]
  have hlin : ((yn : Int) * pm.W + xn) = ((yn * pm.W + xn : Nat) : Int) := by push_cast; ring
  have hlt : (yn * pm.W + xn) < pm.perm.length := by
    rw [h.plen]
    exact linIdx_lt hy hx
  have htn : ((yn * pm.W + xn : Nat) : Int).toNat = yn * pm.W + xn := Int.toNat_natCast _
  rw [hlin, npGetI_inbounds _ _ (by positivity) (by exact_mod_cast hlt), htn]

/-- Evaluation of `map_coords_B_to_A` at in-bounds coordinates. -/
theorem map_coords_B_to_A_inbounds {pm : PermutationModel} (h : ValidPerm pm)
    {yn xn : Nat} (hy : yn < pm.H) (hx : xn < pm.W) :
    pm.map_coords_B_to_A yn xn =
      .ok (((pm.inv_perm.getD (yn * pm.W + xn) 0) / pm.W : Nat),
           ((pm.inv_perm.getD (yn * pm.W + xn) 0) % pm.W : Nat)) := by
  rw [PermutationModel.map_coords_B_to_A]
  have hlin : ((yn : Int) * pm.W + xn) = ((yn * pm.W + xn : Nat) : Int) := by push_cast; ring
  have hlt : (yn * pm.W + xn) < pm.inv_perm.length := by
    rw [h.ilen]
    exact linIdx_lt hy hx
  have htn : ((yn * pm.W + xn : Nat) : Int).toNat = yn * pm.W + xn := Int.toNat_natCast _
  rw [hlin, npGetI_inbounds _ _ (by positivity) (by exact_mod_cast hlt), htn]

/-- Forward-then-backward mapping of an in-bounds A coordinate. -/
theorem map_AB_BA {pm : PermutationModel} (hv : ValidPerm pm)
    {yn xn : Nat} (hy : yn < pm.H) (hx : xn < pm.W) :
    pm.map_coords_A_to_B yn xn =
      .ok (((pm.perm.getD (yn * pm.W + xn) 0) / pm.W : Nat),
           ((pm.perm.getD (yn * pm.W + xn) 0) % pm.W : Nat)) ∧
    pm.map_coords_B_to_A ((pm.perm.getD (yn * pm.W + xn) 0) / pm.W : Nat)
        ((pm.perm.getD (yn * pm.W + xn) 0) % pm.W : Nat) = .ok ((yn : Int), (xn : Int)) := by
  have hidxA : yn * pm.W + xn < pm.H * pm.W := linIdx_lt hy hx
  have hidxB : pm.perm.getD (yn * pm.W + xn) 0 < pm.H * pm.W := hv.bound _ hidxA
  have hyB : pm.perm.getD (yn * pm.W + xn) 0 / pm.W < pm.H := by
    rw [Nat.div_lt_iff_lt_mul hv.wpos]
    exact hidxB
  have hxB : pm.perm.getD (yn * pm.W + xn) 0 % pm.W < pm.W := Nat.mod_lt _ hv.wpos
  refine ⟨map_coords_A_to_B_inbounds hv hy hx, ?_⟩
  have h2 := map_coords_B_to_A_inbounds hv hyB hxB
  rw [linIdx_split] at h2
  rw [hv.linv _ hidxA] at h2
  rw [h2, linIdx_div hv.wpos hx, linIdx_mod hx]

/-- Backward-then-forward mapping of an in-bounds B coordinate. -/
theorem map_BA_AB {pm : PermutationModel} (hv : ValidPerm pm)
    {yn xn : Nat} (hy : yn < pm.H) (hx : xn < pm.W) :
    pm.map_coords_B_to_A yn xn =
      .ok (((pm.inv_perm.getD (yn * pm.W + xn) 0) / pm.W : Nat),
           ((pm.inv_perm.getD (yn * pm.W + xn) 0) % pm.W : Nat)) ∧
    pm.map_coords_A_to_B ((pm.inv_perm.getD (yn * pm.W + xn) 0) / pm.W : Nat)
        ((pm.inv_perm.getD (yn * pm.W + xn) 0) % pm.W : Nat) = .ok ((yn : Int), (xn : Int)) := by
  have hidxB : yn * pm.W + xn < pm.H * pm.W := linIdx_lt hy hx
  obtain ⟨hidxA, hback⟩ := hv.rinv _ hidxB
  have hyA : pm.inv_perm.getD (yn * pm.W + xn) 0 / pm.W < pm.H := by
    rw [Nat.div_lt_iff_lt_mul hv.wpos]
    exact hidxA
  have hxA : pm.inv_perm.getD (yn * pm.W + xn) 0 % pm.W < pm.W := Nat.mod_lt _ hv.wpos
  refine ⟨map_coords_B_to_A_inbounds hv hy hx, ?_⟩
  have h2 := map_coords_A_to_B_inbounds hv hyA hxA
  rw [linIdx_split] at h2
  rw [hback] at h2
  rw [h2, linIdx_div hv.wpos hx, linIdx_mod hx]

/-- C5: for every validly loaded permutation and every in-bounds
coordinate, `map_coords_B_to_A` inverts `map_coords_A_to_B` and vice
versa (both lookups succeeding). -/
theorem C5_map_coords_roundtrip {arr : NpyArray} {pm : PermutationModel}
    (h : PermutationModel.from_npy arr = .ok pm)
    (y x : Int) (hy0 : 0 ≤ y) (hyH : y < (pm.H : Int)) (hx0 : 0 ≤ x) (hxW : x < (pm.W : Int)) :
    (∃ yB xB : Int, pm.map_coords_A_to_B y x = .ok (yB, xB) ∧
        pm.map_coords_B_to_A yB xB = .ok (y, x)) ∧
    (∃ yA xA : Int, pm.map_coords_B_to_A y x = .ok (yA, xA) ∧
        pm.map_coords_A_to_B yA xA = .ok (y, x)) := by
  have hv := from_npy_valid h
  have hyc : ((y.toNat : Int)) = y := Int.toNat_of_nonneg hy0
  have hxc : ((x.toNat : Int)) = x := Int.toNat_of_nonneg hx0
  have hyn : y.toNat < pm.H := by omega
  have hxn : x.toNat < pm.W := by omega
  constructor
  · obtain ⟨h1, h2⟩ := map_AB_BA hv hyn hxn
    rw [hyc, hxc] at h1 h2
    exact ⟨_, _, h1, h2⟩
  · obtain ⟨h1, h2⟩ := map_BA_AB hv hyn hxn
    rw [hyc, hxc] at h1 h2
    exact ⟨_, _, h1, h2⟩

/-- Concrete 4×4 permutation source: identity except indices 0 and 15
swapped (the spec's running example). -/
def npyTest16 : NpyArray := ⟨1, [15, 1, 2, 3, 4, 5, 6, 7, 8, 9, 10, 11, 12, 13, 14, 0]⟩

/-- The loaded model for `npyTest16`: H = W = 4, the swap permutation is
its own inverse. -/
def pmTest16 : PermutationModel :=
  ⟨4, 4, [15, 1, 2, 3, 4, 5, 6, 7, 8, 9, 10, 11, 12, 13, 14, 0],
   [15, 1, 2, 3, 4, 5, 6, 7, 8, 9, 10, 11, 12, 13, 14, 0]⟩

theorem from_npy_npyTest16 : PermutationModel.from_npy npyTest16 = .ok pmTest16 := by decide

/-- Witness for C5 at a concrete valid permutation and coordinate. -/
theorem C5_map_coords_roundtrip_witness :
    (∃ yB xB : Int, pmTest16.map_coords_A_to_B 1 2 = .ok (yB, xB) ∧
        pmTest16.map_coords_B_to_A yB xB = .ok (1, 2)) ∧
    (∃ yA xA : Int, pmTest16.map_coords_B_to_A 1 2 = .ok (yA, xA) ∧
        pmTest16.map_coords_A_to_B yA xA = .ok (1, 2)) :=
  C5_map_coords_roundtrip from_npy_npyTest16 1 2 (by decide) (by decide) (by decide) (by decide)

/-- C6 counterexample: on a concrete valid 4×4 permutation, the mapping
operation applied to the out-of-range coordinate (4, 0) raises IndexError
rather than clipping to a no-op. -/
theorem C6_counterexample :
    PermutationModel.from_npy npyTest16 = .ok pmTest16 ∧
    pmTest16.map_coords_A_to_B 4 0 = .error "IndexError: index out of bounds" := by
  decide

/-- C6 (amended): out-of-range coordinates passed to the apply operations'
per-pixel writes are clipped to a no-op and never raise; the mapping
operations require in-range coordinates (for which they succeed), and may
raise IndexError outside that range. -/
theorem C6_apply_out_of_range_noop (s : Controller) (pm : PermutationModel)
    (hp : s.permutation = some pm) (y x : Int)
    (hout : ¬(0 ≤ y ∧ y < (pm.H : Int) ∧ 0 ≤ x ∧ x < (pm.W : Int)))
    (color : Pixel) (blend : Bool) :
    Controller.set_pixel_A_and_B s y x color blend = s ∧
    Controller.set_pixel_B_and_A s y x color blend = s ∧
    (ValidPerm pm → ∀ y' x' : Int, 0 ≤ y' → y' < (pm.H : Int) → 0 ≤ x' → x' < (pm.W : Int) →
      (∃ p, pm.map_coords_A_to_B y' x' = .ok p) ∧
      (∃ p, pm.map_coords_B_to_A y' x' = .ok p)) := by
  refine ⟨?_, ?_, ?_⟩
  · rcases hA : s.imgA with _ | imA <;> rcases hB : s.imgB with _ | imB <;>
      simp only [Controller.set_pixel_A_and_B, hp, hA, hB] <;>
      rw [if_pos hout]
  · rcases hA : s.imgA with _ | imA <;> rcases hB : s.imgB with _ | imB <;>
      simp only [Controller.set_pixel_B_and_A, hp, hA, hB] <;>
      rw [if_pos hout]
  · intro hv y' x' hy0 hyH hx0 hxW
    have hyn : y'.toNat < pm.H := by omega
    have hxn : x'.toNat < pm.W := by omega
    have hyc : ((y'.toNat : Int)) = y' := Int.toNat_of_nonneg hy0
    have hxc : ((x'.toNat : Int)) = x' := Int.toNat_of_nonneg hx0
    constructor
    · have h1 := map_coords_A_to_B_inbounds hv hyn hxn
      rw [hyc, hxc] at h1
      exact ⟨_, h1⟩
    · have h1 := map_coords_B_to_A_inbounds hv hyn hxn
      rw [hyc, hxc] at h1
      exact ⟨_, h1⟩

/-- The controller immediately after loading `npyTest16`. -/
def sTest16 : Controller := Controller.init.load_permutation npyTest16

/-- Witness for the amended C6 at concrete out-of-range input (4, 17). -/
theorem C6_apply_out_of_range_noop_witness :
    Controller.set_pixel_A_and_B sTest16 4 17 pxZero true = sTest16 ∧
    Controller.set_pixel_B_and_A sTest16 4 17 pxZero true = sTest16 ∧
    (ValidPerm pmTest16 →
      ∀ y' x' : Int, 0 ≤ y' → y' < (pmTest16.H : Int) → 0 ≤ x' → x' < (pmTest16.W : Int) →
      (∃ p, pmTest16.map_coords_A_to_B y' x' = .ok p) ∧
      (∃ p, pmTest16.map_coords_B_to_A y' x' = .ok p)) :=
  C6_apply_out_of_range_noop sTest16 pmTest16 (by decide) 4 17 (by decide) pxZero true

/-- C7 counterexample: with nothing loaded, a brush application returns
normally — no exception, no state change, hence no distinguishable
StateNotReady failure reported to the caller. -/
theorem C7_counterexample :
    Controller.init.permutation = none ∧ Controller.init.imgA = none ∧
    Controller.init.apply_brush_A 0 0 = Controller.init ∧
    Controller.init.apply_brush_B 0 0 = Controller.init := by
  decide

/-- C7 (amended): invoking a brush application before a permutation and
buffers exist is a silent no-op: the call returns without raising and
leaves the in-memory state unaffected. -/
theorem C7_apply_not_ready_noop (s : Controller) (y x : Int) (hp : s.permutation = none) :
    s.apply_brush_A y x = s ∧ s.apply_brush_B y x = s := by
  constructor
  · rcases hA : s.imgA with _ | imA <;> rcases hB : s.imgB with _ | imB <;>
      simp [Controller.apply_brush_A, hp, hA, hB]
  · rcases hA : s.imgA with _ | imA <;> rcases hB : s.imgB with _ | imB <;>
      simp [Controller.apply_brush_B, hp, hA, hB]

/-- Witness for the amended C7 on the freshly constructed controller. -/
theorem C7_apply_not_ready_noop_witness :
    Controller.init.apply_brush_A 2 3 = Controller.init ∧
    Controller.init.apply_brush_B 2 3 = Controller.init :=
  C7_apply_not_ready_noop Controller.init 2 3 (by decide)

theorem rhe100_mul100 (k : Nat) : Controller.roundHalfEven100 (100 * k) = k := by
  unfold Controller.roundHalfEven100
  have h1 : 100 * k / 100 = k := Nat.mul_div_cancel_left k (by norm_num)
  have h2 : 100 * k % 100 = 0 := Nat.mul_mod_right 100 k
  rw [h1, h2]
  norm_num

/-- C8: the Brush blend writes, per RGB channel, the round-half-even (the
rounding `np.round` uses) of `((100 - opacity) * old + opacity * brush) /
100`, preserving the old pixel's alpha; opacity 0 leaves the pixel exactly
unchanged; opacity 100 writes the brush RGB exactly while keeping the
destination's alpha. -/
theorem C8_blend_formula (s : Controller) (base : Pixel)
    (h : s.brush_opacity_percent ≤ 100) :
    (s.blend_with_brush base).r =
      Controller.roundHalfEven100 ((100 - s.brush_opacity_percent) * base.r +
        s.brush_opacity_percent * s.brush_color.r) ∧
    (s.blend_with_brush base).g =
      Controller.roundHalfEven100 ((100 - s.brush_opacity_percent) * base.g +
        s.brush_opacity_percent * s.brush_color.g) ∧
    (s.blend_with_brush base).b =
      Controller.roundHalfEven100 ((100 - s.brush_opacity_percent) * base.b +
        s.brush_opacity_percent * s.brush_color.b) ∧
    (s.blend_with_brush base).a = base.a ∧
    (s.brush_opacity_percent = 0 → s.blend_with_brush base = base) ∧
    (s.brush_opacity_percent = 100 →
      (s.blend_with_brush base).r = s.brush_color.r ∧
      (s.blend_with_brush base).g = s.brush_color.g ∧
      (s.blend_with_brush base).b = s.brush_color.b ∧
      (s.blend_with_brush base).a = base.a) := by
  by_cases h0 : s.brush_opacity_percent = 0
  · have he : s.blend_with_brush base = base := by
      rw [Controller.blend_with_brush]
      simp [h0]
    rw [he, h0]
    refine ⟨?_, ?_, ?_, rfl, fun _ => rfl, fun hc => absurd hc (by omega)⟩ <;>
      simp [rhe100_mul100]
  by_cases h100 : 100 ≤ s.brush_opacity_percent
  · have ho : s.brush_opacity_percent = 100 := le_antisymm h h100
    have he : s.blend_with_brush base = { s.brush_color with a := base.a } := by
      rw [Controller.blend_with_brush]
      simp [h0, h100]
    rw [he, ho]
    refine ⟨?_, ?_, ?_, rfl, fun hc => absurd hc (by omega), fun _ => ⟨?_, ?_, ?_, rfl⟩⟩ <;>
      simp [rhe100_mul100]
  · have he : s.blend_with_brush base =
        { r := Controller.roundHalfEven100 ((100 - s.brush_opacity_percent) * base.r +
            s.brush_opacity_percent * s.brush_color.r)
          g := Controller.roundHalfEven100 ((100 - s.brush_opacity_percent) * base.g +
            s.brush_opacity_percent * s.brush_color.g)
          b := Controller.roundHalfEven100 ((100 - s.brush_opacity_percent) * base.b +
            s.brush_opacity_percent * s.brush_color.b)
          a := base.a } := by
      rw [Controller.blend_with_brush]
      simp [h0, h100]
    rw [he]
    exact ⟨rfl, rfl, rfl, rfl, fun hc => absurd hc h0, fun hc => absurd hc (by omega)⟩

/-- A controller with partial opacity and a concrete brush color. -/
def sBlendTest : Controller :=
  { Controller.init with brush_opacity_percent := 30, brush_color := ⟨200, 100, 50, 255⟩ }

/-- Witness for C8 at opacity 30 on a concrete base pixel. -/
theorem C8_blend_formula_witness :
    (sBlendTest.blend_with_brush ⟨10, 20, 30, 40⟩).r =
      Controller.roundHalfEven100 ((100 - sBlendTest.brush_opacity_percent) * (10 : Nat) +
        sBlendTest.brush_opacity_percent * sBlendTest.brush_color.r) ∧
    (sBlendTest.blend_with_brush ⟨10, 20, 30, 40⟩).g =
      Controller.roundHalfEven100 ((100 - sBlendTest.brush_opacity_percent) * (20 : Nat) +
        sBlendTest.brush_opacity_percent * sBlendTest.brush_color.g) ∧
    (sBlendTest.blend_with_brush ⟨10, 20, 30, 40⟩).b =
      Controller.roundHalfEven100 ((100 - sBlendTest.brush_opacity_percent) * (30 : Nat) +
        sBlendTest.brush_opacity_percent * sBlendTest.brush_color.b) ∧
    (sBlendTest.blend_with_brush ⟨10, 20, 30, 40⟩).a = (40 : Nat) ∧
    (sBlendTest.brush_opacity_percent = 0 →
      sBlendTest.blend_with_brush ⟨10, 20, 30, 40⟩ = ⟨10, 20, 30, 40⟩) ∧
    (sBlendTest.brush_opacity_percent = 100 →
      (sBlendTest.blend_with_brush ⟨10, 20, 30, 40⟩).r = sBlendTest.brush_color.r ∧
      (sBlendTest.blend_with_brush ⟨10, 20, 30, 40⟩).g = sBlendTest.brush_color.g ∧
      (sBlendTest.blend_with_brush ⟨10, 20, 30, 40⟩).b = sBlendTest.brush_color.b ∧
      (sBlendTest.blend_with_brush ⟨10, 20, 30, 40⟩).a = (40 : Nat)) :=
  C8_blend_formula sBlendTest ⟨10, 20, 30, 40⟩ (by decide)

theorem foldl_max_attained (xs : List Int) :
    ∀ x : Int, xs.foldl max x = x ∨ xs.foldl max x ∈ xs := by
  induction xs with
  | nil => intro x; exact Or.inl rfl
  | cons y ys ih =>
    intro x
    rw [List.foldl_cons]
    rcases ih (max x y) with h | h
    · rcases max_choice x y with h2 | h2
      · exact Or.inl (h.trans h2)
      · exact Or.inr (by rw [h, h2]; exact List.mem_cons_self y ys)
    · exact Or.inr (List.mem_cons_of_mem y h)

theorem npMax_ok_mem {l : List Int} {m : Int} (h : npMax l = .ok m) : m ∈ l := by
  cases l with
  | nil => simp [npMax] at h
  | cons x xs =>
    have hm : xs.foldl max x = m := by simpa [npMax] using h
    rcases foldl_max_attained xs x with h1 | h1
    · rw [hm] at h1
      rw [h1]
      exact List.mem_cons_self x xs
    · rw [hm] at h1
      exact List.mem_cons_of_mem x h1

/-- The list `[0, 1, ..., n-1]` as integers. -/
def rangeInt (n : Nat) : List Int := (List.range n).map (fun k => Int.ofNat k)

theorem rangeInt_length (n : Nat) : (rangeInt n).length = n := by
  rw [rangeInt, List.length_map, List.length_range]

theorem mem_rangeInt {n : Nat} {v : Int} : v ∈ rangeInt n ↔ 0 ≤ v ∧ v < (n : Int) := by
  rw [rangeInt, List.mem_map]
  constructor
  · rintro ⟨k, hk, he⟩
    rw [List.mem_range] at hk
    rw [← he]
    constructor
    · exact Int.ofNat_nonneg k
    · rw [Int.ofNat_eq_natCast]
      exact_mod_cast hk
  · rintro ⟨h0, hn⟩
    refine ⟨v.toNat, List.mem_range.mpr (by omega), ?_⟩
    rw [Int.ofNat_eq_natCast]
    exact Int.toNat_of_nonneg h0

theorem rangeInt_nodup (n : Nat) : (rangeInt n).Nodup :=
  List.Nodup.map (fun a b hab => Int.ofNat.inj hab) (List.nodup_range n)

/-- Spec-side predicate (from the spec's words): the source values are
exactly a permutation of `[0, N)`. -/
def IsPermOfRange (data : List Int) : Prop :=
  data.Perm (rangeInt data.length)

instance (data : List Int) : Decidable (IsPermOfRange data) := by
  unfold IsPermOfRange
  exact inferInstance

/-- A successful load means the input was 1-D, nonempty, a permutation of
`[0, N)`, and of perfect-square length. -/
theorem from_npy_ok_good {arr : NpyArray} {pm : PermutationModel}
    (h : PermutationModel.from_npy arr = .ok pm) :
    arr.ndim = 1 ∧ arr.data ≠ [] ∧ IsPermOfRange arr.data ∧
    floorSqrt arr.data.length * floorSqrt arr.data.length = arr.data.length := by
  obtain ⟨h1, hne, hnodup, hrange, hH, hWH, hN, _, _⟩ := from_npy_shape h
  refine ⟨h1, hne, ?_, ?_⟩
  · have hsub : arr.data ⊆ rangeInt arr.data.length := by
      intro v hv
      exact mem_rangeInt.mpr (hrange v hv)
    have hsp := List.Nodup.subperm hnodup hsub
    exact List.Subperm.perm_of_length_le hsp (le_of_eq (rangeInt_length _))
  · calc floorSqrt arr.data.length * floorSqrt arr.data.length = pm.H * pm.W := by
          rw [hH, hWH, hH]
      _ = arr.data.length := hN

/-- Conversely, a 1-D, nonempty, in-range-permutation, perfect-square input
validates successfully. -/
theorem from_npy_good_ok {arr : NpyArray}
    (h1 : arr.ndim = 1) (hne : arr.data ≠ []) (hperm : IsPermOfRange arr.data)
    (hsq : floorSqrt arr.data.length * floorSqrt arr.data.length = arr.data.length) :
    ∃ pm, PermutationModel.from_npy arr = .ok pm := by
  have hnodup : arr.data.Nodup := (List.Perm.nodup_iff hperm).mpr (rangeInt_nodup _)
  have hdedup : arr.data.dedup.length = arr.data.length := by
    rw [List.dedup_eq_self.mpr hnodup]
  have hlen0 : 0 < arr.data.length := List.length_pos.mpr hne
  have hmem0 : (0 : Int) ∈ arr.data := by
    rw [List.Perm.mem_iff hperm]
    exact mem_rangeInt.mpr ⟨le_refl 0, by exact_mod_cast hlen0⟩
  have hmemN : ((arr.data.length - 1 : Nat) : Int) ∈ arr.data := by
    rw [List.Perm.mem_iff hperm]
    refine mem_rangeInt.mpr ⟨by omega, by omega⟩
  have hrng : ∀ v ∈ arr.data, 0 ≤ v ∧ v < (arr.data.length : Int) := by
    intro v hv
    rw [List.Perm.mem_iff hperm] at hv
    exact mem_rangeInt.mp hv
  obtain ⟨x, xs, hd⟩ := List.exists_cons_of_ne_nil hne
  have hmn : npMin arr.data = .ok (xs.foldl min x) := by rw [hd]; rfl
  have hmx : npMax arr.data = .ok (xs.foldl max x) := by rw [hd]; rfl
  obtain ⟨hmnmem, hmnle⟩ := npMin_ok hmn
  have hmxmem := npMax_ok_mem hmx
  have hmxge := npMax_ok hmx
  have hmn0 : xs.foldl min x = 0 := by
    have hle := hmnle 0 hmem0
    have hge := (hrng _ hmnmem).1
    omega
  have hmxN : xs.foldl max x = (arr.data.length : Int) - 1 := by
    have hge := hmxge _ hmemN
    have hle := (hrng _ hmxmem).2
    omega
  cases hfn : PermutationModel.from_npy arr with
  | ok pm => exact ⟨pm, rfl⟩
  | error e =>
    exfalso
    rw [PermutationModel.from_npy, if_neg (not_ne_iff.mpr h1),
      if_neg (not_ne_iff.mpr hdedup), hmn] at hfn
    dsimp only at hfn
    rw [hmx] at hfn
    dsimp only at hfn
    rw [hmn0, hmxN] at hfn
    rw [if_neg (by simp), if_neg (not_ne_iff.mpr hsq)] at hfn
    exact Except.noConfusion hfn

/-- C4 counterexample: the empty 1-D array IS a permutation of `[0, 0)`
and `0` IS a perfect square, yet loading fails (numpy raises on the
zero-size reduction `perm_raw.min()`), so the claimed "exactly when" is
false at this input. -/
theorem C4_counterexample :
    PermutationModel.from_npy ⟨1, []⟩ =
      .error "ValueError: zero-size array to reduction operation minimum" ∧
    (⟨1, []⟩ : NpyArray).ndim = 1 ∧ IsPermOfRange ([] : List Int) ∧
    (∃ k : Nat, k * k = ([] : List Int).length) :=
  ⟨by decide, by decide, by decide, ⟨0, by decide⟩⟩

/-- C4 (amended): loading fails exactly when the source is not
1-dimensional, or is empty, or is not exactly a permutation of `[0, N)`,
or `N` is not a perfect square; and on failure the prior controller state
(permutation, buffers, history) is left entirely unchanged. -/
theorem C4_load_permutation_failure (arr : NpyArray) (s : Controller) :
    ((∃ e, PermutationModel.from_npy arr = .error e) ↔
      (arr.ndim ≠ 1 ∨ arr.data = [] ∨ ¬ IsPermOfRange arr.data ∨
        ¬ ∃ k : Nat, k * k = arr.data.length)) ∧
    (∀ e, PermutationModel.from_npy arr = .error e → s.load_permutation arr = s) := by
  constructor
  · constructor
    · rintro ⟨e, he⟩
      by_contra hc
      push_neg at hc
      obtain ⟨h1, hne, hperm, hk⟩ := hc
      obtain ⟨pm, hok⟩ := from_npy_good_ok h1 hne hperm
        ((floorSqrt_sq_iff arr.data.length).mpr hk)
      rw [hok] at he
      exact Except.noConfusion he
    · intro hc
      cases hfn : PermutationModel.from_npy arr with
      | error e => exact ⟨e, rfl⟩
      | ok pm =>
        obtain ⟨h1, hne, hperm, hsq⟩ := from_npy_ok_good hfn
        have hk := (floorSqrt_sq_iff arr.data.length).mp hsq
        rcases hc with h | h | h | h
        · exact absurd h1 h
        · exact absurd h hne
        · exact absurd hperm h
        · exact absurd hk h
  · intro e he
    rw [Controller.load_permutation, he]

/-- Witness for C4 at a concrete malformed input (a duplicate entry). -/
theorem C4_load_permutation_failure_witness :
    ((∃ e, PermutationModel.from_npy ⟨1, [0, 0, 1, 2]⟩ = .error e) ↔
      ((⟨1, [0, 0, 1, 2]⟩ : NpyArray).ndim ≠ 1 ∨
        (⟨1, [0, 0, 1, 2]⟩ : NpyArray).data = [] ∨
        ¬ IsPermOfRange (⟨1, [0, 0, 1, 2]⟩ : NpyArray).data ∨
        ¬ ∃ k : Nat, k * k = (⟨1, [0, 0, 1, 2]⟩ : NpyArray).data.length)) ∧
    (∀ e, PermutationModel.from_npy ⟨1, [0, 0, 1, 2]⟩ = .error e →
      Controller.init.load_permutation ⟨1, [0, 0, 1, 2]⟩ = Controller.init) :=
  C4_load_permutation_failure ⟨1, [0, 0, 1, 2]⟩ Controller.init

/-! ## More list utilities for the buffer proofs -/

theorem getD_replicate {α : Type} (n i : Nat) (x d : α) (h : i < n) :
    (List.replicate n x).getD i d = x := by
  rw [List.getD_eq_getElem _ _ (by simpa using h), List.getElem_replicate]

theorem linIdx_inj {W n m n' m' : Nat} (hm : m < W) (hm' : m' < W)
    (h : n * W + m = n' * W + m') : n = n' ∧ m = m' := by
  have hW : 0 < W := by omega
  constructor
  · rw [← @linIdx_div W n m hW hm, ← @linIdx_div W n' m' hW hm', h]
  · rw [← @linIdx_mod W n m hm, ← @linIdx_mod W n' m' hm', h]

theorem list_ext_getD {α : Type} (l1 l2 : List α) (d : α) (hlen : l1.length = l2.length)
    (h : ∀ i, i < l1.length → l1.getD i d = l2.getD i d) : l1 = l2 := by
  apply List.ext_getElem hlen
  intro i h1 h2
  have hi := h i h1
  rwa [List.getD_eq_getElem _ _ h1, List.getD_eq_getElem _ _ h2] at hi

theorem set_self_getD {α : Type} (l : List α) (i : Nat) (v d : α)
    (hv : l.getD i d = v) : (l.set i v).getD j d = l.getD j d := by
  by_cases he : i = j
  · subst he
    by_cases hi : i < l.length
    · rw [getD_set_eq _ _ _ _ hi, hv]
    · rw [List.set_eq_of_length_le (by omega)]
  · exact getD_set_ne _ _ _ _ _ he

theorem foldl_set_as_setPairs {β : Type} (f : β → Nat) (g : β → Pixel) :
    ∀ (chs : List β) (A : List Pixel),
      chs.foldl (fun acc c => acc.set (f c) (g c)) A =
        setPairs A (chs.map (fun c => (f c, g c))) := by
  intro chs A
  rw [setPairs, List.foldl_map]

theorem mem_of_getLast? {α : Type} {l : List α} {x : α} (h : l.getLast? = some x) : x ∈ l := by
  cases l with
  | nil => simp at h
  | cons y ys =>
    rw [List.getLast?_eq_getLast (y :: ys) (by simp)] at h
    have hne : (y :: ys) ≠ [] := by simp
    have hm := List.getLast_mem hne
    have hx := Option.some_inj.mp h
    rwa [hx] at hm

/-- `inv_perm` is itself duplicate-free. -/
theorem ValidPerm.inv_nodup {pm : PermutationModel} (h : ValidPerm pm) :
    pm.inv_perm.Nodup := by
  rw [List.nodup_iff_injective_get]
  intro i j he
  have hi : (i : Nat) < pm.H * pm.W := lt_of_lt_of_eq i.isLt h.ilen
  have hj : (j : Nat) < pm.H * pm.W := lt_of_lt_of_eq j.isLt h.ilen
  have hgi : pm.inv_perm.getD i 0 = pm.inv_perm.get i := by
    rw [List.getD_eq_getElem _ _ i.isLt, List.get_eq_getElem]
  have hgj : pm.inv_perm.getD j 0 = pm.inv_perm.get j := by
    rw [List.getD_eq_getElem _ _ j.isLt, List.get_eq_getElem]
  have h2 : pm.inv_perm.getD i 0 = pm.inv_perm.getD j 0 := by rw [hgi, hgj, he]
  have h3 := (h.rinv i hi).2
  have h4 := (h.rinv j hj).2
  rw [h2] at h3
  rw [h4] at h3
  exact Fin.ext h3.symm

/-! ## Invariants -/

/-- Linear A-side index of a recorded change. -/
def chIdxA (W : Nat) (c : PixelChange) : Nat := c.yA * W + c.xA

/-- Linear B-side index of a recorded change. -/
def chIdxB (W : Nat) (c : PixelChange) : Nat := c.yB * W + c.xB

/-- Coordinate-domain facts of a recorded change: both coordinate pairs in
bounds and the B index the permutation image of the A index. -/
def ChDom (pm : PermutationModel) (c : PixelChange) : Prop :=
  c.yA < pm.H ∧ c.xA < pm.W ∧ c.yB < pm.H ∧ c.xB < pm.W ∧
  chIdxB pm.W c = pm.perm.getD (chIdxA pm.W c) 0

/-- A change as recorded by the controller: domain facts plus the mirrored
old and new values (both sides hold equal bytes). -/
def GoodChange (pm : PermutationModel) (c : PixelChange) : Prop :=
  ChDom pm c ∧ c.oldA = c.oldB ∧ c.newA = c.newB

def GoodStroke (pm : PermutationModel) (st : Stroke) : Prop :=
  ∀ c ∈ st.changes, GoodChange pm c

/-- The central spec invariant: `B[perm[i]] == A[i]` for every linear i. -/
def Synced (pm : PermutationModel) (da db : List Pixel) : Prop :=
  ∀ i, i < pm.H * pm.W →
    db.getD (pm.perm.getD i 0) pxZero = da.getD i pxZero

/-- Reachability invariant of the controller: when loaded, the permutation
is valid, buffers are well-shaped and synced, and every recorded change in
the history or the open stroke is a mirrored in-bounds pair; when unloaded,
there is no history and any open stroke is empty. -/
def CtrlInv (s : Controller) : Prop :=
  match s.permutation, s.imgA, s.imgB with
  | some pm, some a, some b =>
      ValidPerm pm ∧ a.W = pm.W ∧ b.W = pm.W ∧
      a.data.length = pm.H * pm.W ∧ b.data.length = pm.H * pm.W ∧
      Synced pm a.data b.data ∧
      (∀ st ∈ s.undo_stack, GoodStroke pm st) ∧
      (∀ st ∈ s.redo_stack, GoodStroke pm st) ∧
      (∀ st, s.current_stroke = some st → GoodStroke pm st)
  | none, none, none =>
      s.undo_stack = [] ∧ s.redo_stack = [] ∧
      (∀ st, s.current_stroke = some st → st.changes = [])
  | _, _, _ => False

/-- A simultaneous write of the same value at `i` in A and `perm[i]` in B
preserves the sync invariant. -/
theorem Synced.set_pair {pm : PermutationModel} {da db : List Pixel}
    (hv : ValidPerm pm) (hs : Synced pm da db)
    (hla : da.length = pm.H * pm.W) (hlb : db.length = pm.H * pm.W)
    {i : Nat} (hi : i < pm.H * pm.W) (v : Pixel) :
    Synced pm (da.set i v) (db.set (pm.perm.getD i 0) v) := by
  intro j hj
  by_cases he : j = i
  · subst he
    rw [getD_set_eq _ _ _ _ (by rw [hlb]; exact hv.bound j hj),
        getD_set_eq _ _ _ _ (by rw [hla]; exact hj)]
  · have hpne : pm.perm.getD i 0 ≠ pm.perm.getD j 0 := by
      intro hc
      exact he (hv.getD_inj hj hi hc.symm)
    rw [getD_set_ne _ _ _ _ _ (fun hc => he hc.symm),
        getD_set_ne _ _ _ _ _ hpne]
    exact hs j hj

/-! ## Branch characterizations of the per-pixel write -/

theorem set_pixel_A_oob (s : Controller) (pm : PermutationModel) (imA imB : Img)
    (hp : s.permutation = some pm) (hA : s.imgA = some imA) (hB : s.imgB = some imB)
    (yA xA : Int) (c : Pixel) (b : Bool)
    (hout : ¬(0 ≤ yA ∧ yA < (pm.H : Int) ∧ 0 ≤ xA ∧ xA < (pm.W : Int))) :
    Controller.set_pixel_A_and_B s yA xA c b = s := by
  simp only [Controller.set_pixel_A_and_B, hp, hA, hB]
  rw [if_pos hout]

theorem set_pixel_B_oob (s : Controller) (pm : PermutationModel) (imA imB : Img)
    (hp : s.permutation = some pm) (hA : s.imgA = some imA) (hB : s.imgB = some imB)
    (yB xB : Int) (c : Pixel) (b : Bool)
    (hout : ¬(0 ≤ yB ∧ yB < (pm.H : Int) ∧ 0 ≤ xB ∧ xB < (pm.W : Int))) :
    Controller.set_pixel_B_and_A s yB xB c b = s := by
  simp only [Controller.set_pixel_B_and_A, hp, hA, hB]
  rw [if_pos hout]

theorem set_pixel_A_skip (s : Controller) (pm : PermutationModel) (imA imB : Img)
    (hp : s.permutation = some pm) (hA : s.imgA = some imA) (hB : s.imgB = some imB)
    (yA xA : Int) (c : Pixel) (b : Bool)
    (hin : 0 ≤ yA ∧ yA < (pm.H : Int) ∧ 0 ≤ xA ∧ xA < (pm.W : Int))
    (hsk : s.current_stroke.isSome ∧
      Controller.touchedHas s.stroke_touched_A (yA.toNat, xA.toNat) = true) :
    Controller.set_pixel_A_and_B s yA xA c b = s := by
  simp only [Controller.set_pixel_A_and_B, hp, hA, hB]
  rw [if_neg (not_not_intro hin)]
  by_cases hyB : pm.perm.getD (yA.toNat * pm.W + xA.toNat) 0 / pm.W < pm.H ∧
      pm.perm.getD (yA.toNat * pm.W + xA.toNat) 0 % pm.W < pm.W
  · rw [if_neg (not_not_intro hyB), if_pos hsk]
  · rw [if_pos hyB]

theorem set_pixel_B_skip (s : Controller) (pm : PermutationModel) (imA imB : Img)
    (hp : s.permutation = some pm) (hA : s.imgA = some imA) (hB : s.imgB = some imB)
    (yB xB : Int) (c : Pixel) (b : Bool)
    (hin : 0 ≤ yB ∧ yB < (pm.H : Int) ∧ 0 ≤ xB ∧ xB < (pm.W : Int))
    (hsk : s.current_stroke.isSome ∧
      Controller.touchedHas s.stroke_touched_A
        (pm.inv_perm.getD (yB.toNat * pm.W + xB.toNat) 0 / pm.W,
         pm.inv_perm.getD (yB.toNat * pm.W + xB.toNat) 0 % pm.W) = true) :
    Controller.set_pixel_B_and_A s yB xB c b = s := by
  simp only [Controller.set_pixel_B_and_A, hp, hA, hB]
  rw [if_neg (not_not_intro hin)]
  by_cases hyA : pm.inv_perm.getD (yB.toNat * pm.W + xB.toNat) 0 / pm.W < pm.H ∧
      pm.inv_perm.getD (yB.toNat * pm.W + xB.toNat) 0 % pm.W < pm.W
  · rw [if_neg (not_not_intro hyA), if_pos hsk]
  · rw [if_pos hyA]

theorem set_pixel_A_write (s : Controller) (pm : PermutationModel) (imA imB : Img)
    (hp : s.permutation = some pm) (hA : s.imgA = some imA) (hB : s.imgB = some imB)
    (yA xA : Int) (c : Pixel) (b : Bool)
    (hin : 0 ≤ yA ∧ yA < (pm.H : Int) ∧ 0 ≤ xA ∧ xA < (pm.W : Int))
    (hyB : pm.perm.getD (yA.toNat * pm.W + xA.toNat) 0 / pm.W < pm.H ∧
      pm.perm.getD (yA.toNat * pm.W + xA.toNat) 0 % pm.W < pm.W)
    (st : Stroke) (hst : s.current_stroke = some st)
    (hsk : Controller.touchedHas s.stroke_touched_A (yA.toNat, xA.toNat) = false) :
    Controller.set_pixel_A_and_B s yA xA c b =
      { s with
        current_stroke := some
          ⟨if imA.data.getD (yA.toNat * imA.W + xA.toNat) pxZero ≠
              (if b then s.blend_with_brush
                (imA.data.getD (yA.toNat * imA.W + xA.toNat) pxZero) else c) ∨
            imB.data.getD
              (pm.perm.getD (yA.toNat * pm.W + xA.toNat) 0 / pm.W * imB.W +
                pm.perm.getD (yA.toNat * pm.W + xA.toNat) 0 % pm.W) pxZero ≠
              (if b then s.blend_with_brush
                (imA.data.getD (yA.toNat * imA.W + xA.toNat) pxZero) else c) then
            st.changes ++
              [⟨yA.toNat, xA.toNat,
                imA.data.getD (yA.toNat * imA.W + xA.toNat) pxZero,
                (if b then s.blend_with_brush
                  (imA.data.getD (yA.toNat * imA.W + xA.toNat) pxZero) else c),
                pm.perm.getD (yA.toNat * pm.W + xA.toNat) 0 / pm.W,
                pm.perm.getD (yA.toNat * pm.W + xA.toNat) 0 % pm.W,
                imB.data.getD
                  (pm.perm.getD (yA.toNat * pm.W + xA.toNat) 0 / pm.W * imB.W +
                    pm.perm.getD (yA.toNat * pm.W + xA.toNat) 0 % pm.W) pxZero,
                (if b then s.blend_with_brush
                  (imA.data.getD (yA.toNat * imA.W + xA.toNat) pxZero) else c)⟩]
          else st.changes⟩
        stroke_touched_A :=
          match s.stroke_touched_A with
          | some t => some ((yA.toNat, xA.toNat) :: t)
          | none => none
        imgA := some ⟨imA.W, imA.data.set (yA.toNat * imA.W + xA.toNat)
          (if b then s.blend_with_brush
            (imA.data.getD (yA.toNat * imA.W + xA.toNat) pxZero) else c)⟩
        imgB := some ⟨imB.W, imB.data.set
          (pm.perm.getD (yA.toNat * pm.W + xA.toNat) 0 / pm.W * imB.W +
            pm.perm.getD (yA.toNat * pm.W + xA.toNat) 0 % pm.W)
          (if b then s.blend_with_brush
            (imA.data.getD (yA.toNat * imA.W + xA.toNat) pxZero) else c)⟩ } := by
  simp only [Controller.set_pixel_A_and_B, hp, hA, hB, hst]
  rw [if_neg (not_not_intro hin), if_neg (not_not_intro hyB),
    if_neg (by rw [hsk]; simp)]

theorem set_pixel_A_write_nostroke (s : Controller) (pm : PermutationModel) (imA imB : Img)
    (hp : s.permutation = some pm) (hA : s.imgA = some imA) (hB : s.imgB = some imB)
    (yA xA : Int) (c : Pixel) (b : Bool)
    (hin : 0 ≤ yA ∧ yA < (pm.H : Int) ∧ 0 ≤ xA ∧ xA < (pm.W : Int))
    (hyB : pm.perm.getD (yA.toNat * pm.W + xA.toNat) 0 / pm.W < pm.H ∧
      pm.perm.getD (yA.toNat * pm.W + xA.toNat) 0 % pm.W < pm.W)
    (hst : s.current_stroke = none) :
    Controller.set_pixel_A_and_B s yA xA c b =
      { s with
        imgA := some ⟨imA.W, imA.data.set (yA.toNat * imA.W + xA.toNat)
          (if b then s.blend_with_brush
            (imA.data.getD (yA.toNat * imA.W + xA.toNat) pxZero) else c)⟩
        imgB := some ⟨imB.W, imB.data.set
          (pm.perm.getD (yA.toNat * pm.W + xA.toNat) 0 / pm.W * imB.W +
            pm.perm.getD (yA.toNat * pm.W + xA.toNat) 0 % pm.W)
          (if b then s.blend_with_brush
            (imA.data.getD (yA.toNat * imA.W + xA.toNat) pxZero) else c)⟩ } := by
  simp only [Controller.set_pixel_A_and_B, hp, hA, hB, hst]
  rw [if_neg (not_not_intro hin), if_neg (not_not_intro hyB),
    if_neg (by simp)]

theorem set_pixel_B_write (s : Controller) (pm : PermutationModel) (imA imB : Img)
    (hp : s.permutation = some pm) (hA : s.imgA = some imA) (hB : s.imgB = some imB)
    (yB xB : Int) (c : Pixel) (b : Bool)
    (hin : 0 ≤ yB ∧ yB < (pm.H : Int) ∧ 0 ≤ xB ∧ xB < (pm.W : Int))
    (hyA : pm.inv_perm.getD (yB.toNat * pm.W + xB.toNat) 0 / pm.W < pm.H ∧
      pm.inv_perm.getD (yB.toNat * pm.W + xB.toNat) 0 % pm.W < pm.W)
    (st : Stroke) (hst : s.current_stroke = some st)
    (hsk : Controller.touchedHas s.stroke_touched_A
      (pm.inv_perm.getD (yB.toNat * pm.W + xB.toNat) 0 / pm.W,
       pm.inv_perm.getD (yB.toNat * pm.W + xB.toNat) 0 % pm.W) = false) :
    Controller.set_pixel_B_and_A s yB xB c b =
      { s with
        current_stroke := some
          ⟨if imA.data.getD
              (pm.inv_perm.getD (yB.toNat * pm.W + xB.toNat) 0 / pm.W * imA.W +
                pm.inv_perm.getD (yB.toNat * pm.W + xB.toNat) 0 % pm.W) pxZero ≠
              (if b then s.blend_with_brush
                (imB.data.getD (yB.toNat * imB.W + xB.toNat) pxZero) else c) ∨
            imB.data.getD (yB.toNat * imB.W + xB.toNat) pxZero ≠
              (if b then s.blend_with_brush
                (imB.data.getD (yB.toNat * imB.W + xB.toNat) pxZero) else c) then
            st.changes ++
              [⟨pm.inv_perm.getD (yB.toNat * pm.W + xB.toNat) 0 / pm.W,
                pm.inv_perm.getD (yB.toNat * pm.W + xB.toNat) 0 % pm.W,
                imA.data.getD
                  (pm.inv_perm.getD (yB.toNat * pm.W + xB.toNat) 0 / pm.W * imA.W +
                    pm.inv_perm.getD (yB.toNat * pm.W + xB.toNat) 0 % pm.W) pxZero,
                (if b then s.blend_with_brush
                  (imB.data.getD (yB.toNat * imB.W + xB.toNat) pxZero) else c),
                yB.toNat, xB.toNat,
                imB.data.getD (yB.toNat * imB.W + xB.toNat) pxZero,
                (if b then s.blend_with_brush
                  (imB.data.getD (yB.toNat * imB.W + xB.toNat) pxZero) else c)⟩]
          else st.changes⟩
        stroke_touched_A :=
          match s.stroke_touched_A with
          | some t => some ((pm.inv_perm.getD (yB.toNat * pm.W + xB.toNat) 0 / pm.W,
              pm.inv_perm.getD (yB.toNat * pm.W + xB.toNat) 0 % pm.W) :: t)
          | none => none
        imgB := some ⟨imB.W, imB.data.set (yB.toNat * imB.W + xB.toNat)
          (if b then s.blend_with_brush
            (imB.data.getD (yB.toNat * imB.W + xB.toNat) pxZero) else c)⟩
        imgA := some ⟨imA.W, imA.data.set
          (pm.inv_perm.getD (yB.toNat * pm.W + xB.toNat) 0 / pm.W * imA.W +
            pm.inv_perm.getD (yB.toNat * pm.W + xB.toNat) 0 % pm.W)
          (if b then s.blend_with_brush
            (imB.data.getD (yB.toNat * imB.W + xB.toNat) pxZero) else c)⟩ } := by
  simp only [Controller.set_pixel_B_and_A, hp, hA, hB, hst]
  rw [if_neg (not_not_intro hin), if_neg (not_not_intro hyA),
    if_neg (by rw [hsk]; simp)]

theorem set_pixel_B_write_nostroke (s : Controller) (pm : PermutationModel) (imA imB : Img)
    (hp : s.permutation = some pm) (hA : s.imgA = some imA) (hB : s.imgB = some imB)
    (yB xB : Int) (c : Pixel) (b : Bool)
    (hin : 0 ≤ yB ∧ yB < (pm.H : Int) ∧ 0 ≤ xB ∧ xB < (pm.W : Int))
    (hyA : pm.inv_perm.getD (yB.toNat * pm.W + xB.toNat) 0 / pm.W < pm.H ∧
      pm.inv_perm.getD (yB.toNat * pm.W + xB.toNat) 0 % pm.W < pm.W)
    (hst : s.current_stroke = none) :
    Controller.set_pixel_B_and_A s yB xB c b =
      { s with
        imgB := some ⟨imB.W, imB.data.set (yB.toNat * imB.W + xB.toNat)
          (if b then s.blend_with_brush
            (imB.data.getD (yB.toNat * imB.W + xB.toNat) pxZero) else c)⟩
        imgA := some ⟨imA.W, imA.data.set
          (pm.inv_perm.getD (yB.toNat * pm.W + xB.toNat) 0 / pm.W * imA.W +
            pm.inv_perm.getD (yB.toNat * pm.W + xB.toNat) 0 % pm.W)
          (if b then s.blend_with_brush
            (imB.data.getD (yB.toNat * imB.W + xB.toNat) pxZero) else c)⟩ } := by
  simp only [Controller.set_pixel_B_and_A, hp, hA, hB, hst]
  rw [if_neg (not_not_intro hin), if_neg (not_not_intro hyA),
    if_neg (by simp)]

theorem CtrlInv.set_pixel_A {s : Controller} (hI : CtrlInv s) (yA xA : Int)
    (c : Pixel) (b : Bool) :
    CtrlInv (Controller.set_pixel_A_and_B s yA xA c b) := by
  rcases hp : s.permutation with _ | pm <;> rcases hA : s.imgA with _ | imA <;>
    rcases hB : s.imgB with _ | imB
  all_goals try {
    have he : Controller.set_pixel_A_and_B s yA xA c b = s := by
      simp only [Controller.set_pixel_A_and_B, hp, hA, hB]
    rw [he]
    exact hI }
  have hI0 := hI
  simp only [CtrlInv, hp, hA, hB] at hI0
  obtain ⟨hv, hWA, hWB, hlA, hlB, hsync, hundo, hredo, hcur⟩ := hI0
  by_cases hin : 0 ≤ yA ∧ yA < (pm.H : Int) ∧ 0 ≤ xA ∧ xA < (pm.W : Int)
  case neg =>
    rw [set_pixel_A_oob s pm imA imB hp hA hB yA xA c b hin]
    exact hI
  have hynb : yA.toNat < pm.H := by omega
  have hxnb : xA.toNat < pm.W := by omega
  have hidxA : yA.toNat * pm.W + xA.toNat < pm.H * pm.W := linIdx_lt hynb hxnb
  have hidxB : pm.perm.getD (yA.toNat * pm.W + xA.toNat) 0 < pm.H * pm.W :=
    hv.bound _ hidxA
  have hyB : pm.perm.getD (yA.toNat * pm.W + xA.toNat) 0 / pm.W < pm.H ∧
      pm.perm.getD (yA.toNat * pm.W + xA.toNat) 0 % pm.W < pm.W :=
    ⟨by rw [Nat.div_lt_iff_lt_mul hv.wpos]; exact hidxB, Nat.mod_lt _ hv.wpos⟩
  cases hst : s.current_stroke with
  | none =>
    rw [set_pixel_A_write_nostroke s pm imA imB hp hA hB yA xA c b hin hyB hst]
    simp only [CtrlInv, hp]
    refine ⟨hv, hWA, hWB, ?_, ?_, ?_, hundo, hredo, ?_⟩
    · rw [List.length_set]
      exact hlA
    · rw [List.length_set]
      exact hlB
    · rw [hWA, hWB, linIdx_split]
      exact Synced.set_pair hv hsync hlA hlB hidxA _
    · intro st' he
      rw [hst] at he
      exact Option.noConfusion he
  | some st =>
    by_cases hsk : Controller.touchedHas s.stroke_touched_A (yA.toNat, xA.toNat) = true
    · rw [set_pixel_A_skip s pm imA imB hp hA hB yA xA c b hin ⟨by rw [hst]; rfl, hsk⟩]
      exact hI
    · rw [set_pixel_A_write s pm imA imB hp hA hB yA xA c b hin hyB st hst
        (by simpa using hsk)]
      simp only [CtrlInv, hp]
      refine ⟨hv, hWA, hWB, ?_, ?_, ?_, hundo, hredo, ?_⟩
      · rw [List.length_set]
        exact hlA
      · rw [List.length_set]
        exact hlB
      · rw [hWA, hWB, linIdx_split]
        exact Synced.set_pair hv hsync hlA hlB hidxA _
      · intro st' he
        obtain rfl := (Option.some_inj.mp he).symm
        intro c' hc'
        by_cases hrec : imA.data.getD (yA.toNat * imA.W + xA.toNat) pxZero ≠
            (if b then s.blend_with_brush
              (imA.data.getD (yA.toNat * imA.W + xA.toNat) pxZero) else c) ∨
            imB.data.getD
              (pm.perm.getD (yA.toNat * pm.W + xA.toNat) 0 / pm.W * imB.W +
                pm.perm.getD (yA.toNat * pm.W + xA.toNat) 0 % pm.W) pxZero ≠
            (if b then s.blend_with_brush
              (imA.data.getD (yA.toNat * imA.W + xA.toNat) pxZero) else c)
        · rw [if_pos hrec] at hc'
          rcases List.mem_append.mp hc' with h1 | h1
          · exact hcur st hst c' h1
          · obtain rfl := List.mem_singleton.mp h1
            refine ⟨⟨hynb, hxnb, hyB.1, hyB.2, ?_⟩, ?_, rfl⟩
            · simp only [chIdxA, chIdxB]
              rw [linIdx_split]
            · have ho := hsync _ hidxA
              simp only
              rw [hWA, hWB, linIdx_split]
              exact ho.symm
        · rw [if_neg hrec] at hc'
          exact hcur st hst c' hc'

theorem CtrlInv.set_pixel_B {s : Controller} (hI : CtrlInv s) (yB xB : Int)
    (c : Pixel) (b : Bool) :
    CtrlInv (Controller.set_pixel_B_and_A s yB xB c b) := by
  rcases hp : s.permutation with _ | pm <;> rcases hA : s.imgA with _ | imA <;>
    rcases hB : s.imgB with _ | imB
  all_goals try {
    have he : Controller.set_pixel_B_and_A s yB xB c b = s := by
      simp only [Controller.set_pixel_B_and_A, hp, hA, hB]
    rw [he]
    exact hI }
  have hI0 := hI
  simp only [CtrlInv, hp, hA, hB] at hI0
  obtain ⟨hv, hWA, hWB, hlA, hlB, hsync, hundo, hredo, hcur⟩ := hI0
  by_cases hin : 0 ≤ yB ∧ yB < (pm.H : Int) ∧ 0 ≤ xB ∧ xB < (pm.W : Int)
  case neg =>
    rw [set_pixel_B_oob s pm imA imB hp hA hB yB xB c b hin]
    exact hI
  have hynb : yB.toNat < pm.H := by omega
  have hxnb : xB.toNat < pm.W := by omega
  have hidxB : yB.toNat * pm.W + xB.toNat < pm.H * pm.W := linIdx_lt hynb hxnb
  obtain ⟨hidxA, hback⟩ := hv.rinv _ hidxB
  have hyA : pm.inv_perm.getD (yB.toNat * pm.W + xB.toNat) 0 / pm.W < pm.H ∧
      pm.inv_perm.getD (yB.toNat * pm.W + xB.toNat) 0 % pm.W < pm.W :=
    ⟨by rw [Nat.div_lt_iff_lt_mul hv.wpos]; exact hidxA, Nat.mod_lt _ hv.wpos⟩
  cases hst : s.current_stroke with
  | none =>
    rw [set_pixel_B_write_nostroke s pm imA imB hp hA hB yB xB c b hin hyA hst]
    simp only [CtrlInv, hp]
    refine ⟨hv, hWA, hWB, ?_, ?_, ?_, hundo, hredo, ?_⟩
    · rw [List.length_set]
      exact hlA
    · rw [List.length_set]
      exact hlB
    · rw [hWA, hWB, linIdx_split]
      have hpair := Synced.set_pair hv hsync hlA hlB hidxA
        (if b then s.blend_with_brush
          (imB.data.getD (yB.toNat * imB.W + xB.toNat) pxZero) else c)
      rw [hback, hWB] at hpair
      exact hpair
    · intro st' he
      rw [hst] at he
      exact Option.noConfusion he
  | some st =>
    by_cases hsk : Controller.touchedHas s.stroke_touched_A
        (pm.inv_perm.getD (yB.toNat * pm.W + xB.toNat) 0 / pm.W,
         pm.inv_perm.getD (yB.toNat * pm.W + xB.toNat) 0 % pm.W) = true
    · rw [set_pixel_B_skip s pm imA imB hp hA hB yB xB c b hin ⟨by rw [hst]; rfl, hsk⟩]
      exact hI
    · rw [set_pixel_B_write s pm imA imB hp hA hB yB xB c b hin hyA st hst
        (by simpa using hsk)]
      simp only [CtrlInv, hp]
      refine ⟨hv, hWA, hWB, ?_, ?_, ?_, hundo, hredo, ?_⟩
      · rw [List.length_set]
        exact hlA
      · rw [List.length_set]
        exact hlB
      · rw [hWA, hWB, linIdx_split]
        have hpair := Synced.set_pair hv hsync hlA hlB hidxA
          (if b then s.blend_with_brush
            (imB.data.getD (yB.toNat * imB.W + xB.toNat) pxZero) else c)
        rw [hback, hWB] at hpair
        exact hpair
      · intro st' he
        obtain rfl := (Option.some_inj.mp he).symm
        intro c' hc'
        by_cases hrec : imA.data.getD
            (pm.inv_perm.getD (yB.toNat * pm.W + xB.toNat) 0 / pm.W * imA.W +
              pm.inv_perm.getD (yB.toNat * pm.W + xB.toNat) 0 % pm.W) pxZero ≠
            (if b then s.blend_with_brush
              (imB.data.getD (yB.toNat * imB.W + xB.toNat) pxZero) else c) ∨
            imB.data.getD (yB.toNat * imB.W + xB.toNat) pxZero ≠
            (if b then s.blend_with_brush
              (imB.data.getD (yB.toNat * imB.W + xB.toNat) pxZero) else c)
        · rw [if_pos hrec] at hc'
          rcases List.mem_append.mp hc' with h1 | h1
          · exact hcur st hst c' h1
          · obtain rfl := List.mem_singleton.mp h1
            refine ⟨⟨hyA.1, hyA.2, hynb, hxnb, ?_⟩, ?_, rfl⟩
            · simp only [chIdxA, chIdxB]
              rw [linIdx_split, hback]
            · have ho := hsync _ hidxA
              rw [hback] at ho
              simp only
              rw [hWA, hWB, linIdx_split]
              exact ho.symm
        · rw [if_neg hrec] at hc'
          exact hcur st hst c' hc'

theorem foldl_preserves {α : Type} {P : Controller → Prop} {f : Controller → α → Controller}
    (hf : ∀ t a, P t → P (f t a)) :
    ∀ (l : List α) (t : Controller), P t → P (l.foldl f t) := by
  intro l
  induction l with
  | nil => exact fun t h => h
  | cons x xs ih =>
    intro t h
    rw [List.foldl_cons]
    exact ih _ (hf t x h)

theorem foldl_set_length {β : Type} (f : β → Nat) (g : β → Pixel) (L : List β)
    (A : List Pixel) :
    (L.foldl (fun acc c => acc.set (f c) (g c)) A).length = A.length := by
  rw [foldl_set_as_setPairs, setPairs_length]

/-- A fold of mirrored pair writes (same value at `iA` and its permutation
image) preserves the sync invariant. -/
theorem Synced.fold_pairs {pm : PermutationModel} (hv : ValidPerm pm)
    (f : PixelChange → Pixel) :
    ∀ (L : List PixelChange), (∀ c ∈ L, ChDom pm c) →
    ∀ (A B : List Pixel), A.length = pm.H * pm.W → B.length = pm.H * pm.W →
      Synced pm A B →
      Synced pm (L.foldl (fun acc c => acc.set (c.yA * pm.W + c.xA) (f c)) A)
                (L.foldl (fun acc c => acc.set (c.yB * pm.W + c.xB) (f c)) B) := by
  intro L
  induction L with
  | nil => exact fun _ A B _ _ hs => hs
  | cons c cs ih =>
    intro hL A B hlA hlB hs
    rw [List.foldl_cons, List.foldl_cons]
    obtain ⟨hya, hxa, hyb, hxb, hrel⟩ := hL c (List.mem_cons_self c cs)
    simp only [chIdxA, chIdxB] at hrel
    have hlt : c.yA * pm.W + c.xA < pm.H * pm.W := linIdx_lt hya hxa
    have hpair := Synced.set_pair hv hs hlA hlB hlt (f c)
    rw [← hrel] at hpair
    exact ih (fun c' hc' => hL c' (List.mem_cons_of_mem c hc'))
      _ _ (by rw [List.length_set]; exact hlA) (by rw [List.length_set]; exact hlB) hpair

theorem CtrlInv.set_brush_color {s : Controller} (hI : CtrlInv s) (p : Pixel) :
    CtrlInv (s.set_brush_color p) := hI

theorem CtrlInv.apply_brush_A {s : Controller} (hI : CtrlInv s) (y x : Int) :
    CtrlInv (s.apply_brush_A y x) := by
  rcases hp : s.permutation with _ | pm <;> rcases hA : s.imgA with _ | imA <;>
    rcases hB : s.imgB with _ | imB
  all_goals try {
    have he : Controller.apply_brush_A s y x = s := by
      simp only [Controller.apply_brush_A, hp, hA, hB]
    rw [he]
    exact hI }
  simp only [Controller.apply_brush_A, hp, hA, hB]
  by_cases htool : s.current_tool = Tool.BRUSH ∨ s.current_tool = Tool.ERASER
  · rw [if_pos htool]
    apply foldl_preserves ?_ _ _ hI
    intro t dy ht
    apply foldl_preserves ?_ _ _ ht
    intro t2 dx ht2
    by_cases hc : dy * dy + dx * dx ≤ (s.brush_radius : Int) * (s.brush_radius : Int)
    · rw [if_pos hc]
      exact CtrlInv.set_pixel_A ht2 _ _ _ _
    · rw [if_neg hc]
      exact ht2
  · rw [if_neg htool]
    by_cases hin : 0 ≤ y ∧ y < (pm.H : Int) ∧ 0 ≤ x ∧ x < (pm.W : Int)
    · rw [if_pos hin]
      exact CtrlInv.set_brush_color hI _
    · rw [if_neg hin]
      exact hI

theorem CtrlInv.apply_brush_B {s : Controller} (hI : CtrlInv s) (y x : Int) :
    CtrlInv (s.apply_brush_B y x) := by
  rcases hp : s.permutation with _ | pm <;> rcases hA : s.imgA with _ | imA <;>
    rcases hB : s.imgB with _ | imB
  all_goals try {
    have he : Controller.apply_brush_B s y x = s := by
      simp only [Controller.apply_brush_B, hp, hA, hB]
    rw [he]
    exact hI }
  simp only [Controller.apply_brush_B, hp, hA, hB]
  by_cases htool : s.current_tool = Tool.BRUSH ∨ s.current_tool = Tool.ERASER
  · rw [if_pos htool]
    apply foldl_preserves ?_ _ _ hI
    intro t dy ht
    apply foldl_preserves ?_ _ _ ht
    intro t2 dx ht2
    by_cases hc : dy * dy + dx * dx ≤ (s.brush_radius : Int) * (s.brush_radius : Int)
    · rw [if_pos hc]
      exact CtrlInv.set_pixel_B ht2 _ _ _ _
    · rw [if_neg hc]
      exact ht2
  · rw [if_neg htool]
    by_cases hin : 0 ≤ y ∧ y < (pm.H : Int) ∧ 0 ≤ x ∧ x < (pm.W : Int)
    · rw [if_pos hin]
      exact CtrlInv.set_brush_color hI _
    · rw [if_neg hin]
      exact hI

theorem CtrlInv.load_permutation {s : Controller} (hI : CtrlInv s) (arr : NpyArray) :
    CtrlInv (s.load_permutation arr) := by
  rw [Controller.load_permutation]
  cases hfn : PermutationModel.from_npy arr with
  | error e => exact hI
  | ok pm =>
    have hv := from_npy_valid hfn
    simp only [CtrlInv]
    refine ⟨hv, by simp, by simp, by simp, by simp, ?_, by simp, by simp, ?_⟩
    · intro i hi
      rw [getD_replicate _ _ _ _ (hv.bound i hi), getD_replicate _ _ _ _ hi]
    · intro st hst
      exact Option.noConfusion hst

theorem CtrlInv.load_image_into_A {s : Controller} (hI : CtrlInv s) (f : Nat → Pixel) :
    CtrlInv (s.load_image_into_A f) := by
  rcases hp : s.permutation with _ | pm <;> rcases hA : s.imgA with _ | imA <;>
    rcases hB : s.imgB with _ | imB
  all_goals try {
    have he : Controller.load_image_into_A s f = s := by
      simp only [Controller.load_image_into_A, hp]
    rw [he]
    exact hI }
  all_goals have hI0 := hI
  all_goals simp only [CtrlInv, hp, hA, hB] at hI0
  obtain ⟨hv, hWA, hWB, hlA, hlB, hsync, hundo, hredo, hcur⟩ := hI0
  simp only [Controller.load_image_into_A, Controller.propagate_A_to_B, hp]
  simp only [CtrlInv]
  refine ⟨hv, by simp, by simp, by simp, by simp [npScatter_length], ?_, by simp, by simp, ?_⟩
  · intro i hi
    have hstep := npScatter_getD pm.perm ((List.range (pm.H * pm.W)).map f)
      (List.replicate (pm.H * pm.W) pxZero) i pxZero hv.nodup
      (by rw [hv.plen]; exact hi)
      (by rw [List.length_map, List.length_range]; exact hi)
      (by rw [List.length_replicate]; exact hv.bound i hi)
    exact hstep
  · intro st hst
    exact Option.noConfusion hst

theorem CtrlInv.load_image_into_B {s : Controller} (hI : CtrlInv s) (f : Nat → Pixel) :
    CtrlInv (s.load_image_into_B f) := by
  rcases hp : s.permutation with _ | pm <;> rcases hA : s.imgA with _ | imA <;>
    rcases hB : s.imgB with _ | imB
  all_goals try {
    have he : Controller.load_image_into_B s f = s := by
      simp only [Controller.load_image_into_B, hp]
    rw [he]
    exact hI }
  all_goals have hI0 := hI
  all_goals simp only [CtrlInv, hp, hA, hB] at hI0
  obtain ⟨hv, hWA, hWB, hlA, hlB, hsync, hundo, hredo, hcur⟩ := hI0
  simp only [Controller.load_image_into_B, Controller.propagate_B_to_A, hp]
  simp only [CtrlInv]
  refine ⟨hv, by simp, by simp, by simp [npScatter_length], by simp, ?_, by simp, by simp, ?_⟩
  · intro i hi
    have hn : pm.perm.getD i 0 < pm.H * pm.W := hv.bound i hi
    have hstep := npScatter_getD pm.inv_perm ((List.range (pm.H * pm.W)).map f)
      (List.replicate (pm.H * pm.W) pxZero) (pm.perm.getD i 0) pxZero hv.inv_nodup
      (by rw [hv.ilen]; exact hn)
      (by rw [List.length_map, List.length_range]; exact hn)
      (by rw [List.length_replicate, hv.linv i hi]; exact hi)
    rw [hv.linv i hi] at hstep
    exact hstep.symm
  · intro st hst
    exact Option.noConfusion hst

theorem CtrlInv.begin_stroke {s : Controller} (hI : CtrlInv s) :
    CtrlInv s.begin_stroke := by
  rcases hp : s.permutation with _ | pm <;> rcases hA : s.imgA with _ | imA <;>
    rcases hB : s.imgB with _ | imB
  all_goals have hI0 := hI
  all_goals simp only [CtrlInv, hp, hA, hB] at hI0
  · obtain ⟨hu, hr, _⟩ := hI0
    simp only [Controller.begin_stroke, CtrlInv, hp, hA, hB]
    refine ⟨hu, by simp, ?_⟩
    intro st hst
    obtain rfl := (Option.some_inj.mp hst).symm
    rfl
  · obtain ⟨hv, hWA, hWB, hlA, hlB, hsync, hundo, _, _⟩ := hI0
    simp only [Controller.begin_stroke, CtrlInv, hp, hA, hB]
    refine ⟨hv, hWA, hWB, hlA, hlB, hsync, hundo, ?_, ?_⟩
    · intro st hst
      exact absurd hst (by simp)
    · intro st hst
      obtain rfl := (Option.some_inj.mp hst).symm
      intro c hc
      exact absurd hc (by simp)

theorem CtrlInv.end_stroke {s : Controller} (hI : CtrlInv s) :
    CtrlInv s.end_stroke := by
  rcases hp : s.permutation with _ | pm <;> rcases hA : s.imgA with _ | imA <;>
    rcases hB : s.imgB with _ | imB
  all_goals have hI0 := hI
  all_goals simp only [CtrlInv, hp, hA, hB] at hI0
  · obtain ⟨hu, hr, hc⟩ := hI0
    cases hst : s.current_stroke with
    | none =>
      simp only [Controller.end_stroke, CtrlInv, hp, hA, hB, hst]
      exact ⟨hu, hr, fun st h => Option.noConfusion h⟩
    | some st =>
      have hch := hc st hst
      simp only [Controller.end_stroke, CtrlInv, hp, hA, hB, hst]
      rw [if_neg (not_ne_iff.mpr hch)]
      exact ⟨hu, hr, fun st' h => Option.noConfusion h⟩
  · obtain ⟨hv, hWA, hWB, hlA, hlB, hsync, hundo, hredo, hcur⟩ := hI0
    cases hst : s.current_stroke with
    | none =>
      simp only [Controller.end_stroke, CtrlInv, hp, hA, hB, hst]
      exact ⟨hv, hWA, hWB, hlA, hlB, hsync, hundo, hredo, fun st h => Option.noConfusion h⟩
    | some st =>
      simp only [Controller.end_stroke, CtrlInv, hp, hA, hB, hst]
      refine ⟨hv, hWA, hWB, hlA, hlB, hsync, ?_, hredo, fun st' h => Option.noConfusion h⟩
      by_cases hne : st.changes ≠ []
      · rw [if_pos hne]
        by_cases hlen : s.max_undo < (s.undo_stack ++ [st]).length
        · rw [if_pos hlen]
          intro st' hst'
          have hst'' := List.mem_of_mem_drop hst'
          rcases List.mem_append.mp hst'' with h1 | h1
          · exact hundo st' h1
          · obtain rfl := List.mem_singleton.mp h1
            exact hcur st' hst
        · rw [if_neg hlen]
          intro st' hst'
          rcases List.mem_append.mp hst' with h1 | h1
          · exact hundo st' h1
          · obtain rfl := List.mem_singleton.mp h1
            exact hcur st' hst
      · rw [if_neg hne]
        exact hundo

theorem CtrlInv.undo {s : Controller} (hI : CtrlInv s) : CtrlInv s.undo := by
  rcases hp : s.permutation with _ | pm <;> rcases hA : s.imgA with _ | imA <;>
    rcases hB : s.imgB with _ | imB
  all_goals have hI0 := hI
  all_goals simp only [CtrlInv, hp, hA, hB] at hI0
  · obtain ⟨hu, hr, hc⟩ := hI0
    simp only [Controller.undo, hu, hA, hB]
    exact hI
  · obtain ⟨hv, hWA, hWB, hlA, hlB, hsync, hundo, hredo, hcur⟩ := hI0
    simp only [Controller.undo, hA, hB]
    cases hlast : s.undo_stack.getLast? with
    | none => exact hI
    | some stroke =>
      have hmem : stroke ∈ s.undo_stack := mem_of_getLast? hlast
      have hgood := hundo stroke hmem
      simp only [CtrlInv, hp]
      have hdom : ∀ c ∈ stroke.changes.reverse, ChDom pm c := by
        intro c hc
        exact (hgood c (List.mem_reverse.mp hc)).1
      have hBfold : stroke.changes.reverse.foldl
          (fun acc c => acc.set (c.yB * imB.W + c.xB) c.oldB) imB.data =
          stroke.changes.reverse.foldl
          (fun acc c => acc.set (c.yB * pm.W + c.xB) c.oldA) imB.data := by
        rw [hWB]
        apply List.foldl_ext
        intro acc c hc
        rw [(hgood c (List.mem_reverse.mp hc)).2.1]
      refine ⟨hv, ?_, ?_, ?_, ?_, ?_, ?_, ?_, ?_⟩
      · exact hWA
      · exact hWB
      · exact (foldl_set_length (fun c => c.yA * imA.W + c.xA) (fun c => c.oldA)
          stroke.changes.reverse imA.data).trans hlA
      · exact (foldl_set_length (fun c => c.yB * imB.W + c.xB) (fun c => c.oldB)
          stroke.changes.reverse imB.data).trans hlB
      · rw [hWA, hBfold]
        exact Synced.fold_pairs hv (fun c => c.oldA) stroke.changes.reverse hdom
          imA.data imB.data hlA hlB hsync
      · intro st' hst'
        exact hundo st' (List.mem_of_mem_dropLast hst')
      · intro st' hst'
        rcases List.mem_append.mp hst' with h1 | h1
        · exact hredo st' h1
        · obtain rfl := List.mem_singleton.mp h1
          exact hgood
      · intro st' hst'
        exact hcur st' hst'

theorem CtrlInv.redo {s : Controller} (hI : CtrlInv s) : CtrlInv s.redo := by
  rcases hp : s.permutation with _ | pm <;> rcases hA : s.imgA with _ | imA <;>
    rcases hB : s.imgB with _ | imB
  all_goals have hI0 := hI
  all_goals simp only [CtrlInv, hp, hA, hB] at hI0
  · obtain ⟨hu, hr, hc⟩ := hI0
    simp only [Controller.redo, hr, hA, hB]
    exact hI
  · obtain ⟨hv, hWA, hWB, hlA, hlB, hsync, hundo, hredo, hcur⟩ := hI0
    simp only [Controller.redo, hA, hB]
    cases hlast : s.redo_stack.getLast? with
    | none => exact hI
    | some stroke =>
      have hmem : stroke ∈ s.redo_stack := mem_of_getLast? hlast
      have hgood := hredo stroke hmem
      simp only [CtrlInv, hp]
      have hdom : ∀ c ∈ stroke.changes, ChDom pm c := by
        intro c hc
        exact (hgood c hc).1
      have hBfold : stroke.changes.foldl
          (fun acc c => acc.set (c.yB * imB.W + c.xB) c.newB) imB.data =
          stroke.changes.foldl
          (fun acc c => acc.set (c.yB * pm.W + c.xB) c.newA) imB.data := by
        rw [hWB]
        apply List.foldl_ext
        intro acc c hc
        rw [(hgood c hc).2.2]
      refine ⟨hv, ?_, ?_, ?_, ?_, ?_, ?_, ?_, ?_⟩
      · exact hWA
      · exact hWB
      · exact (foldl_set_length (fun c => c.yA * imA.W + c.xA) (fun c => c.newA)
          stroke.changes imA.data).trans hlA
      · exact (foldl_set_length (fun c => c.yB * imB.W + c.xB) (fun c => c.newB)
          stroke.changes imB.data).trans hlB
      · rw [hWA, hBfold]
        exact Synced.fold_pairs hv (fun c => c.newA) stroke.changes hdom
          imA.data imB.data hlA hlB hsync
      · intro st' hst'
        rcases List.mem_append.mp hst' with h1 | h1
        · exact hundo st' h1
        · obtain rfl := List.mem_singleton.mp h1
          exact hgood
      · intro st' hst'
        exact hredo st' (List.mem_of_mem_dropLast hst')
      · intro st' hst'
        exact hcur st' hst'

theorem CtrlInv.initial : CtrlInv Controller.init := by
  simp only [CtrlInv, Controller.init]
  exact ⟨by simp, by simp, fun st h => Option.noConfusion h⟩

theorem CtrlInv.step {s : Controller} (hI : CtrlInv s) (op : Op) : CtrlInv (Op.step s op) := by
  cases op with
  | loadPerm arr => exact hI.load_permutation arr
  | loadImageA f => exact hI.load_image_into_A f
  | loadImageB f => exact hI.load_image_into_B f
  | setTool t => exact hI
  | setBrushColor p => exact hI.set_brush_color p
  | setBrushRadius n => exact hI
  | setBrushOpacity n => exact hI
  | applyA y x => exact hI.apply_brush_A y x
  | applyB y x => exact hI.apply_brush_B y x
  | beginStroke => exact hI.begin_stroke
  | endStroke => exact hI.end_stroke
  | undoOp => exact hI.undo
  | redoOp => exact hI.redo

theorem CtrlInv.run {s : Controller} (hI : CtrlInv s) (ops : List Op) :
    CtrlInv (Op.run s ops) := by
  have hf : ∀ (t : Controller) (op : Op), CtrlInv t → CtrlInv (Op.step t op) :=
    fun _ op ht => CtrlInv.step ht op
  exact foldl_preserves hf ops s hI

/-- C1: in every reachable controller state with a permutation and both
buffers loaded, at a gesture boundary (no open stroke — which includes the
states immediately before / after every completed gesture and immediately
after the image-load propagations), every linear index i satisfies
`imgB[perm[i]] == imgA[i]` bitwise. -/
theorem C1_perm_sync_invariant (ops : List Op) (pm : PermutationModel) (a b : Img)
    (hp : (Op.run Controller.init ops).permutation = some pm)
    (hA : (Op.run Controller.init ops).imgA = some a)
    (hB : (Op.run Controller.init ops).imgB = some b)
    (hstroke : (Op.run Controller.init ops).current_stroke = none) :
    ∀ i, i < pm.H * pm.W →
      b.data.getD (pm.perm.getD i 0) pxZero = a.data.getD i pxZero := by
  have hI := CtrlInv.run CtrlInv.initial ops
  simp only [CtrlInv, hp, hA, hB] at hI
  exact hI.2.2.2.2.2.1

/-- Red at full brush opacity written over a transparent pixel: the alpha
of the base pixel (0) is preserved. -/
def pxRed0 : Pixel := ⟨255, 0, 0, 0⟩

/-- Witness for C1: a full load-stroke-apply-end run on the 4×4 test
permutation, ending at a gesture boundary with painted buffers. -/
theorem C1_perm_sync_invariant_witness :
    (Img.mk 4 [pxZero, pxRed0, pxZero, pxZero, pxRed0, pxZero, pxZero, pxZero,
      pxZero, pxZero, pxZero, pxZero, pxZero, pxZero, pxZero, pxRed0]).data.getD
        (pmTest16.perm.getD 0 0) pxZero =
    (Img.mk 4 [pxRed0, pxRed0, pxZero, pxZero, pxRed0, pxZero, pxZero, pxZero,
      pxZero, pxZero, pxZero, pxZero, pxZero, pxZero, pxZero, pxZero]).data.getD
        0 pxZero :=
  C1_perm_sync_invariant
    [Op.loadPerm npyTest16, Op.setBrushColor ⟨255, 0, 0, 255⟩, Op.setBrushRadius 1,
     Op.beginStroke, Op.applyA 0 0, Op.endStroke]
    pmTest16
    ⟨4, [pxRed0, pxRed0, pxZero, pxZero, pxRed0, pxZero, pxZero, pxZero,
      pxZero, pxZero, pxZero, pxZero, pxZero, pxZero, pxZero, pxZero]⟩
    ⟨4, [pxZero, pxRed0, pxZero, pxZero, pxRed0, pxZero, pxZero, pxZero,
      pxZero, pxZero, pxZero, pxZero, pxZero, pxZero, pxZero, pxRed0]⟩
    (by decide) (by decide) (by decide) (by decide) 0 (by decide)

/-- The controller ready for the spec's 4×4 example: test permutation
loaded, opaque red brush, radius 1, opacity 100 (default), tool Brush. -/
def sC9pre : Controller :=
  ((Controller.init.load_permutation npyTest16).set_brush_color
    ⟨255, 0, 0, 255⟩).set_brush_radius 1

/-- C9 counterexample: the radius-1 brush at A(0, 0) also paints A(0, 1)
(and A(1, 0)), so the touched A-pixel set is not exactly {(0, 0)}. -/
theorem C9_counterexample :
    (sC9pre.imgA.map (fun im => im.data.getD 1 pxZero)) = some pxZero ∧
    ((sC9pre.apply_brush_A 0 0).imgA.map (fun im => im.data.getD 1 pxZero)) =
      some pxRed0 := by
  decide

/-- C9 (amended): on the 4×4 swap-0-15 permutation, the Brush with radius
1, opacity 100 and opaque red at A(0,0) mutates exactly the A pixels
(0,0), (0,1), (1,0) (the in-bounds radius-1 disk) and exactly the B pixels
at linear indices 15, 1, 4 — coordinates (3,3), (0,1), (1,0) — writing red
with the destination's preserved alpha. -/
theorem C9_brush_at_corner :
    sC9pre.imgA = some ⟨4, List.replicate 16 pxZero⟩ ∧
    sC9pre.imgB = some ⟨4, List.replicate 16 pxZero⟩ ∧
    (sC9pre.apply_brush_A 0 0).imgA =
      some ⟨4, [pxRed0, pxRed0, pxZero, pxZero, pxRed0, pxZero, pxZero, pxZero,
        pxZero, pxZero, pxZero, pxZero, pxZero, pxZero, pxZero, pxZero]⟩ ∧
    (sC9pre.apply_brush_A 0 0).imgB =
      some ⟨4, [pxZero, pxRed0, pxZero, pxZero, pxRed0, pxZero, pxZero, pxZero,
        pxZero, pxZero, pxZero, pxZero, pxZero, pxZero, pxZero, pxRed0]⟩ := by
  decide

/-! ## The open-gesture invariant -/

/-- Relation between the pre-stroke buffers `A0, B0`, the live buffers
`A, B`, the changes recorded so far and the dedup set of the open stroke:
recorded A-coordinates are pairwise distinct and all marked touched; every
change holds the pre-stroke old values and the currently-written new values
at its pair of linear positions; unrecorded positions still hold their
pre-stroke values. -/
def StrokeRel (pm : PermutationModel) (A0 B0 A B : List Pixel)
    (chs : List PixelChange) (tch : List (Nat × Nat)) : Prop :=
  (chs.map (fun c => (c.yA, c.xA))).Nodup ∧
  (∀ c ∈ chs, (c.yA, c.xA) ∈ tch) ∧
  (∀ c ∈ chs, ChDom pm c ∧
    A0.getD (chIdxA pm.W c) pxZero = c.oldA ∧
    B0.getD (chIdxB pm.W c) pxZero = c.oldB ∧
    A.getD (chIdxA pm.W c) pxZero = c.newA ∧
    B.getD (chIdxB pm.W c) pxZero = c.newB) ∧
  (∀ i, i < pm.H * pm.W → (∀ c ∈ chs, chIdxA pm.W c ≠ i) →
    A.getD i pxZero = A0.getD i pxZero) ∧
  (∀ j, j < pm.H * pm.W → (∀ c ∈ chs, chIdxB pm.W c ≠ j) →
    B.getD j pxZero = B0.getD j pxZero)

/-- State of the controller while a gesture that began in a state with
pre-stroke buffers `A0 B0`, undo stack `u0` and depth limit `m0` is open. -/
def GInv (pm : PermutationModel) (A0 B0 : List Pixel) (u0 : List Stroke) (m0 : Nat)
    (t : Controller) : Prop :=
  t.permutation = some pm ∧ t.undo_stack = u0 ∧ t.redo_stack = [] ∧ t.max_undo = m0 ∧
  ∃ st tch imA imB,
    t.current_stroke = some st ∧ t.stroke_touched_A = some tch ∧
    t.imgA = some imA ∧ t.imgB = some imB ∧
    imA.W = pm.W ∧ imB.W = pm.W ∧
    imA.data.length = pm.H * pm.W ∧ imB.data.length = pm.H * pm.W ∧
    StrokeRel pm A0 B0 imA.data imB.data st.changes tch

/-- `begin_stroke` establishes the gesture invariant. -/
theorem GInv.begin (s0 : Controller) (pm : PermutationModel) (imA imB : Img)
    (hp : s0.permutation = some pm) (hA : s0.imgA = some imA) (hB : s0.imgB = some imB)
    (hWA : imA.W = pm.W) (hWB : imB.W = pm.W)
    (hlA : imA.data.length = pm.H * pm.W) (hlB : imB.data.length = pm.H * pm.W) :
    GInv pm imA.data imB.data s0.undo_stack s0.max_undo s0.begin_stroke := by
  refine ⟨hp, rfl, rfl, rfl, ⟨[]⟩, [], imA, imB, rfl, rfl, hA, hB, hWA, hWB, hlA, hlB,
    ?_, ?_, ?_, ?_, ?_⟩
  · simp
  · intro c hc
    exact absurd hc (by simp)
  · intro c hc
    exact absurd hc (by simp)
  · intro i _ _
    rfl
  · intro j _ _
    rfl

/-- Writing, at pairwise-distinct indices, the values the target list holds
there, starting from a list that agrees with the target everywhere else,
reproduces the target exactly. -/
theorem writeback_fold {N : Nat} (idx : PixelChange → Nat) (val : PixelChange → Pixel)
    (chs : List PixelChange) (A T : List Pixel)
    (hnd : (chs.map idx).Nodup)
    (hbound : ∀ c ∈ chs, idx c < N)
    (hval : ∀ c ∈ chs, T.getD (idx c) pxZero = val c)
    (huntouched : ∀ i, i < N → (∀ c ∈ chs, idx c ≠ i) → A.getD i pxZero = T.getD i pxZero)
    (hlA : A.length = N) (hlT : T.length = N) :
    chs.foldl (fun acc c => acc.set (idx c) (val c)) A = T := by
  rw [foldl_set_as_setPairs idx val chs A]
  apply list_ext_getD _ _ pxZero
  · rw [setPairs_length, hlA, hlT]
  · intro j hj
    rw [setPairs_length, hlA] at hj
    by_cases hex : ∃ c ∈ chs, idx c = j
    · obtain ⟨c, hc, he⟩ := hex
      have hmem : (j, val c) ∈ chs.map (fun c => (idx c, val c)) := by
        rw [List.mem_map]
        exact ⟨c, hc, by rw [he]⟩
      have hfst : ((chs.map (fun c => (idx c, val c))).map Prod.fst).Nodup := by
        rw [List.map_map]
        exact hnd
      rw [setPairs_getD_mem _ _ j (val c) pxZero hfst hmem (by rw [hlA]; exact hj)]
      rw [← he] at *
      exact (hval c hc).symm
    · push_neg at hex
      rw [setPairs_getD_notmem _ _ j pxZero ?hni]
      · exact huntouched j hj hex
      case hni =>
        intro p hp
        rw [List.mem_map] at hp
        obtain ⟨c, hc, he⟩ := hp
        rw [← he]
        exact hex c hc

theorem push_getLast (u : List Stroke) (st : Stroke) (m : Nat) (hm : 0 < m) :
    (if m < (u ++ [st]).length then (u ++ [st]).drop 1 else u ++ [st]).getLast? =
      some st := by
  by_cases h : m < (u ++ [st]).length
  · rw [if_pos h]
    cases u with
    | nil =>
      rw [List.nil_append, List.length_cons] at h
      simp at h
      omega
    | cons x xs =>
      rw [List.cons_append, List.drop_succ_cons, List.drop_zero]
      exact List.getLast?_concat _
  · rw [if_neg h]
    exact List.getLast?_concat _

theorem GInv.gset_A {pm : PermutationModel} {A0 B0 : List Pixel} {u0 : List Stroke}
    {m0 : Nat} {t : Controller} (hv : ValidPerm pm) (h : GInv pm A0 B0 u0 m0 t)
    (yA xA : Int) (c : Pixel) (b : Bool) :
    GInv pm A0 B0 u0 m0 (Controller.set_pixel_A_and_B t yA xA c b) := by
  obtain ⟨hperm, hu, hr, hm, st, tch, imA, imB, hst, htch, hA, hB, hWA, hWB, hlA, hlB,
    hrel⟩ := h
  by_cases hin : 0 ≤ yA ∧ yA < (pm.H : Int) ∧ 0 ≤ xA ∧ xA < (pm.W : Int)
  case neg =>
    rw [set_pixel_A_oob t pm imA imB hperm hA hB yA xA c b hin]
    exact ⟨hperm, hu, hr, hm, st, tch, imA, imB, hst, htch, hA, hB, hWA, hWB, hlA, hlB, hrel⟩
  have hyn : yA.toNat < pm.H := by omega
  have hxn : xA.toNat < pm.W := by omega
  have hidxA : yA.toNat * pm.W + xA.toNat < pm.H * pm.W := linIdx_lt hyn hxn
  have hq : pm.perm.getD (yA.toNat * pm.W + xA.toNat) 0 < pm.H * pm.W := hv.bound _ hidxA
  have hyB : pm.perm.getD (yA.toNat * pm.W + xA.toNat) 0 / pm.W < pm.H ∧
      pm.perm.getD (yA.toNat * pm.W + xA.toNat) 0 % pm.W < pm.W :=
    ⟨by rw [Nat.div_lt_iff_lt_mul hv.wpos]; exact hq, Nat.mod_lt _ hv.wpos⟩
  by_cases hsk : (yA.toNat, xA.toNat) ∈ tch
  case pos =>
    rw [set_pixel_A_skip t pm imA imB hperm hA hB yA xA c b hin
      ⟨by rw [hst]; rfl, by rw [htch]; simp [Controller.touchedHas, hsk]⟩]
    exact ⟨hperm, hu, hr, hm, st, tch, imA, imB, hst, htch, hA, hB, hWA, hWB, hlA, hlB, hrel⟩
  rw [set_pixel_A_write t pm imA imB hperm hA hB yA xA c b hin hyB st hst
    (by rw [htch]; simp [Controller.touchedHas, hsk])]
  rw [hWA, hWB, linIdx_split]
  obtain ⟨hnd, htchmem, hch, hunA, hunB⟩ := hrel
  have hkeyA : ∀ c' ∈ st.changes, chIdxA pm.W c' ≠ yA.toNat * pm.W + xA.toNat := by
    intro c' hc' he
    obtain ⟨⟨hya, hxa, _, _, _⟩, _⟩ := hch c' hc'
    simp only [chIdxA] at he
    obtain ⟨h1, h2⟩ := linIdx_inj hxa hxn he
    have hmem := htchmem c' hc'
    rw [h1, h2] at hmem
    exact hsk hmem
  have hkeyB : ∀ c' ∈ st.changes,
      chIdxB pm.W c' ≠ pm.perm.getD (yA.toNat * pm.W + xA.toNat) 0 := by
    intro c' hc' he
    obtain ⟨⟨hya, hxa, _, _, hrelB⟩, _⟩ := hch c' hc'
    rw [hrelB] at he
    have hcl : chIdxA pm.W c' < pm.H * pm.W := by
      simp only [chIdxA]
      exact linIdx_lt hya hxa
    exact hkeyA c' hc' (hv.getD_inj hcl hidxA he)
  have holdA : imA.data.getD (yA.toNat * pm.W + xA.toNat) pxZero =
      A0.getD (yA.toNat * pm.W + xA.toNat) pxZero := hunA _ hidxA hkeyA
  have holdB : imB.data.getD (pm.perm.getD (yA.toNat * pm.W + xA.toNat) 0) pxZero =
      B0.getD (pm.perm.getD (yA.toNat * pm.W + xA.toNat) 0) pxZero := hunB _ hq hkeyB
  refine ⟨hperm, hu, hr, hm, _, (yA.toNat, xA.toNat) :: tch, _, _, rfl,
    by rw [htch], rfl, rfl, rfl, rfl, ?_, ?_, ?_⟩
  · rw [List.length_set]
    exact hlA
  · rw [List.length_set]
    exact hlB
  by_cases hrec : imA.data.getD (yA.toNat * pm.W + xA.toNat) pxZero ≠
      (if b then t.blend_with_brush (imA.data.getD (yA.toNat * pm.W + xA.toNat) pxZero)
        else c) ∨
      imB.data.getD (pm.perm.getD (yA.toNat * pm.W + xA.toNat) 0) pxZero ≠
      (if b then t.blend_with_brush (imA.data.getD (yA.toNat * pm.W + xA.toNat) pxZero)
        else c)
  · rw [if_pos hrec]
    refine ⟨?_, ?_, ?_, ?_, ?_⟩
    · rw [List.map_append]
      refine List.Nodup.append hnd (by simp) ?_
      intro p hp1 hp2
      simp only [List.map_cons, List.map_nil, List.mem_singleton] at hp2
      rw [List.mem_map] at hp1
      obtain ⟨c', hc', he⟩ := hp1
      have hmem := htchmem c' hc'
      rw [he, hp2] at hmem
      exact hsk hmem
    · intro c' hc'
      rcases List.mem_append.mp hc' with h1 | h1
      · exact List.mem_cons_of_mem _ (htchmem c' h1)
      · obtain rfl := List.mem_singleton.mp h1
        exact List.mem_cons_self _ _
    · intro c' hc'
      rcases List.mem_append.mp hc' with h1 | h1
      · obtain ⟨hdom, h0A, h0B, hnA, hnB⟩ := hch c' h1
        refine ⟨hdom, h0A, h0B, ?_, ?_⟩
        · rw [getD_set_ne _ _ _ _ _ (fun he => hkeyA c' h1 he.symm)]
          exact hnA
        · rw [getD_set_ne _ _ _ _ _ (fun he => hkeyB c' h1 he.symm)]
          exact hnB
      · obtain rfl := List.mem_singleton.mp h1
        refine ⟨⟨hyn, hxn, hyB.1, hyB.2, ?_⟩, ?_, ?_, ?_, ?_⟩
        · simp only [chIdxA, chIdxB]
          rw [linIdx_split]
        · exact holdA.symm
        · simp only [chIdxB]
          rw [linIdx_split]
          exact holdB.symm
        · simp only [chIdxA]
          exact getD_set_eq _ _ _ _ (by rw [hlA]; exact hidxA)
        · simp only [chIdxB]
          rw [linIdx_split]
          exact getD_set_eq _ _ _ _ (by rw [hlB]; exact hq)
    · intro i hi hni
      have hne : yA.toNat * pm.W + xA.toNat ≠ i := by
        intro he
        refine hni _ (List.mem_append.mpr (Or.inr (List.mem_singleton.mpr rfl))) ?_
        simp only [chIdxA]
        exact he
      rw [getD_set_ne _ _ _ _ _ hne]
      exact hunA i hi (fun c' hc' => hni c' (List.mem_append.mpr (Or.inl hc')))
    · intro j hj hnj
      have hne : pm.perm.getD (yA.toNat * pm.W + xA.toNat) 0 ≠ j := by
        intro he
        refine hnj _ (List.mem_append.mpr (Or.inr (List.mem_singleton.mpr rfl))) ?_
        simp only [chIdxB]
        rw [linIdx_split]
        exact he
      rw [getD_set_ne _ _ _ _ _ hne]
      exact hunB j hj (fun c' hc' => hnj c' (List.mem_append.mpr (Or.inl hc')))
  · rw [if_neg hrec]
    push_neg at hrec
    have hAe : ∀ j : Nat, (imA.data.set (yA.toNat * pm.W + xA.toNat)
        (if b then t.blend_with_brush
          (imA.data.getD (yA.toNat * pm.W + xA.toNat) pxZero) else c)).getD j pxZero =
        imA.data.getD j pxZero :=
      fun j => set_self_getD _ _ _ _ hrec.1
    have hBe : ∀ j : Nat, (imB.data.set (pm.perm.getD (yA.toNat * pm.W + xA.toNat) 0)
        (if b then t.blend_with_brush
          (imA.data.getD (yA.toNat * pm.W + xA.toNat) pxZero) else c)).getD j pxZero =
        imB.data.getD j pxZero :=
      fun j => set_self_getD _ _ _ _ hrec.2
    refine ⟨hnd, fun c' hc' => List.mem_cons_of_mem _ (htchmem c' hc'), ?_, ?_, ?_⟩
    · intro c' hc'
      obtain ⟨hdom, h0A, h0B, hnA, hnB⟩ := hch c' hc'
      exact ⟨hdom, h0A, h0B, by rw [hAe]; exact hnA, by rw [hBe]; exact hnB⟩
    · intro i hi hni
      rw [hAe]
      exact hunA i hi hni
    · intro j hj hnj
      rw [hBe]
      exact hunB j hj hnj

theorem GInv.gset_B {pm : PermutationModel} {A0 B0 : List Pixel} {u0 : List Stroke}
    {m0 : Nat} {t : Controller} (hv : ValidPerm pm) (h : GInv pm A0 B0 u0 m0 t)
    (yB xB : Int) (c : Pixel) (b : Bool) :
    GInv pm A0 B0 u0 m0 (Controller.set_pixel_B_and_A t yB xB c b) := by
  obtain ⟨hperm, hu, hr, hm, st, tch, imA, imB, hst, htch, hA, hB, hWA, hWB, hlA, hlB,
    hrel⟩ := h
  by_cases hin : 0 ≤ yB ∧ yB < (pm.H : Int) ∧ 0 ≤ xB ∧ xB < (pm.W : Int)
  case neg =>
    rw [set_pixel_B_oob t pm imA imB hperm hA hB yB xB c b hin]
    exact ⟨hperm, hu, hr, hm, st, tch, imA, imB, hst, htch, hA, hB, hWA, hWB, hlA, hlB, hrel⟩
  have hyn : yB.toNat < pm.H := by omega
  have hxn : xB.toNat < pm.W := by omega
  have hidxB : yB.toNat * pm.W + xB.toNat < pm.H * pm.W := linIdx_lt hyn hxn
  obtain ⟨hp2, hback⟩ := hv.rinv _ hidxB
  have hyA : pm.inv_perm.getD (yB.toNat * pm.W + xB.toNat) 0 / pm.W < pm.H ∧
      pm.inv_perm.getD (yB.toNat * pm.W + xB.toNat) 0 % pm.W < pm.W :=
    ⟨by rw [Nat.div_lt_iff_lt_mul hv.wpos]; exact hp2, Nat.mod_lt _ hv.wpos⟩
  by_cases hsk : (pm.inv_perm.getD (yB.toNat * pm.W + xB.toNat) 0 / pm.W,
      pm.inv_perm.getD (yB.toNat * pm.W + xB.toNat) 0 % pm.W) ∈ tch
  case pos =>
    rw [set_pixel_B_skip t pm imA imB hperm hA hB yB xB c b hin
      ⟨by rw [hst]; rfl,
       by rw [htch]; simp only [Controller.touchedHas, decide_eq_true_eq]; exact hsk⟩]
    exact ⟨hperm, hu, hr, hm, st, tch, imA, imB, hst, htch, hA, hB, hWA, hWB, hlA, hlB, hrel⟩
  rw [set_pixel_B_write t pm imA imB hperm hA hB yB xB c b hin hyA st hst
    (by rw [htch]; simp only [Controller.touchedHas]; exact decide_eq_false hsk)]
  rw [hWA, hWB, linIdx_split]
  obtain ⟨hnd, htchmem, hch, hunA, hunB⟩ := hrel
  have hkeyA : ∀ c' ∈ st.changes,
      chIdxA pm.W c' ≠ pm.inv_perm.getD (yB.toNat * pm.W + xB.toNat) 0 := by
    intro c' hc' he
    obtain ⟨⟨hya, hxa, _, _, _⟩, _⟩ := hch c' hc'
    have h1 : pm.inv_perm.getD (yB.toNat * pm.W + xB.toNat) 0 / pm.W = c'.yA := by
      rw [← he]
      simp only [chIdxA]
      exact linIdx_div hv.wpos hxa
    have h2 : pm.inv_perm.getD (yB.toNat * pm.W + xB.toNat) 0 % pm.W = c'.xA := by
      rw [← he]
      simp only [chIdxA]
      exact linIdx_mod hxa
    have hmem := htchmem c' hc'
    rw [← h1, ← h2] at hmem
    exact hsk hmem
  have hkeyB : ∀ c' ∈ st.changes,
      chIdxB pm.W c' ≠ yB.toNat * pm.W + xB.toNat := by
    intro c' hc' he
    obtain ⟨⟨hya, hxa, _, _, hrelB⟩, _⟩ := hch c' hc'
    rw [hrelB, ← hback] at he
    have hcl : chIdxA pm.W c' < pm.H * pm.W := by
      simp only [chIdxA]
      exact linIdx_lt hya hxa
    exact hkeyA c' hc' (hv.getD_inj hcl hp2 he)
  have holdA : imA.data.getD (pm.inv_perm.getD (yB.toNat * pm.W + xB.toNat) 0) pxZero =
      A0.getD (pm.inv_perm.getD (yB.toNat * pm.W + xB.toNat) 0) pxZero :=
    hunA _ hp2 hkeyA
  have holdB : imB.data.getD (yB.toNat * pm.W + xB.toNat) pxZero =
      B0.getD (yB.toNat * pm.W + xB.toNat) pxZero := hunB _ hidxB hkeyB
  refine ⟨hperm, hu, hr, hm, _,
    (pm.inv_perm.getD (yB.toNat * pm.W + xB.toNat) 0 / pm.W,
     pm.inv_perm.getD (yB.toNat * pm.W + xB.toNat) 0 % pm.W) :: tch, _, _, rfl,
    by rw [htch], rfl, rfl, rfl, rfl, ?_, ?_, ?_⟩
  · rw [List.length_set]
    exact hlA
  · rw [List.length_set]
    exact hlB
  by_cases hrec : imA.data.getD (pm.inv_perm.getD (yB.toNat * pm.W + xB.toNat) 0) pxZero ≠
      (if b then t.blend_with_brush (imB.data.getD (yB.toNat * pm.W + xB.toNat) pxZero)
        else c) ∨
      imB.data.getD (yB.toNat * pm.W + xB.toNat) pxZero ≠
      (if b then t.blend_with_brush (imB.data.getD (yB.toNat * pm.W + xB.toNat) pxZero)
        else c)
  · rw [if_pos hrec]
    refine ⟨?_, ?_, ?_, ?_, ?_⟩
    · rw [List.map_append]
      refine List.Nodup.append hnd (by simp) ?_
      intro p hp1 hp2'
      simp only [List.map_cons, List.map_nil, List.mem_singleton] at hp2'
      rw [List.mem_map] at hp1
      obtain ⟨c', hc', he⟩ := hp1
      have hmem := htchmem c' hc'
      rw [he, hp2'] at hmem
      exact hsk hmem
    · intro c' hc'
      rcases List.mem_append.mp hc' with h1 | h1
      · exact List.mem_cons_of_mem _ (htchmem c' h1)
      · obtain rfl := List.mem_singleton.mp h1
        exact List.mem_cons_self _ _
    · intro c' hc'
      rcases List.mem_append.mp hc' with h1 | h1
      · obtain ⟨hdom, h0A, h0B, hnA, hnB⟩ := hch c' h1
        refine ⟨hdom, h0A, h0B, ?_, ?_⟩
        · rw [getD_set_ne _ _ _ _ _ (fun he => hkeyA c' h1 he.symm)]
          exact hnA
        · rw [getD_set_ne _ _ _ _ _ (fun he => hkeyB c' h1 he.symm)]
          exact hnB
      · obtain rfl := List.mem_singleton.mp h1
        refine ⟨⟨hyA.1, hyA.2, hyn, hxn, ?_⟩, ?_, ?_, ?_, ?_⟩
        · simp only [chIdxA, chIdxB]
          rw [linIdx_split, hback]
        · simp only [chIdxA]
          rw [linIdx_split]
          exact holdA.symm
        · simp only [chIdxB]
          exact holdB.symm
        · simp only [chIdxA]
          rw [linIdx_split]
          exact getD_set_eq _ _ _ _ (by rw [hlA]; exact hp2)
        · simp only [chIdxB]
          exact getD_set_eq _ _ _ _ (by rw [hlB]; exact hidxB)
    · intro i hi hni
      have hne : pm.inv_perm.getD (yB.toNat * pm.W + xB.toNat) 0 ≠ i := by
        intro he
        refine hni _ (List.mem_append.mpr (Or.inr (List.mem_singleton.mpr rfl))) ?_
        simp only [chIdxA]
        rw [linIdx_split]
        exact he
      rw [getD_set_ne _ _ _ _ _ hne]
      exact hunA i hi (fun c' hc' => hni c' (List.mem_append.mpr (Or.inl hc')))
    · intro j hj hnj
      have hne : yB.toNat * pm.W + xB.toNat ≠ j := by
        intro he
        refine hnj _ (List.mem_append.mpr (Or.inr (List.mem_singleton.mpr rfl))) ?_
        simp only [chIdxB]
        exact he
      rw [getD_set_ne _ _ _ _ _ hne]
      exact hunB j hj (fun c' hc' => hnj c' (List.mem_append.mpr (Or.inl hc')))
  · rw [if_neg hrec]
    push_neg at hrec
    have hAe : ∀ j : Nat, (imA.data.set (pm.inv_perm.getD (yB.toNat * pm.W + xB.toNat) 0)
        (if b then t.blend_with_brush
          (imB.data.getD (yB.toNat * pm.W + xB.toNat) pxZero) else c)).getD j pxZero =
        imA.data.getD j pxZero :=
      fun j => set_self_getD _ _ _ _ hrec.1
    have hBe : ∀ j : Nat, (imB.data.set (yB.toNat * pm.W + xB.toNat)
        (if b then t.blend_with_brush
          (imB.data.getD (yB.toNat * pm.W + xB.toNat) pxZero) else c)).getD j pxZero =
        imB.data.getD j pxZero :=
      fun j => set_self_getD _ _ _ _ hrec.2
    refine ⟨hnd, fun c' hc' => List.mem_cons_of_mem _ (htchmem c' hc'), ?_, ?_, ?_⟩
    · intro c' hc'
      obtain ⟨hdom, h0A, h0B, hnA, hnB⟩ := hch c' hc'
      exact ⟨hdom, h0A, h0B, by rw [hAe]; exact hnA, by rw [hBe]; exact hnB⟩
    · intro i hi hni
      rw [hAe]
      exact hunA i hi hni
    · intro j hj hnj
      rw [hBe]
      exact hunB j hj hnj

theorem GInv.gstep {pm : PermutationModel} {A0 B0 : List Pixel} {u0 : List Stroke}
    {m0 : Nat} {t : Controller} (hv : ValidPerm pm) (h : GInv pm A0 B0 u0 m0 t)
    (g : GOp) : GInv pm A0 B0 u0 m0 (GOp.step t g) := by
  have h' := h
  obtain ⟨hperm, hu, hr, hm, st, tch, imA, imB, hst, htch, hA, hB, _⟩ := h
  cases g with
  | gApplyA y x =>
    simp only [GOp.step, Controller.apply_brush_A, hperm, hA, hB]
    by_cases htool : t.current_tool = Tool.BRUSH ∨ t.current_tool = Tool.ERASER
    · rw [if_pos htool]
      apply foldl_preserves ?_ _ _ h'
      intro t1 dy ht1
      apply foldl_preserves ?_ _ _ ht1
      intro t2 dx ht2
      by_cases hc : dy * dy + dx * dx ≤ (t.brush_radius : Int) * (t.brush_radius : Int)
      · rw [if_pos hc]
        exact GInv.gset_A hv ht2 _ _ _ _
      · rw [if_neg hc]
        exact ht2
    · rw [if_neg htool]
      by_cases hin : 0 ≤ y ∧ y < (pm.H : Int) ∧ 0 ≤ x ∧ x < (pm.W : Int)
      · rw [if_pos hin]
        exact h'
      · rw [if_neg hin]
        exact h'
  | gApplyB y x =>
    simp only [GOp.step, Controller.apply_brush_B, hperm, hA, hB]
    by_cases htool : t.current_tool = Tool.BRUSH ∨ t.current_tool = Tool.ERASER
    · rw [if_pos htool]
      apply foldl_preserves ?_ _ _ h'
      intro t1 dy ht1
      apply foldl_preserves ?_ _ _ ht1
      intro t2 dx ht2
      by_cases hc : dy * dy + dx * dx ≤ (t.brush_radius : Int) * (t.brush_radius : Int)
      · rw [if_pos hc]
        exact GInv.gset_B hv ht2 _ _ _ _
      · rw [if_neg hc]
        exact ht2
    · rw [if_neg htool]
      by_cases hin : 0 ≤ y ∧ y < (pm.H : Int) ∧ 0 ≤ x ∧ x < (pm.W : Int)
      · rw [if_pos hin]
        exact h'
      · rw [if_neg hin]
        exact h'
  | gSetTool tl => exact h'
  | gSetBrushColor p => exact h'
  | gSetBrushRadius n => exact h'
  | gSetBrushOpacity n => exact h'

theorem GInv.grun {pm : PermutationModel} {A0 B0 : List Pixel} {u0 : List Stroke}
    {m0 : Nat} {t : Controller} (hv : ValidPerm pm) (h : GInv pm A0 B0 u0 m0 t)
    (ops : List GOp) : GInv pm A0 B0 u0 m0 (GOp.run t ops) := by
  have hf : ∀ (t' : Controller) (g : GOp),
      GInv pm A0 B0 u0 m0 t' → GInv pm A0 B0 u0 m0 (GOp.step t' g) :=
    fun _ g ht => GInv.gstep hv ht g
  exact foldl_preserves hf ops t h

/-- Explicit form of `undo` on a state with a nonempty undo stack and
loaded buffers. -/
theorem undo_eq (s : Controller) (stroke : Stroke) (imA imB : Img)
    (hlast : s.undo_stack.getLast? = some stroke)
    (hA : s.imgA = some imA) (hB : s.imgB = some imB) :
    s.undo = { s with
      undo_stack := s.undo_stack.dropLast
      imgA := some ⟨imA.W, stroke.changes.reverse.foldl
        (fun acc c => acc.set (c.yA * imA.W + c.xA) c.oldA) imA.data⟩
      imgB := some ⟨imB.W, stroke.changes.reverse.foldl
        (fun acc c => acc.set (c.yB * imB.W + c.xB) c.oldB) imB.data⟩
      redo_stack := s.redo_stack ++ [stroke] } := by
  simp only [Controller.undo, hlast, hA, hB]

/-- Explicit form of `redo` on a state with a nonempty redo stack and
loaded buffers. -/
theorem redo_eq (s : Controller) (stroke : Stroke) (imA imB : Img)
    (hlast : s.redo_stack.getLast? = some stroke)
    (hA : s.imgA = some imA) (hB : s.imgB = some imB) :
    s.redo = { s with
      redo_stack := s.redo_stack.dropLast
      imgA := some ⟨imA.W, stroke.changes.foldl
        (fun acc c => acc.set (c.yA * imA.W + c.xA) c.newA) imA.data⟩
      imgB := some ⟨imB.W, stroke.changes.foldl
        (fun acc c => acc.set (c.yB * imB.W + c.xB) c.newB) imB.data⟩
      undo_stack := s.undo_stack ++ [stroke] } := by
  simp only [Controller.redo, hlast, hA, hB]

/-- Pairwise-distinct recorded A pairs give pairwise-distinct linear A
indices, and likewise for the B side. -/
theorem stroke_linear_nodup {pm : PermutationModel} (hv : ValidPerm pm)
    (chs : List PixelChange)
    (hnd : (chs.map (fun c => (c.yA, c.xA))).Nodup)
    (hdom : ∀ c ∈ chs, ChDom pm c) :
    (chs.map (fun c => c.yA * pm.W + c.xA)).Nodup ∧
    (chs.map (fun c => c.yB * pm.W + c.xB)).Nodup := by
  have hA : (chs.map (fun c => c.yA * pm.W + c.xA)).Nodup := by
    have he : chs.map (fun c => c.yA * pm.W + c.xA) =
        (chs.map (fun c => (c.yA, c.xA))).map (fun p => p.1 * pm.W + p.2) := by
      rw [List.map_map]
      rfl
    rw [he]
    refine List.Nodup.map_on ?_ hnd
    intro p hp q hq he2
    rw [List.mem_map] at hp hq
    obtain ⟨cp, hcp, hep⟩ := hp
    obtain ⟨cq, hcq, heq⟩ := hq
    obtain ⟨_, hxp, _, _, _⟩ := hdom cp hcp
    obtain ⟨_, hxq, _, _, _⟩ := hdom cq hcq
    rw [← hep, ← heq] at he2 ⊢
    obtain ⟨h1, h2⟩ := linIdx_inj hxp hxq he2
    exact Prod.ext h1 h2
  refine ⟨hA, ?_⟩
  have he : chs.map (fun c => c.yB * pm.W + c.xB) =
      (chs.map (fun c => c.yA * pm.W + c.xA)).map (fun i => pm.perm.getD i 0) := by
    rw [List.map_map]
    apply List.map_congr_left
    intro c hc
    exact (hdom c hc).2.2.2.2
  rw [he]
  refine List.Nodup.map_on ?_ hA
  intro i hi j hj he2
  rw [List.mem_map] at hi hj
  obtain ⟨ci, hci, hei⟩ := hi
  obtain ⟨cj, hcj, hej⟩ := hj
  obtain ⟨hyi, hxi, _, _, _⟩ := hdom ci hci
  obtain ⟨hyj, hxj, _, _, _⟩ := hdom cj hcj
  have hib : i < pm.H * pm.W := by
    rw [← hei]
    exact linIdx_lt hyi hxi
  have hjb : j < pm.H * pm.W := by
    rw [← hej]
    exact linIdx_lt hyj hxj
  exact hv.getD_inj hib hjb he2

/-- C2: from any loaded state, after a completed gesture (`begin_stroke`,
any sequence of brush applications and tool/brush adjustments,
`end_stroke`) whose stroke recorded at least one `PixelChange`, `undo`
restores both `imgA` and `imgB` to their exact pre-stroke contents, a
subsequent `redo` restores the exact post-stroke contents, and hence
`undo` followed by `redo` is the identity on buffer contents. -/
theorem C2_undo_redo_roundtrip
    (s0 : Controller) (pm : PermutationModel) (imA imB : Img)
    (hv : ValidPerm pm)
    (hp : s0.permutation = some pm) (hA : s0.imgA = some imA) (hB : s0.imgB = some imB)
    (hWA : imA.W = pm.W) (hWB : imB.W = pm.W)
    (hlA : imA.data.length = pm.H * pm.W) (hlB : imB.data.length = pm.H * pm.W)
    (hmax : 0 < s0.max_undo)
    (ops : List GOp) (st : Stroke)
    (hst : (GOp.run s0.begin_stroke ops).current_stroke = some st)
    (hne : st.changes ≠ []) :
    ((GOp.run s0.begin_stroke ops).end_stroke.undo.imgA = s0.imgA ∧
     (GOp.run s0.begin_stroke ops).end_stroke.undo.imgB = s0.imgB) ∧
    ((GOp.run s0.begin_stroke ops).end_stroke.undo.redo.imgA =
       (GOp.run s0.begin_stroke ops).end_stroke.imgA ∧
     (GOp.run s0.begin_stroke ops).end_stroke.undo.redo.imgB =
       (GOp.run s0.begin_stroke ops).end_stroke.imgB) := by
  have hGI := GInv.grun hv (GInv.begin s0 pm imA imB hp hA hB hWA hWB hlA hlB) ops
  obtain ⟨hperm, hu, hr, hm, st', tch, imA', imB', hst', htch', hA', hB',
    hWA', hWB', hlA', hlB', hrel⟩ := hGI
  have hstst : st' = st := by
    rw [hst'] at hst
    exact Option.some.inj hst
  rw [hstst] at hst' hrel
  obtain ⟨hnd, hmemtch, hch, hunA, hunB⟩ := hrel
  have hdom : ∀ c ∈ st.changes, ChDom pm c := fun c hc => (hch c hc).1
  have hlin := stroke_linear_nodup hv st.changes hnd hdom
  have hboundA : ∀ c ∈ st.changes, c.yA * pm.W + c.xA < pm.H * pm.W := by
    intro c hc
    obtain ⟨hy, hx, _, _, _⟩ := hdom c hc
    exact linIdx_lt hy hx
  have hboundB : ∀ c ∈ st.changes, c.yB * pm.W + c.xB < pm.H * pm.W := by
    intro c hc
    obtain ⟨_, _, hy, hx, _⟩ := hdom c hc
    exact linIdx_lt hy hx
  have hs1 : (GOp.run s0.begin_stroke ops).end_stroke =
      { GOp.run s0.begin_stroke ops with
        undo_stack := if s0.max_undo < (s0.undo_stack ++ [st]).length
          then (s0.undo_stack ++ [st]).drop 1 else s0.undo_stack ++ [st]
        current_stroke := none
        stroke_touched_A := none } := by
    simp only [Controller.end_stroke, hst', hu, hm]
    rw [if_pos hne]
  have hlast : (GOp.run s0.begin_stroke ops).end_stroke.undo_stack.getLast? = some st := by
    rw [hs1]
    exact push_getLast s0.undo_stack st s0.max_undo hmax
  have hA1 : (GOp.run s0.begin_stroke ops).end_stroke.imgA = some imA' := by
    rw [hs1]
    exact hA'
  have hB1 : (GOp.run s0.begin_stroke ops).end_stroke.imgB = some imB' := by
    rw [hs1]
    exact hB'
  have hu2 := undo_eq (GOp.run s0.begin_stroke ops).end_stroke st imA' imB' hlast hA1 hB1
  have hfA : st.changes.reverse.foldl
      (fun acc c => acc.set (c.yA * imA'.W + c.xA) c.oldA) imA'.data = imA.data := by
    rw [hWA']
    refine writeback_fold (fun c => c.yA * pm.W + c.xA) (fun c => c.oldA)
      st.changes.reverse imA'.data imA.data ?_ ?_ ?_ ?_ hlA' hlA
    · rw [List.map_reverse]
      exact List.nodup_reverse.mpr hlin.1
    · intro c hc
      exact hboundA c (List.mem_reverse.mp hc)
    · intro c hc
      exact (hch c (List.mem_reverse.mp hc)).2.1
    · intro i hi hni
      exact hunA i hi (fun c hc => hni c (List.mem_reverse.mpr hc))
  have hfB : st.changes.reverse.foldl
      (fun acc c => acc.set (c.yB * imB'.W + c.xB) c.oldB) imB'.data = imB.data := by
    rw [hWB']
    refine writeback_fold (fun c => c.yB * pm.W + c.xB) (fun c => c.oldB)
      st.changes.reverse imB'.data imB.data ?_ ?_ ?_ ?_ hlB' hlB
    · rw [List.map_reverse]
      exact List.nodup_reverse.mpr hlin.2
    · intro c hc
      exact hboundB c (List.mem_reverse.mp hc)
    · intro c hc
      exact (hch c (List.mem_reverse.mp hc)).2.2.1
    · intro j hj hnj
      exact hunB j hj (fun c hc => hnj c (List.mem_reverse.mpr hc))
  have hundoA : (GOp.run s0.begin_stroke ops).end_stroke.undo.imgA =
      some ⟨imA'.W, imA.data⟩ := by
    rw [hu2, ← hfA]
  have hundoB : (GOp.run s0.begin_stroke ops).end_stroke.undo.imgB =
      some ⟨imB'.W, imB.data⟩ := by
    rw [hu2, ← hfB]
  have hgoalA : (GOp.run s0.begin_stroke ops).end_stroke.undo.imgA = s0.imgA := by
    rw [hundoA, hA, hWA', ← hWA]
  have hgoalB : (GOp.run s0.begin_stroke ops).end_stroke.undo.imgB = s0.imgB := by
    rw [hundoB, hB, hWB', ← hWB]
  refine ⟨⟨hgoalA, hgoalB⟩, ?_, ?_⟩
  · have hlast2 : (GOp.run s0.begin_stroke ops).end_stroke.undo.redo_stack.getLast? =
        some st := by
      have hrs : (GOp.run s0.begin_stroke ops).end_stroke.undo.redo_stack =
          (GOp.run s0.begin_stroke ops).end_stroke.redo_stack ++ [st] := by
        rw [hu2]
      have hrs2 : (GOp.run s0.begin_stroke ops).end_stroke.redo_stack = [] := by
        rw [hs1]
        exact hr
      rw [hrs, hrs2]
      simp
    have hre := redo_eq (GOp.run s0.begin_stroke ops).end_stroke.undo st
      ⟨imA'.W, imA.data⟩ ⟨imB'.W, imB.data⟩ hlast2 hundoA hundoB
    have hfA2 : st.changes.foldl
        (fun acc c => acc.set (c.yA * imA'.W + c.xA) c.newA) imA.data = imA'.data := by
      rw [hWA']
      refine writeback_fold (fun c => c.yA * pm.W + c.xA) (fun c => c.newA)
        st.changes imA.data imA'.data hlin.1 hboundA ?_ ?_ hlA hlA'
      · intro c hc
        exact (hch c hc).2.2.2.1
      · intro i hi hni
        exact (hunA i hi hni).symm
    have hredoA : (GOp.run s0.begin_stroke ops).end_stroke.undo.redo.imgA =
        some ⟨imA'.W, imA'.data⟩ := by
      rw [hre, ← hfA2]
    rw [hredoA, hA1]
  · have hlast2 : (GOp.run s0.begin_stroke ops).end_stroke.undo.redo_stack.getLast? =
        some st := by
      have hrs : (GOp.run s0.begin_stroke ops).end_stroke.undo.redo_stack =
          (GOp.run s0.begin_stroke ops).end_stroke.redo_stack ++ [st] := by
        rw [hu2]
      have hrs2 : (GOp.run s0.begin_stroke ops).end_stroke.redo_stack = [] := by
        rw [hs1]
        exact hr
      rw [hrs, hrs2]
      simp
    have hre := redo_eq (GOp.run s0.begin_stroke ops).end_stroke.undo st
      ⟨imA'.W, imA.data⟩ ⟨imB'.W, imB.data⟩ hlast2 hundoA hundoB
    have hfB2 : st.changes.foldl
        (fun acc c => acc.set (c.yB * imB'.W + c.xB) c.newB) imB.data = imB'.data := by
      rw [hWB']
      refine writeback_fold (fun c => c.yB * pm.W + c.xB) (fun c => c.newB)
        st.changes imB.data imB'.data hlin.2 hboundB ?_ ?_ hlB hlB'
      · intro c hc
        exact (hch c hc).2.2.2.2
      · intro j hj hnj
        exact (hunB j hj hnj).symm
    have hredoB : (GOp.run s0.begin_stroke ops).end_stroke.undo.redo.imgB =
        some ⟨imB'.W, imB'.data⟩ := by
      rw [hre, ← hfB2]
    rw [hredoB, hB1]

theorem validPerm_pmTest16 : ValidPerm pmTest16 := from_npy_valid from_npy_npyTest16

/-- Witness for C2: a three-pixel radius-1 red stroke at A(0, 0) on the
4×4 test permutation, undone and redone. -/
theorem C2_undo_redo_roundtrip_witness :
    ((GOp.run sC9pre.begin_stroke [GOp.gApplyA 0 0]).end_stroke.undo.imgA =
       sC9pre.imgA ∧
     (GOp.run sC9pre.begin_stroke [GOp.gApplyA 0 0]).end_stroke.undo.imgB =
       sC9pre.imgB) ∧
    ((GOp.run sC9pre.begin_stroke [GOp.gApplyA 0 0]).end_stroke.undo.redo.imgA =
       (GOp.run sC9pre.begin_stroke [GOp.gApplyA 0 0]).end_stroke.imgA ∧
     (GOp.run sC9pre.begin_stroke [GOp.gApplyA 0 0]).end_stroke.undo.redo.imgB =
       (GOp.run sC9pre.begin_stroke [GOp.gApplyA 0 0]).end_stroke.imgB) :=
  C2_undo_redo_roundtrip sC9pre pmTest16
    ⟨4, List.replicate 16 pxZero⟩ ⟨4, List.replicate 16 pxZero⟩
    validPerm_pmTest16
    (by decide) (by decide) (by decide) (by decide) (by decide)
    (by decide) (by decide) (by decide)
    [GOp.gApplyA 0 0]
    ⟨[⟨0, 0, pxZero, pxRed0, 3, 3, pxZero, pxRed0⟩,
      ⟨0, 1, pxZero, pxRed0, 0, 1, pxZero, pxRed0⟩,
      ⟨1, 0, pxZero, pxRed0, 1, 0, pxZero, pxRed0⟩]⟩
    (by decide) (by decide)

/-- `_blend_with_brush` only reads the brush color and opacity. -/
theorem blend_congr (s t : Controller) (hc : t.brush_color = s.brush_color)
    (ho : t.brush_opacity_percent = s.brush_opacity_percent) (p : Pixel) :
    t.blend_with_brush p = s.blend_with_brush p := by
  simp only [Controller.blend_with_brush, hc, ho]

/-- During a brush-only gesture the brush parameters stay those of the
start state and every change recorded so far wrote the single blend of its
own recorded old A value. -/
def BrushProvA (s0 t : Controller) : Prop :=
  t.brush_color = s0.brush_color ∧
  t.brush_opacity_percent = s0.brush_opacity_percent ∧
  t.current_tool = Tool.BRUSH ∧
  ∀ st, t.current_stroke = some st → ∀ c ∈ st.changes,
    c.newA = s0.blend_with_brush c.oldA

theorem BrushProvA.set_pixel {s0 t : Controller} (h : BrushProvA s0 t)
    (y x : Int) (cl : Pixel) :
    BrushProvA s0 (Controller.set_pixel_A_and_B t y x cl true) := by
  obtain ⟨hc, ho, htool, hch⟩ := h
  cases hp : t.permutation with
  | none =>
    simp only [Controller.set_pixel_A_and_B, hp]
    exact ⟨hc, ho, htool, hch⟩
  | some pm =>
  cases hA : t.imgA with
  | none =>
    simp only [Controller.set_pixel_A_and_B, hp, hA]
    exact ⟨hc, ho, htool, hch⟩
  | some imA =>
  cases hB : t.imgB with
  | none =>
    simp only [Controller.set_pixel_A_and_B, hp, hA, hB]
    exact ⟨hc, ho, htool, hch⟩
  | some imB =>
  by_cases hin : 0 ≤ y ∧ y < (pm.H : Int) ∧ 0 ≤ x ∧ x < (pm.W : Int)
  · by_cases hyB : pm.perm.getD (y.toNat * pm.W + x.toNat) 0 / pm.W < pm.H ∧
        pm.perm.getD (y.toNat * pm.W + x.toNat) 0 % pm.W < pm.W
    · cases hst : t.current_stroke with
      | none =>
        rw [set_pixel_A_write_nostroke t pm imA imB hp hA hB y x cl true hin hyB hst]
        refine ⟨hc, ho, htool, fun st2 hst2 => ?_⟩
        exact Option.noConfusion (hst.symm.trans hst2)
      | some st' =>
        by_cases hsk : Controller.touchedHas t.stroke_touched_A (y.toNat, x.toNat) = true
        · rw [set_pixel_A_skip t pm imA imB hp hA hB y x cl true hin
            ⟨by rw [hst]; rfl, hsk⟩]
          exact ⟨hc, ho, htool, hch⟩
        · rw [set_pixel_A_write t pm imA imB hp hA hB y x cl true hin hyB st' hst
            (by simpa using hsk)]
          refine ⟨hc, ho, htool, fun st2 hst2 c hcc => ?_⟩
          have h3 := Option.some.inj hst2
          rw [← h3] at hcc
          dsimp only at hcc
          simp only [reduceIte] at hcc
          split at hcc
          · rcases List.mem_append.mp hcc with hold | hnew
            · exact hch st' hst c hold
            · rw [List.mem_singleton] at hnew
              subst hnew
              dsimp only
              exact blend_congr s0 t hc ho _
          · exact hch st' hst c hcc
    · simp only [Controller.set_pixel_A_and_B, hp, hA, hB]
      rw [if_neg (not_not_intro hin), if_pos hyB]
      exact ⟨hc, ho, htool, hch⟩
  · rw [set_pixel_A_oob t pm imA imB hp hA hB y x cl true hin]
    exact ⟨hc, ho, htool, hch⟩

theorem BrushProvA.apply {s0 t : Controller} (h : BrushProvA s0 t) (y x : Int) :
    BrushProvA s0 (Controller.apply_brush_A t y x) := by
  have htool := h.2.2.1
  cases hp : t.permutation with
  | none =>
    simp only [Controller.apply_brush_A, hp]
    exact h
  | some pm =>
  cases hA : t.imgA with
  | none =>
    simp only [Controller.apply_brush_A, hp, hA]
    exact h
  | some imA =>
  cases hB : t.imgB with
  | none =>
    simp only [Controller.apply_brush_A, hp, hA, hB]
    exact h
  | some imB =>
  simp only [Controller.apply_brush_A, hp, hA, hB]
  rw [if_pos (Or.inl htool)]
  apply foldl_preserves ?_ _ _ h
  intro t1 dy ht1
  apply foldl_preserves ?_ _ _ ht1
  intro t2 dx ht2
  by_cases hdisk : dy * dy + dx * dx ≤ (t.brush_radius : Int) * (t.brush_radius : Int)
  · rw [if_pos hdisk]
    rw [show decide (t.current_tool = Tool.BRUSH) = true from decide_eq_true htool]
    exact BrushProvA.set_pixel ht2 _ _ _
  · rw [if_neg hdisk]
    exact ht2

theorem BrushProvA.brun {s0 : Controller} :
    ∀ (ops : List GOp) (t : Controller), BrushProvA s0 t →
    (∀ g ∈ ops, ∃ y x, g = GOp.gApplyA y x) → BrushProvA s0 (GOp.run t ops) := by
  intro ops
  induction ops with
  | nil =>
    intro t h _
    exact h
  | cons g gs ih =>
    intro t h hops
    obtain ⟨y, x, rfl⟩ := hops g (List.mem_cons_self g gs)
    show BrushProvA s0 (GOp.run (GOp.step t (GOp.gApplyA y x)) gs)
    exact ih _ (BrushProvA.apply h y x) (fun g2 hg2 => hops g2 (List.mem_cons_of_mem _ hg2))

/-- C3: within a single open stroke each A-side coordinate appears in at
most one `PixelChange`; every recorded change holds the pre-stroke value of
its A pixel as `oldA` while the live buffer holds its `newA`; and for a
brush-only gesture every recorded new value is the brush blend applied
exactly once to the pre-stroke value — revisits of a pixel by overlapping
stamps never compound the blend. -/
theorem C3_single_blend_per_stroke
    (s0 : Controller) (pm : PermutationModel) (imA imB : Img)
    (hv : ValidPerm pm)
    (hp : s0.permutation = some pm) (hA : s0.imgA = some imA) (hB : s0.imgB = some imB)
    (hWA : imA.W = pm.W) (hWB : imB.W = pm.W)
    (hlA : imA.data.length = pm.H * pm.W) (hlB : imB.data.length = pm.H * pm.W)
    (ops : List GOp) (st : Stroke) (imA' : Img)
    (hst : (GOp.run s0.begin_stroke ops).current_stroke = some st)
    (hA' : (GOp.run s0.begin_stroke ops).imgA = some imA') :
    (st.changes.map (fun c => (c.yA, c.xA))).Nodup ∧
    (∀ c ∈ st.changes,
      imA.data.getD (c.yA * pm.W + c.xA) pxZero = c.oldA ∧
      imA'.data.getD (c.yA * pm.W + c.xA) pxZero = c.newA) ∧
    (s0.current_tool = Tool.BRUSH →
      (∀ g ∈ ops, ∃ y x, g = GOp.gApplyA y x) →
      ∀ c ∈ st.changes, c.newA = s0.blend_with_brush c.oldA) := by
  have hGI := GInv.grun hv (GInv.begin s0 pm imA imB hp hA hB hWA hWB hlA hlB) ops
  obtain ⟨hperm, hu, hr, hm, st', tch, imA2, imB2, hst', htch', hA2, hB2,
    hWA', hWB', hlA', hlB', hrel⟩ := hGI
  have hstst : st' = st := by
    rw [hst'] at hst
    exact Option.some.inj hst
  rw [hstst] at hrel
  have hImA : imA2 = imA' := by
    rw [hA2] at hA'
    exact Option.some.inj hA'
  rw [hImA] at hrel
  obtain ⟨hnd, hmem, hch, hunA, hunB⟩ := hrel
  refine ⟨hnd, ?_, ?_⟩
  · intro c hcc
    exact ⟨(hch c hcc).2.1, (hch c hcc).2.2.2.1⟩
  · intro htool hops c hcc
    have hb0 : BrushProvA s0 s0.begin_stroke := by
      refine ⟨rfl, rfl, htool, fun st2 hst2 c2 hc2 => ?_⟩
      have h3 := Option.some.inj hst2
      rw [← h3] at hc2
      exact absurd hc2 (by simp)
    have hbr := BrushProvA.brun ops s0.begin_stroke hb0 hops
    exact hbr.2.2.2 st hst c hcc

/-- Witness for C3: the radius-1 red stamp at A(0, 0). -/
theorem C3_single_blend_per_stroke_witness :
    ((Stroke.mk [⟨0, 0, pxZero, pxRed0, 3, 3, pxZero, pxRed0⟩,
       ⟨0, 1, pxZero, pxRed0, 0, 1, pxZero, pxRed0⟩,
       ⟨1, 0, pxZero, pxRed0, 1, 0, pxZero, pxRed0⟩]).changes.map
         (fun c => (c.yA, c.xA))).Nodup ∧
    (∀ c ∈ (Stroke.mk [⟨0, 0, pxZero, pxRed0, 3, 3, pxZero, pxRed0⟩,
       ⟨0, 1, pxZero, pxRed0, 0, 1, pxZero, pxRed0⟩,
       ⟨1, 0, pxZero, pxRed0, 1, 0, pxZero, pxRed0⟩]).changes,
      (Img.mk 4 (List.replicate 16 pxZero)).data.getD
        (c.yA * pmTest16.W + c.xA) pxZero = c.oldA ∧
      (Img.mk 4 [pxRed0, pxRed0, pxZero, pxZero, pxRed0, pxZero, pxZero, pxZero,
        pxZero, pxZero, pxZero, pxZero, pxZero, pxZero, pxZero, pxZero]).data.getD
        (c.yA * pmTest16.W + c.xA) pxZero = c.newA) ∧
    (sC9pre.current_tool = Tool.BRUSH →
      (∀ g ∈ [GOp.gApplyA 0 0], ∃ y x, g = GOp.gApplyA y x) →
      ∀ c ∈ (Stroke.mk [⟨0, 0, pxZero, pxRed0, 3, 3, pxZero, pxRed0⟩,
        ⟨0, 1, pxZero, pxRed0, 0, 1, pxZero, pxRed0⟩,
        ⟨1, 0, pxZero, pxRed0, 1, 0, pxZero, pxRed0⟩]).changes,
        c.newA = sC9pre.blend_with_brush c.oldA) :=
  C3_single_blend_per_stroke sC9pre pmTest16
    ⟨4, List.replicate 16 pxZero⟩ ⟨4, List.replicate 16 pxZero⟩
    validPerm_pmTest16
    (by decide) (by decide) (by decide) (by decide) (by decide)
    (by decide) (by decide)
    [GOp.gApplyA 0 0]
    ⟨[⟨0, 0, pxZero, pxRed0, 3, 3, pxZero, pxRed0⟩,
      ⟨0, 1, pxZero, pxRed0, 0, 1, pxZero, pxRed0⟩,
      ⟨1, 0, pxZero, pxRed0, 1, 0, pxZero, pxRed0⟩]⟩
    ⟨4, [pxRed0, pxRed0, pxZero, pxZero, pxRed0, pxZero, pxZero, pxZero,
      pxZero, pxZero, pxZero, pxZero, pxZero, pxZero, pxZero, pxZero]⟩
    (by decide) (by decide)

/-- Read a pixel of an optional buffer (transparent black when absent). -/
def imgRead (o : Option Img) (i : Nat) : Pixel :=
  match o with
  | some im => im.data.getD i pxZero
  | none => pxZero

/-- Mid-gesture state in which the in-bounds A key `key` is already in the
per-stroke dedup set while its A pixel holds `vA` and its B partner holds
`vB`: both values are frozen for the rest of the gesture. -/
def FrozenAt (pm : PermutationModel) (key : Nat × Nat) (vA vB : Pixel)
    (t : Controller) : Prop :=
  key.1 < pm.H ∧ key.2 < pm.W ∧
  t.permutation = some pm ∧
  t.current_stroke.isSome = true ∧
  (∃ tch, t.stroke_touched_A = some tch ∧ key ∈ tch) ∧
  (∃ imA, t.imgA = some imA ∧ imA.W = pm.W ∧ imA.data.length = pm.H * pm.W ∧
    imA.data.getD (key.1 * pm.W + key.2) pxZero = vA) ∧
  (∃ imB, t.imgB = some imB ∧ imB.W = pm.W ∧ imB.data.length = pm.H * pm.W ∧
    imB.data.getD (pm.perm.getD (key.1 * pm.W + key.2) 0) pxZero = vB)

theorem FrozenAt.fset_A {pm : PermutationModel} {key : Nat × Nat} {vA vB : Pixel}
    {t : Controller} (hv : ValidPerm pm) (h : FrozenAt pm key vA vB t)
    (y x : Int) (cl : Pixel) (b : Bool) :
    FrozenAt pm key vA vB (Controller.set_pixel_A_and_B t y x cl b) := by
  obtain ⟨hky, hkx, hp, hsome, ⟨tch, htch, hmem⟩,
    ⟨imA, hA, hWA, hlA, hvA⟩, ⟨imB, hB, hWB, hlB, hvB⟩⟩ := h
  obtain ⟨st', hst'⟩ := Option.isSome_iff_exists.mp hsome
  by_cases hin : 0 ≤ y ∧ y < (pm.H : Int) ∧ 0 ≤ x ∧ x < (pm.W : Int)
  case neg =>
    rw [set_pixel_A_oob t pm imA imB hp hA hB y x cl b hin]
    exact ⟨hky, hkx, hp, hsome, ⟨tch, htch, hmem⟩,
      ⟨imA, hA, hWA, hlA, hvA⟩, ⟨imB, hB, hWB, hlB, hvB⟩⟩
  have hyn : y.toNat < pm.H := by omega
  have hxn : x.toNat < pm.W := by omega
  have hidxA : y.toNat * pm.W + x.toNat < pm.H * pm.W := linIdx_lt hyn hxn
  have hidxK : key.1 * pm.W + key.2 < pm.H * pm.W := linIdx_lt hky hkx
  have hq : pm.perm.getD (y.toNat * pm.W + x.toNat) 0 < pm.H * pm.W := hv.bound _ hidxA
  have hyB : pm.perm.getD (y.toNat * pm.W + x.toNat) 0 / pm.W < pm.H ∧
      pm.perm.getD (y.toNat * pm.W + x.toNat) 0 % pm.W < pm.W :=
    ⟨by rw [Nat.div_lt_iff_lt_mul hv.wpos]; exact hq, Nat.mod_lt _ hv.wpos⟩
  by_cases hsk : (y.toNat, x.toNat) ∈ tch
  case pos =>
    rw [set_pixel_A_skip t pm imA imB hp hA hB y x cl b hin
      ⟨by rw [hst']; rfl, by rw [htch]; simp [Controller.touchedHas, hsk]⟩]
    exact ⟨hky, hkx, hp, hsome, ⟨tch, htch, hmem⟩,
      ⟨imA, hA, hWA, hlA, hvA⟩, ⟨imB, hB, hWB, hlB, hvB⟩⟩
  have hwkey : ((y.toNat, x.toNat) : Nat × Nat) ≠ key := by
    intro he
    rw [he] at hsk
    exact hsk hmem
  have hidxne : y.toNat * pm.W + x.toNat ≠ key.1 * pm.W + key.2 := by
    intro he
    obtain ⟨h1, h2⟩ := linIdx_inj hxn hkx he
    exact hwkey (Prod.ext h1 h2)
  have hpermne : pm.perm.getD (y.toNat * pm.W + x.toNat) 0 ≠
      pm.perm.getD (key.1 * pm.W + key.2) 0 := by
    intro he
    exact hidxne (hv.getD_inj hidxA hidxK he)
  rw [set_pixel_A_write t pm imA imB hp hA hB y x cl b hin hyB st' hst'
    (by rw [htch]; simp [Controller.touchedHas, hsk])]
  rw [hWA, hWB, linIdx_split]
  refine ⟨hky, hkx, hp, rfl, ⟨(y.toNat, x.toNat) :: tch, by rw [htch],
    List.mem_cons_of_mem _ hmem⟩, ⟨_, rfl, rfl, ?_, ?_⟩, ⟨_, rfl, rfl, ?_, ?_⟩⟩
  · rw [List.length_set]
    exact hlA
  · rw [getD_set_ne _ _ _ _ _ hidxne]
    exact hvA
  · rw [List.length_set]
    exact hlB
  · rw [getD_set_ne _ _ _ _ _ hpermne]
    exact hvB

theorem FrozenAt.fset_B {pm : PermutationModel} {key : Nat × Nat} {vA vB : Pixel}
    {t : Controller} (hv : ValidPerm pm) (h : FrozenAt pm key vA vB t)
    (y x : Int) (cl : Pixel) (b : Bool) :
    FrozenAt pm key vA vB (Controller.set_pixel_B_and_A t y x cl b) := by
  obtain ⟨hky, hkx, hp, hsome, ⟨tch, htch, hmem⟩,
    ⟨imA, hA, hWA, hlA, hvA⟩, ⟨imB, hB, hWB, hlB, hvB⟩⟩ := h
  obtain ⟨st', hst'⟩ := Option.isSome_iff_exists.mp hsome
  by_cases hin : 0 ≤ y ∧ y < (pm.H : Int) ∧ 0 ≤ x ∧ x < (pm.W : Int)
  case neg =>
    rw [set_pixel_B_oob t pm imA imB hp hA hB y x cl b hin]
    exact ⟨hky, hkx, hp, hsome, ⟨tch, htch, hmem⟩,
      ⟨imA, hA, hWA, hlA, hvA⟩, ⟨imB, hB, hWB, hlB, hvB⟩⟩
  have hyn : y.toNat < pm.H := by omega
  have hxn : x.toNat < pm.W := by omega
  have hidxB : y.toNat * pm.W + x.toNat < pm.H * pm.W := linIdx_lt hyn hxn
  have hidxK : key.1 * pm.W + key.2 < pm.H * pm.W := linIdx_lt hky hkx
  have hqK : pm.perm.getD (key.1 * pm.W + key.2) 0 < pm.H * pm.W := hv.bound _ hidxK
  obtain ⟨hpb, hpr⟩ := hv.rinv (y.toNat * pm.W + x.toNat) hidxB
  have hyA : pm.inv_perm.getD (y.toNat * pm.W + x.toNat) 0 / pm.W < pm.H ∧
      pm.inv_perm.getD (y.toNat * pm.W + x.toNat) 0 % pm.W < pm.W :=
    ⟨by rw [Nat.div_lt_iff_lt_mul hv.wpos]; exact hpb, Nat.mod_lt _ hv.wpos⟩
  by_cases hsk : (pm.inv_perm.getD (y.toNat * pm.W + x.toNat) 0 / pm.W,
      pm.inv_perm.getD (y.toNat * pm.W + x.toNat) 0 % pm.W) ∈ tch
  case pos =>
    rw [set_pixel_B_skip t pm imA imB hp hA hB y x cl b hin
      ⟨by rw [hst']; rfl,
       by rw [htch]; simp only [Controller.touchedHas, decide_eq_true_eq]; exact hsk⟩]
    exact ⟨hky, hkx, hp, hsome, ⟨tch, htch, hmem⟩,
      ⟨imA, hA, hWA, hlA, hvA⟩, ⟨imB, hB, hWB, hlB, hvB⟩⟩
  have hpne : pm.inv_perm.getD (y.toNat * pm.W + x.toNat) 0 ≠ key.1 * pm.W + key.2 := by
    intro he
    apply hsk
    rw [he, linIdx_div hv.wpos hkx, linIdx_mod hkx]
    exact hmem
  have hidxne : y.toNat * pm.W + x.toNat ≠ pm.perm.getD (key.1 * pm.W + key.2) 0 := by
    intro he
    apply hpne
    apply hv.getD_inj hpb hidxK
    rw [hpr, he]
  rw [set_pixel_B_write t pm imA imB hp hA hB y x cl b hin hyA st' hst'
    (by rw [htch]; simp only [Controller.touchedHas]; exact decide_eq_false hsk)]
  rw [hWA, hWB, linIdx_split]
  refine ⟨hky, hkx, hp, rfl, ⟨(pm.inv_perm.getD (y.toNat * pm.W + x.toNat) 0 / pm.W,
      pm.inv_perm.getD (y.toNat * pm.W + x.toNat) 0 % pm.W) :: tch, by rw [htch],
    List.mem_cons_of_mem _ hmem⟩, ⟨_, rfl, rfl, ?_, ?_⟩, ⟨_, rfl, rfl, ?_, ?_⟩⟩
  · rw [List.length_set]
    exact hlA
  · rw [getD_set_ne _ _ _ _ _ hpne]
    exact hvA
  · rw [List.length_set]
    exact hlB
  · rw [getD_set_ne _ _ _ _ _ hidxne]
    exact hvB

theorem FrozenAt.apply_A {pm : PermutationModel} {key : Nat × Nat} {vA vB : Pixel}
    {t : Controller} (hv : ValidPerm pm) (h : FrozenAt pm key vA vB t) (y x : Int) :
    FrozenAt pm key vA vB (Controller.apply_brush_A t y x) := by
  obtain ⟨hky, hkx, hp, hsome, htt, ⟨imA, hA, hWA, hlA, hvA⟩,
    ⟨imB, hB, hWB, hlB, hvB⟩⟩ := h
  have h' : FrozenAt pm key vA vB t :=
    ⟨hky, hkx, hp, hsome, htt, ⟨imA, hA, hWA, hlA, hvA⟩, ⟨imB, hB, hWB, hlB, hvB⟩⟩
  simp only [Controller.apply_brush_A, hp, hA, hB]
  by_cases htool : t.current_tool = Tool.BRUSH ∨ t.current_tool = Tool.ERASER
  · rw [if_pos htool]
    apply foldl_preserves ?_ _ _ h'
    intro t1 dy ht1
    apply foldl_preserves ?_ _ _ ht1
    intro t2 dx ht2
    by_cases hdisk : dy * dy + dx * dx ≤ (t.brush_radius : Int) * (t.brush_radius : Int)
    · rw [if_pos hdisk]
      exact FrozenAt.fset_A hv ht2 _ _ _ _
    · rw [if_neg hdisk]
      exact ht2
  · rw [if_neg htool]
    by_cases hin : 0 ≤ y ∧ y < (pm.H : Int) ∧ 0 ≤ x ∧ x < (pm.W : Int)
    · rw [if_pos hin]
      exact h'
    · rw [if_neg hin]
      exact h'

theorem FrozenAt.apply_B {pm : PermutationModel} {key : Nat × Nat} {vA vB : Pixel}
    {t : Controller} (hv : ValidPerm pm) (h : FrozenAt pm key vA vB t) (y x : Int) :
    FrozenAt pm key vA vB (Controller.apply_brush_B t y x) := by
  obtain ⟨hky, hkx, hp, hsome, htt, ⟨imA, hA, hWA, hlA, hvA⟩,
    ⟨imB, hB, hWB, hlB, hvB⟩⟩ := h
  have h' : FrozenAt pm key vA vB t :=
    ⟨hky, hkx, hp, hsome, htt, ⟨imA, hA, hWA, hlA, hvA⟩, ⟨imB, hB, hWB, hlB, hvB⟩⟩
  simp only [Controller.apply_brush_B, hp, hA, hB]
  by_cases htool : t.current_tool = Tool.BRUSH ∨ t.current_tool = Tool.ERASER
  · rw [if_pos htool]
    apply foldl_preserves ?_ _ _ h'
    intro t1 dy ht1
    apply foldl_preserves ?_ _ _ ht1
    intro t2 dx ht2
    by_cases hdisk : dy * dy + dx * dx ≤ (t.brush_radius : Int) * (t.brush_radius : Int)
    · rw [if_pos hdisk]
      exact FrozenAt.fset_B hv ht2 _ _ _ _
    · rw [if_neg hdisk]
      exact ht2
  · rw [if_neg htool]
    by_cases hin : 0 ≤ y ∧ y < (pm.H : Int) ∧ 0 ≤ x ∧ x < (pm.W : Int)
    · rw [if_pos hin]
      exact h'
    · rw [if_neg hin]
      exact h'

theorem FrozenAt.fstep {pm : PermutationModel} {key : Nat × Nat} {vA vB : Pixel}
    {t : Controller} (hv : ValidPerm pm) (h : FrozenAt pm key vA vB t) (g : GOp) :
    FrozenAt pm key vA vB (GOp.step t g) := by
  cases g with
  | gApplyA y x => exact FrozenAt.apply_A hv h y x
  | gApplyB y x => exact FrozenAt.apply_B hv h y x
  | gSetTool tl => exact h
  | gSetBrushColor p => exact h
  | gSetBrushRadius n => exact h
  | gSetBrushOpacity n => exact h

theorem FrozenAt.frun {pm : PermutationModel} {key : Nat × Nat} {vA vB : Pixel}
    {t : Controller} (hv : ValidPerm pm) (h : FrozenAt pm key vA vB t)
    (ops : List GOp) : FrozenAt pm key vA vB (GOp.run t ops) := by
  have hf : ∀ (t' : Controller) (g : GOp),
      FrozenAt pm key vA vB t' → FrozenAt pm key vA vB (GOp.step t' g) :=
    fun _ g ht => FrozenAt.fstep hv ht g
  exact foldl_preserves hf ops t h


/-- C10: within one open stroke, the first per-pixel write that processes
an A coordinate not yet in the dedup set — through either write path,
`_set_pixel_A_and_B` on the A canvas or `_set_pixel_B_and_A` on the B
canvas — always adds the coordinate to the set, also when the written
value equals both existing values, in which case no `PixelChange` is
recorded and both buffers are left unchanged; and once an A coordinate is
in the dedup set, any further sequence of gesture calls (applies on either
canvas, tool / color / radius / opacity changes in between) leaves its A
pixel and its paired B pixel unchanged. -/
theorem C10_first_touch_marks_then_freezes
    (t : Controller) (pm : PermutationModel) (imA imB : Img) (st : Stroke)
    (tch : List (Nat × Nat)) (hv : ValidPerm pm)
    (hp : t.permutation = some pm) (hA : t.imgA = some imA) (hB : t.imgB = some imB)
    (hst : t.current_stroke = some st) (htch : t.stroke_touched_A = some tch)
    (hWA : imA.W = pm.W) (hWB : imB.W = pm.W)
    (hlA : imA.data.length = pm.H * pm.W) (hlB : imB.data.length = pm.H * pm.W) :
    (∀ y x : Int, (0 ≤ y ∧ y < (pm.H : Int) ∧ 0 ≤ x ∧ x < (pm.W : Int)) →
      (y.toNat, x.toNat) ∉ tch →
      ∀ (cl : Pixel) (b : Bool),
        (Controller.set_pixel_A_and_B t y x cl b).stroke_touched_A =
          some ((y.toNat, x.toNat) :: tch) ∧
        ((if b then t.blend_with_brush
            (imA.data.getD (y.toNat * pm.W + x.toNat) pxZero) else cl) =
            imA.data.getD (y.toNat * pm.W + x.toNat) pxZero →
         (if b then t.blend_with_brush
            (imA.data.getD (y.toNat * pm.W + x.toNat) pxZero) else cl) =
            imB.data.getD (pm.perm.getD (y.toNat * pm.W + x.toNat) 0) pxZero →
          (Controller.set_pixel_A_and_B t y x cl b).current_stroke = some st ∧
          (Controller.set_pixel_A_and_B t y x cl b).imgA = some imA ∧
          (Controller.set_pixel_A_and_B t y x cl b).imgB = some imB)) ∧
    (∀ y x : Int, (0 ≤ y ∧ y < (pm.H : Int) ∧ 0 ≤ x ∧ x < (pm.W : Int)) →
      (pm.inv_perm.getD (y.toNat * pm.W + x.toNat) 0 / pm.W,
       pm.inv_perm.getD (y.toNat * pm.W + x.toNat) 0 % pm.W) ∉ tch →
      ∀ (cl : Pixel) (b : Bool),
        (Controller.set_pixel_B_and_A t y x cl b).stroke_touched_A =
          some ((pm.inv_perm.getD (y.toNat * pm.W + x.toNat) 0 / pm.W,
            pm.inv_perm.getD (y.toNat * pm.W + x.toNat) 0 % pm.W) :: tch) ∧
        ((if b then t.blend_with_brush
            (imB.data.getD (y.toNat * pm.W + x.toNat) pxZero) else cl) =
            imA.data.getD (pm.inv_perm.getD (y.toNat * pm.W + x.toNat) 0) pxZero →
         (if b then t.blend_with_brush
            (imB.data.getD (y.toNat * pm.W + x.toNat) pxZero) else cl) =
            imB.data.getD (y.toNat * pm.W + x.toNat) pxZero →
          (Controller.set_pixel_B_and_A t y x cl b).current_stroke = some st ∧
          (Controller.set_pixel_B_and_A t y x cl b).imgA = some imA ∧
          (Controller.set_pixel_B_and_A t y x cl b).imgB = some imB)) ∧
    (∀ key ∈ tch, key.1 < pm.H → key.2 < pm.W →
      ∀ ops : List GOp,
        imgRead (GOp.run t ops).imgA (key.1 * pm.W + key.2) =
          imA.data.getD (key.1 * pm.W + key.2) pxZero ∧
        imgRead (GOp.run t ops).imgB (pm.perm.getD (key.1 * pm.W + key.2) 0) =
          imB.data.getD (pm.perm.getD (key.1 * pm.W + key.2) 0) pxZero) := by
  refine ⟨?_, ?_, ?_⟩
  · intro y x hin hnotin cl b
    have hyn : y.toNat < pm.H := by omega
    have hxn : x.toNat < pm.W := by omega
    have hidxA : y.toNat * pm.W + x.toNat < pm.H * pm.W := linIdx_lt hyn hxn
    have hq : pm.perm.getD (y.toNat * pm.W + x.toNat) 0 < pm.H * pm.W := hv.bound _ hidxA
    have hyB : pm.perm.getD (y.toNat * pm.W + x.toNat) 0 / pm.W < pm.H ∧
        pm.perm.getD (y.toNat * pm.W + x.toNat) 0 % pm.W < pm.W :=
      ⟨by rw [Nat.div_lt_iff_lt_mul hv.wpos]; exact hq, Nat.mod_lt _ hv.wpos⟩
    have hskf : Controller.touchedHas t.stroke_touched_A (y.toNat, x.toNat) = false := by
      rw [htch]
      simp only [Controller.touchedHas]
      exact decide_eq_false hnotin
    rw [set_pixel_A_write t pm imA imB hp hA hB y x cl b hin hyB st hst hskf]
    rw [hWA, hWB, linIdx_split]
    constructor
    · show (match t.stroke_touched_A with
        | some tl => some ((y.toNat, x.toNat) :: tl)
        | none => none) = some ((y.toNat, x.toNat) :: tch)
      rw [htch]
    · intro hveqA hveqB
      have hnorec : ¬(imA.data.getD (y.toNat * pm.W + x.toNat) pxZero ≠
          (if b then t.blend_with_brush
            (imA.data.getD (y.toNat * pm.W + x.toNat) pxZero) else cl) ∨
          imB.data.getD (pm.perm.getD (y.toNat * pm.W + x.toNat) 0) pxZero ≠
          (if b then t.blend_with_brush
            (imA.data.getD (y.toNat * pm.W + x.toNat) pxZero) else cl)) := by
        push_neg
        exact ⟨hveqA.symm, hveqB.symm⟩
      rw [if_neg hnorec]
      have hsetA : imA.data.set (y.toNat * pm.W + x.toNat)
          (if b then t.blend_with_brush
            (imA.data.getD (y.toNat * pm.W + x.toNat) pxZero) else cl) = imA.data := by
        refine list_ext_getD _ _ pxZero (by rw [List.length_set]) ?_
        intro j hj
        exact set_self_getD _ _ _ _ hveqA.symm
      have hsetB : imB.data.set (pm.perm.getD (y.toNat * pm.W + x.toNat) 0)
          (if b then t.blend_with_brush
            (imA.data.getD (y.toNat * pm.W + x.toNat) pxZero) else cl) = imB.data := by
        refine list_ext_getD _ _ pxZero (by rw [List.length_set]) ?_
        intro j hj
        exact set_self_getD _ _ _ _ hveqB.symm
      refine ⟨rfl, ?_, ?_⟩
      · show some (⟨pm.W, imA.data.set (y.toNat * pm.W + x.toNat)
          (if b then t.blend_with_brush
            (imA.data.getD (y.toNat * pm.W + x.toNat) pxZero) else cl)⟩ : Img) = some imA
        rw [hsetA, ← hWA]
      · show some (⟨pm.W, imB.data.set (pm.perm.getD (y.toNat * pm.W + x.toNat) 0)
          (if b then t.blend_with_brush
            (imA.data.getD (y.toNat * pm.W + x.toNat) pxZero) else cl)⟩ : Img) = some imB
        rw [hsetB, ← hWB]
  · intro y x hin hnotin cl b
    have hyn : y.toNat < pm.H := by omega
    have hxn : x.toNat < pm.W := by omega
    have hidxB : y.toNat * pm.W + x.toNat < pm.H * pm.W := linIdx_lt hyn hxn
    obtain ⟨hpb, hpr⟩ := hv.rinv (y.toNat * pm.W + x.toNat) hidxB
    have hyA : pm.inv_perm.getD (y.toNat * pm.W + x.toNat) 0 / pm.W < pm.H ∧
        pm.inv_perm.getD (y.toNat * pm.W + x.toNat) 0 % pm.W < pm.W :=
      ⟨by rw [Nat.div_lt_iff_lt_mul hv.wpos]; exact hpb, Nat.mod_lt _ hv.wpos⟩
    have hskf : Controller.touchedHas t.stroke_touched_A
        (pm.inv_perm.getD (y.toNat * pm.W + x.toNat) 0 / pm.W,
         pm.inv_perm.getD (y.toNat * pm.W + x.toNat) 0 % pm.W) = false := by
      rw [htch]
      simp only [Controller.touchedHas]
      exact decide_eq_false hnotin
    rw [set_pixel_B_write t pm imA imB hp hA hB y x cl b hin hyA st hst hskf]
    rw [hWA, hWB, linIdx_split]
    constructor
    · show (match t.stroke_touched_A with
        | some tl => some ((pm.inv_perm.getD (y.toNat * pm.W + x.toNat) 0 / pm.W,
            pm.inv_perm.getD (y.toNat * pm.W + x.toNat) 0 % pm.W) :: tl)
        | none => none) = some ((pm.inv_perm.getD (y.toNat * pm.W + x.toNat) 0 / pm.W,
            pm.inv_perm.getD (y.toNat * pm.W + x.toNat) 0 % pm.W) :: tch)
      rw [htch]
    · intro hveqA hveqB
      have hnorec : ¬(imA.data.getD (pm.inv_perm.getD (y.toNat * pm.W + x.toNat) 0)
            pxZero ≠
          (if b then t.blend_with_brush
            (imB.data.getD (y.toNat * pm.W + x.toNat) pxZero) else cl) ∨
          imB.data.getD (y.toNat * pm.W + x.toNat) pxZero ≠
          (if b then t.blend_with_brush
            (imB.data.getD (y.toNat * pm.W + x.toNat) pxZero) else cl)) := by
        push_neg
        exact ⟨hveqA.symm, hveqB.symm⟩
      rw [if_neg hnorec]
      have hsetA : imA.data.set (pm.inv_perm.getD (y.toNat * pm.W + x.toNat) 0)
          (if b then t.blend_with_brush
            (imB.data.getD (y.toNat * pm.W + x.toNat) pxZero) else cl) = imA.data := by
        refine list_ext_getD _ _ pxZero (by rw [List.length_set]) ?_
        intro j hj
        exact set_self_getD _ _ _ _ hveqA.symm
      have hsetB : imB.data.set (y.toNat * pm.W + x.toNat)
          (if b then t.blend_with_brush
            (imB.data.getD (y.toNat * pm.W + x.toNat) pxZero) else cl) = imB.data := by
        refine list_ext_getD _ _ pxZero (by rw [List.length_set]) ?_
        intro j hj
        exact set_self_getD _ _ _ _ hveqB.symm
      refine ⟨rfl, ?_, ?_⟩
      · show some (⟨pm.W, imA.data.set (pm.inv_perm.getD (y.toNat * pm.W + x.toNat) 0)
          (if b then t.blend_with_brush
            (imB.data.getD (y.toNat * pm.W + x.toNat) pxZero) else cl)⟩ : Img) = some imA
        rw [hsetA, ← hWA]
      · show some (⟨pm.W, imB.data.set (y.toNat * pm.W + x.toNat)
          (if b then t.blend_with_brush
            (imB.data.getD (y.toNat * pm.W + x.toNat) pxZero) else cl)⟩ : Img) = some imB
        rw [hsetB, ← hWB]
  · intro key hmemkey hky hkx ops
    have hfr0 : FrozenAt pm key
        (imA.data.getD (key.1 * pm.W + key.2) pxZero)
        (imB.data.getD (pm.perm.getD (key.1 * pm.W + key.2) 0) pxZero) t :=
      ⟨hky, hkx, hp, by rw [hst]; rfl, ⟨tch, htch, hmemkey⟩,
       ⟨imA, hA, hWA, hlA, rfl⟩, ⟨imB, hB, hWB, hlB, rfl⟩⟩
    have hfr := FrozenAt.frun hv hfr0 ops
    obtain ⟨_, _, _, _, _, ⟨imA2, hA2, _, _, hvA2⟩, ⟨imB2, hB2, _, _, hvB2⟩⟩ := hfr
    constructor
    · rw [hA2]
      exact hvA2
    · rw [hB2]
      exact hvB2

/-- The controller in the middle of the witness gesture: stroke open, the
radius-1 red stamp at A(0, 0) already processed. -/
def sC10mid : Controller := GOp.run sC9pre.begin_stroke [GOp.gApplyA 0 0]

/-- The A buffer of `sC10mid`. -/
def imAC10 : Img :=
  ⟨4, [pxRed0, pxRed0, pxZero, pxZero, pxRed0, pxZero, pxZero, pxZero,
    pxZero, pxZero, pxZero, pxZero, pxZero, pxZero, pxZero, pxZero]⟩

/-- The B buffer of `sC10mid`. -/
def imBC10 : Img :=
  ⟨4, [pxZero, pxRed0, pxZero, pxZero, pxRed0, pxZero, pxZero, pxZero,
    pxZero, pxZero, pxZero, pxZero, pxZero, pxZero, pxZero, pxRed0]⟩

/-- The open stroke of `sC10mid`. -/
def stC10 : Stroke :=
  ⟨[⟨0, 0, pxZero, pxRed0, 3, 3, pxZero, pxRed0⟩,
    ⟨0, 1, pxZero, pxRed0, 0, 1, pxZero, pxRed0⟩,
    ⟨1, 0, pxZero, pxRed0, 1, 0, pxZero, pxRed0⟩]⟩

/-- The dedup set of `sC10mid`. -/
def tchC10 : List (Nat × Nat) := [(1, 0), (0, 1), (0, 0)]

/-- Witness for C10 on the mid-stroke state `sC10mid`: its dedup set holds
the three stamped coordinates, so the first-touch parts apply to every
untouched in-bounds coordinate on either canvas and the freeze part to
each of the three touched ones. -/
theorem C10_first_touch_marks_then_freezes_witness :
    (∀ y x : Int, (0 ≤ y ∧ y < (4 : Int) ∧ 0 ≤ x ∧ x < (4 : Int)) →
      (y.toNat, x.toNat) ∉ tchC10 →
      ∀ (cl : Pixel) (b : Bool),
        (Controller.set_pixel_A_and_B sC10mid y x cl b).stroke_touched_A =
          some ((y.toNat, x.toNat) :: tchC10) ∧
        ((if b then sC10mid.blend_with_brush
            (imAC10.data.getD (y.toNat * 4 + x.toNat) pxZero) else cl) =
            imAC10.data.getD (y.toNat * 4 + x.toNat) pxZero →
         (if b then sC10mid.blend_with_brush
            (imAC10.data.getD (y.toNat * 4 + x.toNat) pxZero) else cl) =
            imBC10.data.getD (pmTest16.perm.getD (y.toNat * 4 + x.toNat) 0) pxZero →
          (Controller.set_pixel_A_and_B sC10mid y x cl b).current_stroke = some stC10 ∧
          (Controller.set_pixel_A_and_B sC10mid y x cl b).imgA = some imAC10 ∧
          (Controller.set_pixel_A_and_B sC10mid y x cl b).imgB = some imBC10)) ∧
    (∀ y x : Int, (0 ≤ y ∧ y < (4 : Int) ∧ 0 ≤ x ∧ x < (4 : Int)) →
      (pmTest16.inv_perm.getD (y.toNat * 4 + x.toNat) 0 / 4,
       pmTest16.inv_perm.getD (y.toNat * 4 + x.toNat) 0 % 4) ∉ tchC10 →
      ∀ (cl : Pixel) (b : Bool),
        (Controller.set_pixel_B_and_A sC10mid y x cl b).stroke_touched_A =
          some ((pmTest16.inv_perm.getD (y.toNat * 4 + x.toNat) 0 / 4,
            pmTest16.inv_perm.getD (y.toNat * 4 + x.toNat) 0 % 4) :: tchC10) ∧
        ((if b then sC10mid.blend_with_brush
            (imBC10.data.getD (y.toNat * 4 + x.toNat) pxZero) else cl) =
            imAC10.data.getD (pmTest16.inv_perm.getD (y.toNat * 4 + x.toNat) 0) pxZero →
         (if b then sC10mid.blend_with_brush
            (imBC10.data.getD (y.toNat * 4 + x.toNat) pxZero) else cl) =
            imBC10.data.getD (y.toNat * 4 + x.toNat) pxZero →
          (Controller.set_pixel_B_and_A sC10mid y x cl b).current_stroke = some stC10 ∧
          (Controller.set_pixel_B_and_A sC10mid y x cl b).imgA = some imAC10 ∧
          (Controller.set_pixel_B_and_A sC10mid y x cl b).imgB = some imBC10)) ∧
    (∀ key ∈ tchC10, key.1 < 4 → key.2 < 4 →
      ∀ ops : List GOp,
        imgRead (GOp.run sC10mid ops).imgA (key.1 * 4 + key.2) =
          imAC10.data.getD (key.1 * 4 + key.2) pxZero ∧
        imgRead (GOp.run sC10mid ops).imgB (pmTest16.perm.getD (key.1 * 4 + key.2) 0) =
          imBC10.data.getD (pmTest16.perm.getD (key.1 * 4 + key.2) 0) pxZero) :=
  C10_first_touch_marks_then_freezes sC10mid pmTest16 imAC10 imBC10 stC10 tchC10
    validPerm_pmTest16
    (by decide) (by decide) (by decide) (by decide) (by decide)
    (by decide) (by decide) (by decide) (by decide)
